import Mathlib

/-!
Verification of the Siglum engine's resource fabric against its code.

The definitions below are a shallow embedding of the JavaScript sources:

* `VirtualFileSystem` (compilation worker, the copy carrying
  `mountBundle` / `mountLazy` / `resolveLazy` / `resolveDeferred` /
  `patchForLazyLoading` / `generateLsR` / `finalize`),
* `BundleManager.resolveBundles` / `checkPackages`,
* `CTANFetcher.fetchPackage` / `loadPackageFromCache`,
* the retry loop of `handleCompile`.

Modelling conventions:
* byte buffers (`Uint8Array` / `ArrayBuffer`) are `List Nat`;
* JavaScript `Map` / plain objects used as dictionaries are association
  lists with `updAssoc` giving the `Map.set` semantics (later `set` of the
  same key replaces), and `List.lookup` the `Map.get` semantics;
* JavaScript `Set` keeps insertion order, modelled by `insertSet`;
* the engine's MEMFS is modelled as a flat map from absolute path strings
  to node contents; directories are not modelled (`_ensureDirectory` /
  `_ensureDirectoryPath` only create parent directories and never change
  file nodes), and `FS.writeFile` on a file path is total in the model;
* `slice(start, end)` of a buffer is `jsSlice`: it clamps exactly like the
  JavaScript method for `start ≤ end` and returns the empty buffer when
  `end ≤ start`.
-/

namespace Siglum

/-- JavaScript `String.prototype.endsWith`. -/
def jsEndsWith (s t : String) : Bool := t.data.isSuffixOf s.data

/-- JavaScript `String.prototype.startsWith`. -/
def jsStartsWith (s t : String) : Bool := t.data.isPrefixOf s.data

/-- JavaScript `buffer.slice(s, e)` for a byte buffer. -/
def jsSlice (data : List Nat) (s e : Nat) : List Nat := (data.drop s).take (e - s)

/-- JavaScript `Map.prototype.set`: replace any earlier binding of the key. -/
def updAssoc {σ α : Type} [BEq σ] (m : List (σ × α)) (k : σ) (v : α) : List (σ × α) :=
  (k, v) :: m.filter (fun kv => !(kv.1 == k))

/-- JavaScript `Set.prototype.add`: append if absent (insertion order kept). -/
def insertSet {σ : Type} [DecidableEq σ] (l : List σ) (x : σ) : List σ :=
  if x ∈ l then l else l ++ [x]

theorem lookup_updAssoc_self {σ α : Type} [BEq σ] [LawfulBEq σ]
    (m : List (σ × α)) (k : σ) (v : α) : (updAssoc m k v).lookup k = some v := by
  simp [updAssoc, List.lookup]

theorem lookup_updAssoc_ne {σ α : Type} [BEq σ] [LawfulBEq σ]
    (m : List (σ × α)) (k k' : σ) (v : α) (h : k' ≠ k) :
    (updAssoc m k v).lookup k' = m.lookup k' := by
  have hb : (k' == k) = false := by simpa using h
  simp only [updAssoc, List.lookup, hb]
  induction m with
  | nil => rfl
  | cons kv t ih =>
    by_cases hk : kv.1 == k
    · have hne : (k' == kv.1) = false := by
        rw [beq_iff_eq] at hk
        refine beq_eq_false_iff_ne.mpr ?_
        intro hEq
        exact h (hEq.trans hk)
      simp only [List.filter, hk, List.lookup, hne]
      simpa [List.lookup, hne] using ih
    · simp only [List.filter, hk, List.lookup]
      cases hk' : k' == kv.1 with
      | true => simp [List.lookup, hk']
      | false => simpa [List.lookup, hk'] using ih

theorem mem_insertSet {σ : Type} [DecidableEq σ] (l : List σ) (x y : σ) :
    y ∈ insertSet l x ↔ y ∈ l ∨ y = x := by
  unfold insertSet
  split
  · constructor
    · exact Or.inl
    · rintro (h | rfl) <;> [exact h; assumption]
  · simp [or_comm]

theorem subset_insertSet {σ : Type} [DecidableEq σ] (l : List σ) (x : σ) :
    l ⊆ insertSet l x := fun _ hy => (mem_insertSet l x _).mpr (Or.inl hy)

/-! ## The virtual file system -/

/-- Contents of a MEMFS node, as the worker's `VirtualFileSystem` uses them:
a plain `Uint8Array`, a Lazy marker object, or a Deferred marker object.
A marker records `bundleName`, `start` and `end` (called `strt` / `stop`
here because `end` is reserved). -/
inductive NodeContents : Type where
  | bytes (data : List Nat)
  | lazyMarker (bundleName : String) (strt stop : Nat)
  | deferredMarker (bundleName : String) (strt stop : Nat)
  deriving DecidableEq, Repr

/-- One entry of the global `file-manifest.json`: `{bundle, start, end}`. -/
structure ManifestInfo : Type where
  bundle : String
  strt : Nat
  stop : Nat
  deriving DecidableEq, Repr

/-- One entry of a per-bundle `<id>.meta.json` `files` array. -/
structure BundleMetaFile : Type where
  path : String
  name : String
  strt : Nat
  stop : Nat
  deriving DecidableEq, Repr

/-- State of one `VirtualFileSystem` instance together with the MEMFS
file map it owns. -/
structure VFS : Type where
  fs : List (String × NodeContents)
  mountedFiles : List String
  pendingFontMaps : List String
  bundleCache : List (String × List Nat)
  lazyEnabled : Bool
  fetchedFiles : List ((String × Nat × Nat) × List Nat)
  pendingDeferredFiles : List (String × Nat × Nat)
  fontFileLocations : List (String × String)
  deriving DecidableEq, Repr

/-- A fresh VFS as built by the constructor (empty caches unless injected). -/
def vfsInit (lazyEnabled : Bool) : VFS :=
  { fs := [], mountedFiles := [], pendingFontMaps := [], bundleCache := []
    lazyEnabled := lazyEnabled, fetchedFiles := [], pendingDeferredFiles := []
    fontFileLocations := [] }

/-- `VirtualFileSystem._shouldEagerLoad`. -/
def shouldEagerLoad (path : String) : Bool :=
  jsEndsWith path ".fmt" ||
  jsEndsWith path "texmf.cnf" ||
  jsEndsWith path ".map" ||
  jsEndsWith path ".pfb" ||
  jsEndsWith path ".enc"

/-- `VirtualFileSystem._trackFontFile`. -/
def trackFontFile (st : VFS) (path : String) : VFS :=
  if jsEndsWith path ".map" && !jsEndsWith path "pdftex.map" then
    { st with pendingFontMaps := insertSet st.pendingFontMaps path }
  else st

/-- `VirtualFileSystem.mount`: eagerly write the bytes, record the path,
optionally queue a font map. -/
def mount (st : VFS) (path : String) (content : List Nat) (trackFontMaps : Bool) : VFS :=
  let st1 : VFS := { st with fs := updAssoc st.fs path (NodeContents.bytes content)
                             mountedFiles := insertSet st.mountedFiles path }
  if trackFontMaps then trackFontFile st1 path else st1

/-- `VirtualFileSystem.mountLazy`: skipped when a node already exists at the
path (`parentNode.contents?.[fileName]`), otherwise creates a node holding a
Lazy marker. -/
def mountLazy (st : VFS) (path bundleName : String) (strt stop : Nat)
    (trackFontMaps : Bool) : VFS :=
  match st.fs.lookup path with
  | some _ => st
  | none =>
    let st1 : VFS :=
      { st with fs := updAssoc st.fs path (NodeContents.lazyMarker bundleName strt stop)
                mountedFiles := insertSet st.mountedFiles path }
    if trackFontMaps then trackFontFile st1 path else st1

/-- `VirtualFileSystem._mountDeferredFile`. -/
def mountDeferredFile (st : VFS) (path bundleName : String) (strt stop : Nat) : VFS :=
  match st.fs.lookup path with
  | some _ => st
  | none =>
    { st with fs := updAssoc st.fs path (NodeContents.deferredMarker bundleName strt stop)
              mountedFiles := insertSet st.mountedFiles path }

/-- `VirtualFileSystem._getBundleFiles`: entries of the global manifest whose
`bundle` field matches, else the per-bundle metadata list. -/
def getBundleFiles (bundleName : String) (manifest : List (String × ManifestInfo))
    (bundleMeta : Option (List BundleMetaFile)) : List (String × Nat × Nat) :=
  let fromManifest :=
    (manifest.filter (fun kv => kv.2.bundle == bundleName)).map
      (fun kv => (kv.1, kv.2.strt, kv.2.stop))
  if fromManifest.isEmpty then
    match bundleMeta with
    | some files => files.map (fun f => (f.path ++ "/" ++ f.name, f.strt, f.stop))
    | none => []
  else fromManifest

/-- Filename after the last `/` (JavaScript
`path.substring(path.lastIndexOf('/') + 1)`). -/
def lastCompAux : List Char → List Char → List Char
  | [], acc => acc.reverse
  | c :: t, acc => if c = '/' then lastCompAux t [] else lastCompAux t (c :: acc)

def lastComponent (s : String) : String := String.mk (lastCompAux s.data [])

/-- Body of `mountBundle`'s per-file loop. -/
def mountBundleStep (bundleName : String) (bundleData : List Nat) (isFontBundle : Bool)
    (st : VFS) (entry : String × Nat × Nat) : VFS :=
  let path := entry.1
  let strt := entry.2.1
  let stop := entry.2.2
  if path ∈ st.mountedFiles then st
  else
    let st1 :=
      if st.lazyEnabled && !shouldEagerLoad path then
        mountLazy st path bundleName strt stop false
      else
        mount st path (jsSlice bundleData strt stop) false
    if isFontBundle && (jsEndsWith path ".pfb" || jsEndsWith path ".enc") then
      { st1 with fontFileLocations := updAssoc st1.fontFileLocations (lastComponent path) path }
    else st1

/-- `VirtualFileSystem.mountBundle`. -/
def mountBundle (st : VFS) (bundleName : String) (bundleData : List Nat)
    (manifest : List (String × ManifestInfo)) (bundleMeta : Option (List BundleMetaFile)) : VFS :=
  let st0 : VFS := { st with bundleCache := updAssoc st.bundleCache bundleName bundleData }
  let files := getBundleFiles bundleName manifest bundleMeta
  let isFontBundle := bundleName == "cm-super" || jsStartsWith bundleName "fonts-"
  files.foldl (mountBundleStep bundleName bundleData isFontBundle) st0

/-- `VirtualFileSystem.mountCtanFiles` (content already decoded to bytes). -/
def mountCtanFiles (st : VFS) (files : List (String × List Nat)) : VFS :=
  files.foldl
    (fun st kv => if kv.1 ∈ st.mountedFiles then st else mount st kv.1 kv.2 true) st

/-- `VirtualFileSystem.resolveLazy`. -/
def resolveLazy (st : VFS) (bundleName : String) (strt stop : Nat) : List Nat :=
  match st.bundleCache.lookup bundleName with
  | none => []
  | some body => jsSlice body strt stop

/-- `VirtualFileSystem.resolveDeferred`: returns the resolved bytes and the
updated VFS (it may record a pending byte-range request). -/
def resolveDeferred (st : VFS) (bundleName : String) (strt stop : Nat) :
    List Nat × VFS :=
  match st.bundleCache.lookup bundleName with
  | some body => (jsSlice body strt stop, st)
  | none =>
    match st.fetchedFiles.lookup (bundleName, strt, stop) with
    | some data => (data, st)
    | none =>
      let alreadyPending := (bundleName, strt, stop) ∈ st.pendingDeferredFiles
      let st1 := if alreadyPending then st
        else { st with pendingDeferredFiles :=
                 st.pendingDeferredFiles ++ [(bundleName, strt, stop)] }
      ([], st1)

/-- `ensureResolved` from `patchForLazyLoading`: replace a marker by its
resolved bytes before the underlying MEMFS read proceeds. -/
def ensureResolved (st : VFS) (path : String) : VFS :=
  match st.fs.lookup path with
  | some (NodeContents.bytes _) => st
  | some (NodeContents.lazyMarker b s e) =>
    { st with fs := updAssoc st.fs path (NodeContents.bytes (resolveLazy st b s e)) }
  | some (NodeContents.deferredMarker b s e) =>
    let r := resolveDeferred st b s e
    { r.2 with fs := updAssoc r.2.fs path (NodeContents.bytes r.1) }
  | none => st

/-- A read through the patched `stream_ops.read`: resolve, then return the
node's byte contents. -/
def readFile (st : VFS) (path : String) : Option (List Nat) × VFS :=
  let st1 := ensureResolved st path
  match st1.fs.lookup path with
  | some (NodeContents.bytes d) => (some d, st1)
  | _ => (none, st1)

/-- `VirtualFileSystem.storeFetchedFile`. -/
def storeFetchedFile (st : VFS) (bundleName : String) (strt stop : Nat)
    (data : List Nat) : VFS :=
  { st with fetchedFiles := updAssoc st.fetchedFiles (bundleName, strt, stop) data }

end Siglum

namespace Siglum

/-! ## Basic state lemmas for the mount operations -/

theorem trackFontFile_fs (st : VFS) (p : String) : (trackFontFile st p).fs = st.fs := by
  unfold trackFontFile; split <;> rfl

theorem trackFontFile_mountedFiles (st : VFS) (p : String) :
    (trackFontFile st p).mountedFiles = st.mountedFiles := by
  unfold trackFontFile; split <;> rfl

theorem trackFontFile_bundleCache (st : VFS) (p : String) :
    (trackFontFile st p).bundleCache = st.bundleCache := by
  unfold trackFontFile; split <;> rfl

theorem trackFontFile_lazyEnabled (st : VFS) (p : String) :
    (trackFontFile st p).lazyEnabled = st.lazyEnabled := by
  unfold trackFontFile; split <;> rfl

theorem mount_fs (st : VFS) (p : String) (c : List Nat) (tf : Bool) :
    (mount st p c tf).fs = updAssoc st.fs p (NodeContents.bytes c) := by
  unfold mount; split <;> simp [trackFontFile_fs]

theorem mount_mountedFiles (st : VFS) (p : String) (c : List Nat) (tf : Bool) :
    (mount st p c tf).mountedFiles = insertSet st.mountedFiles p := by
  unfold mount; split <;> simp [trackFontFile_mountedFiles]

theorem mount_bundleCache (st : VFS) (p : String) (c : List Nat) (tf : Bool) :
    (mount st p c tf).bundleCache = st.bundleCache := by
  unfold mount; split <;> simp [trackFontFile_bundleCache]

theorem mount_lazyEnabled (st : VFS) (p : String) (c : List Nat) (tf : Bool) :
    (mount st p c tf).lazyEnabled = st.lazyEnabled := by
  unfold mount; split <;> simp [trackFontFile_lazyEnabled]

theorem mountLazy_fs_of_none (st : VFS) (p b : String) (s e : Nat) (tf : Bool)
    (h : st.fs.lookup p = none) :
    (mountLazy st p b s e tf).fs = updAssoc st.fs p (NodeContents.lazyMarker b s e) := by
  unfold mountLazy
  split
  · next c heq => rw [h] at heq; cases heq
  · split <;> simp [trackFontFile_fs]

theorem mountLazy_mountedFiles_of_none (st : VFS) (p b : String) (s e : Nat) (tf : Bool)
    (h : st.fs.lookup p = none) :
    (mountLazy st p b s e tf).mountedFiles = insertSet st.mountedFiles p := by
  unfold mountLazy
  split
  · next c heq => rw [h] at heq; cases heq
  · split <;> simp [trackFontFile_mountedFiles]

theorem mountLazy_skip (st : VFS) (p b : String) (s e : Nat) (tf : Bool)
    (c : NodeContents) (h : st.fs.lookup p = some c) :
    mountLazy st p b s e tf = st := by
  unfold mountLazy
  split
  · rfl
  · next heq => rw [h] at heq; cases heq

theorem mountLazy_bundleCache (st : VFS) (p b : String) (s e : Nat) (tf : Bool) :
    (mountLazy st p b s e tf).bundleCache = st.bundleCache := by
  unfold mountLazy; split
  · rfl
  · split <;> simp [trackFontFile_bundleCache]

theorem mountLazy_lazyEnabled (st : VFS) (p b : String) (s e : Nat) (tf : Bool) :
    (mountLazy st p b s e tf).lazyEnabled = st.lazyEnabled := by
  unfold mountLazy; split
  · rfl
  · split <;> simp [trackFontFile_lazyEnabled]

theorem mountBundleStep_bundleCache (b : String) (body : List Nat) (fb : Bool)
    (st : VFS) (entry : String × Nat × Nat) :
    (mountBundleStep b body fb st entry).bundleCache = st.bundleCache := by
  unfold mountBundleStep
  dsimp only
  split
  · rfl
  · split <;> split <;> simp [mountLazy_bundleCache, mount_bundleCache]

/-! ## Claim C4: the eager-load rule -/

theorem mountBundleStep_fresh (b : String) (body : List Nat) (fb : Bool)
    (st : VFS) (p : String) (s e : Nat)
    (hm : p ∉ st.mountedFiles) (hfs : st.fs.lookup p = none) :
    (mountBundleStep b body fb st (p, s, e)).fs.lookup p
      = if st.lazyEnabled && !shouldEagerLoad p then
          some (NodeContents.lazyMarker b s e)
        else some (NodeContents.bytes (jsSlice body s e)) := by
  unfold mountBundleStep
  simp only [if_neg hm]
  have hlz : (mountLazy st p b s e false).fs.lookup p
      = some (NodeContents.lazyMarker b s e) := by
    rw [mountLazy_fs_of_none st p b s e false hfs, lookup_updAssoc_self]
  have hmt : (mount st p (jsSlice body s e) false).fs.lookup p
      = some (NodeContents.bytes (jsSlice body s e)) := by
    rw [mount_fs, lookup_updAssoc_self]
  split
  · split
    · simpa using hlz
    · simpa using hmt
  · split
    · exact hlz
    · exact hmt

/-- C4: when lazy mode is enabled, `mountBundle` mounts a (fresh) bundle file
eagerly exactly when its path ends in `.fmt`, `texmf.cnf`, `.map`, `.pfb` or
`.enc`; every other file receives a Lazy marker.  Stated on a manifest entry
`(p, start, end)` of bundle `B`. -/
theorem mountBundle_eager_iff_suffix
    (st : VFS) (B : String) (body : List Nat) (p : String) (s e : Nat)
    (hlazy : st.lazyEnabled = true) (hm : p ∉ st.mountedFiles)
    (hfs : st.fs.lookup p = none) :
    ((mountBundle st B body [(p, ⟨B, s, e⟩)] none).fs.lookup p
        = some (NodeContents.bytes (jsSlice body s e))
      ↔ shouldEagerLoad p = true)
    ∧ (shouldEagerLoad p = false →
        (mountBundle st B body [(p, ⟨B, s, e⟩)] none).fs.lookup p
          = some (NodeContents.lazyMarker B s e))
    ∧ shouldEagerLoad p
        = (jsEndsWith p ".fmt" || jsEndsWith p "texmf.cnf" || jsEndsWith p ".map" ||
           jsEndsWith p ".pfb" || jsEndsWith p ".enc") := by
  have hfiles : getBundleFiles B [(p, ⟨B, s, e⟩)] none = [(p, s, e)] := by
    simp [getBundleFiles]
  unfold mountBundle
  rw [hfiles]
  simp only [List.foldl]
  have hstep := mountBundleStep_fresh B body
    (B == "cm-super" || jsStartsWith B "fonts-")
    { st with bundleCache := updAssoc st.bundleCache B body } p s e hm hfs
  rw [hstep]
  simp only [hlazy, Bool.true_and]
  constructor
  · cases hhe : shouldEagerLoad p <;> simp [hhe]
  · refine ⟨fun hne => by simp [hne], rfl⟩

theorem mountBundle_eager_iff_suffix_witness :
    (vfsInit true).lazyEnabled = true ∧
    "/texlive/x/a.sty" ∉ (vfsInit true).mountedFiles ∧
    (vfsInit true).fs.lookup "/texlive/x/a.sty" = none ∧
    (((mountBundle (vfsInit true) "b0" [9, 8] [("/texlive/x/a.sty", ⟨"b0", 0, 2⟩)]
          none).fs.lookup "/texlive/x/a.sty"
        = some (NodeContents.bytes (jsSlice [9, 8] 0 2))
      ↔ shouldEagerLoad "/texlive/x/a.sty" = true)
    ∧ (shouldEagerLoad "/texlive/x/a.sty" = false →
        (mountBundle (vfsInit true) "b0" [9, 8] [("/texlive/x/a.sty", ⟨"b0", 0, 2⟩)]
            none).fs.lookup "/texlive/x/a.sty"
          = some (NodeContents.lazyMarker "b0" 0 2))
    ∧ shouldEagerLoad "/texlive/x/a.sty"
        = (jsEndsWith "/texlive/x/a.sty" ".fmt" || jsEndsWith "/texlive/x/a.sty" "texmf.cnf" ||
           jsEndsWith "/texlive/x/a.sty" ".map" || jsEndsWith "/texlive/x/a.sty" ".pfb" ||
           jsEndsWith "/texlive/x/a.sty" ".enc")) :=
  ⟨rfl, by decide, rfl,
    mountBundle_eager_iff_suffix (vfsInit true) "b0" [9, 8] "/texlive/x/a.sty" 0 2
      rfl (by decide) rfl⟩

end Siglum

namespace Siglum

/-! ## Read-path lemmas (`patchForLazyLoading`) -/

theorem ensureResolved_of_bytes (st : VFS) (p : String) (d : List Nat)
    (h : st.fs.lookup p = some (NodeContents.bytes d)) :
    ensureResolved st p = st := by
  unfold ensureResolved
  split
  · rfl
  all_goals (rename_i heq; simp [h] at heq)

theorem readFile_bytes (st : VFS) (p : String) (d : List Nat)
    (h : st.fs.lookup p = some (NodeContents.bytes d)) :
    readFile st p = (some d, st) := by
  unfold readFile
  rw [ensureResolved_of_bytes st p d h]
  simp [h]

theorem ensureResolved_of_lazy (st : VFS) (p b : String) (s e : Nat)
    (h : st.fs.lookup p = some (NodeContents.lazyMarker b s e)) :
    ensureResolved st p
      = { st with fs := updAssoc st.fs p (NodeContents.bytes (resolveLazy st b s e)) } := by
  unfold ensureResolved
  split
  · rename_i heq; simp [h] at heq
  · rename_i b2 s2 e2 heq
    rw [h] at heq
    cases heq
    rfl
  · rename_i heq; simp [h] at heq
  · rename_i heq; simp [h] at heq

theorem readFile_lazy (st : VFS) (p b : String) (s e : Nat)
    (h : st.fs.lookup p = some (NodeContents.lazyMarker b s e)) :
    readFile st p = (some (resolveLazy st b s e),
      { st with fs := updAssoc st.fs p (NodeContents.bytes (resolveLazy st b s e)) }) := by
  unfold readFile
  rw [ensureResolved_of_lazy st p b s e h]
  simp [lookup_updAssoc_self]

theorem ensureResolved_of_deferred (st : VFS) (p b : String) (s e : Nat)
    (h : st.fs.lookup p = some (NodeContents.deferredMarker b s e)) :
    ensureResolved st p
      = { (resolveDeferred st b s e).2 with
            fs := updAssoc (resolveDeferred st b s e).2.fs p
                    (NodeContents.bytes (resolveDeferred st b s e).1) } := by
  unfold ensureResolved
  split
  · rename_i heq; simp [h] at heq
  · rename_i heq; simp [h] at heq
  · rename_i b2 s2 e2 heq
    rw [h] at heq
    cases heq
    rfl
  · rename_i heq; simp [h] at heq

theorem resolveDeferred_fs (st : VFS) (b : String) (s e : Nat) :
    (resolveDeferred st b s e).2.fs = st.fs := by
  unfold resolveDeferred
  split
  · rfl
  · split
    · rfl
    · dsimp only
      split <;> rfl

theorem readFile_deferred (st : VFS) (p b : String) (s e : Nat)
    (h : st.fs.lookup p = some (NodeContents.deferredMarker b s e)) :
    readFile st p = (some (resolveDeferred st b s e).1,
      { (resolveDeferred st b s e).2 with
          fs := updAssoc (resolveDeferred st b s e).2.fs p
                  (NodeContents.bytes (resolveDeferred st b s e).1) }) := by
  unfold readFile
  rw [ensureResolved_of_deferred st p b s e h]
  simp [lookup_updAssoc_self]

theorem mountBundleStep_lazyEnabled (b : String) (body : List Nat) (fb : Bool)
    (st : VFS) (entry : String × Nat × Nat) :
    (mountBundleStep b body fb st entry).lazyEnabled = st.lazyEnabled := by
  unfold mountBundleStep
  dsimp only
  split
  · rfl
  · split <;> split <;> simp [mountLazy_lazyEnabled, mount_lazyEnabled]

/-! ## Claim C1: bundle-mounted files read back as the exact byte slice -/

/-- C1: when bundle `B`'s body is resident in the VFS bundle cache,
(a) resolving a Lazy marker `(B, s, e)` during a read returns exactly
`body[s:e]` and replaces the node's contents with precisely that slice, and
(b) a file freshly mounted from `B` via `mountBundle` (eagerly or lazily)
reads back exactly `body[s2:e2]`. -/
theorem read_returns_bundle_slice
    (st : VFS) (p q B : String) (body : List Nat) (s e s2 e2 : Nat)
    (hc : st.bundleCache.lookup B = some body)
    (hn : st.fs.lookup p = some (NodeContents.lazyMarker B s e))
    (hm : q ∉ st.mountedFiles) (hq : st.fs.lookup q = none) :
    ((readFile st p).1 = some (jsSlice body s e)
      ∧ (ensureResolved st p).fs.lookup p = some (NodeContents.bytes (jsSlice body s e)))
    ∧ (readFile (mountBundle st B body [(q, ⟨B, s2, e2⟩)] none) q).1
        = some (jsSlice body s2 e2) := by
  have hres : resolveLazy st B s e = jsSlice body s e := by
    unfold resolveLazy; rw [hc]
  constructor
  · constructor
    · rw [readFile_lazy st p B s e hn, hres]
    · rw [ensureResolved_of_lazy st p B s e hn, hres]
      exact lookup_updAssoc_self _ _ _
  · -- the mounted state
    have hfiles : getBundleFiles B [(q, ⟨B, s2, e2⟩)] none = [(q, s2, e2)] := by
      simp [getBundleFiles]
    set fb := (B == "cm-super" || jsStartsWith B "fonts-") with hfb
    set st0 : VFS := { st with bundleCache := updAssoc st.bundleCache B body } with hst0
    have hmb : mountBundle st B body [(q, ⟨B, s2, e2⟩)] none
        = mountBundleStep B body fb st0 (q, s2, e2) := by
      unfold mountBundle
      rw [hfiles]
      rfl
    have hm0 : q ∉ st0.mountedFiles := hm
    have hq0 : st0.fs.lookup q = none := hq
    have hstep := mountBundleStep_fresh B body fb st0 q s2 e2 hm0 hq0
    have hbc : (mountBundleStep B body fb st0 (q, s2, e2)).bundleCache.lookup B
        = some body := by
      rw [mountBundleStep_bundleCache]
      exact lookup_updAssoc_self _ _ _
    rw [hmb]
    by_cases hcond : (st0.lazyEnabled && !shouldEagerLoad q) = true
    · rw [if_pos hcond] at hstep
      have := readFile_lazy (mountBundleStep B body fb st0 (q, s2, e2)) q B s2 e2 hstep
      rw [this]
      have : resolveLazy (mountBundleStep B body fb st0 (q, s2, e2)) B s2 e2
          = jsSlice body s2 e2 := by
        unfold resolveLazy; rw [hbc]
      rw [this]
    · rw [if_neg hcond] at hstep
      rw [readFile_bytes _ q _ hstep]

theorem read_returns_bundle_slice_witness :
    ((({ vfsInit true with
          fs := [("/f.tex", NodeContents.lazyMarker "b" 1 3)],
          bundleCache := [("b", [10, 11, 12, 13])] } : VFS)).bundleCache.lookup "b"
        = some [10, 11, 12, 13]) ∧
    (({ vfsInit true with
          fs := [("/f.tex", NodeContents.lazyMarker "b" 1 3)],
          bundleCache := [("b", [10, 11, 12, 13])] } : VFS)).fs.lookup "/f.tex"
        = some (NodeContents.lazyMarker "b" 1 3) ∧
    ("/g.pfb" ∉ (({ vfsInit true with
          fs := [("/f.tex", NodeContents.lazyMarker "b" 1 3)],
          bundleCache := [("b", [10, 11, 12, 13])] } : VFS)).mountedFiles) ∧
    ((readFile ({ vfsInit true with
          fs := [("/f.tex", NodeContents.lazyMarker "b" 1 3)],
          bundleCache := [("b", [10, 11, 12, 13])] } : VFS) "/f.tex").1
        = some (jsSlice [10, 11, 12, 13] 1 3)) :=
  ⟨rfl, rfl, by decide,
    (read_returns_bundle_slice
      ({ vfsInit true with
          fs := [("/f.tex", NodeContents.lazyMarker "b" 1 3)],
          bundleCache := [("b", [10, 11, 12, 13])] } : VFS)
      "/f.tex" "/g.pfb" "b" [10, 11, 12, 13] 1 3 0 2
      rfl rfl (by decide) rfl).1.1⟩

end Siglum

namespace Siglum

/-! ## Claim C2: Deferred reads with a non-resident bundle body -/

theorem resolveDeferred_miss (st : VFS) (b : String) (s e : Nat)
    (hnores : st.bundleCache.lookup b = none) :
    resolveDeferred st b s e
      = ((st.fetchedFiles.lookup (b, s, e)).getD [],
         { st with pendingDeferredFiles :=
             if (st.fetchedFiles.lookup (b, s, e)).isSome
                 ∨ (b, s, e) ∈ st.pendingDeferredFiles
             then st.pendingDeferredFiles
             else st.pendingDeferredFiles ++ [(b, s, e)] }) := by
  unfold resolveDeferred
  rw [hnores]
  cases hf : st.fetchedFiles.lookup (b, s, e) with
  | some data => simp
  | none =>
    dsimp only
    by_cases hp : (b, s, e) ∈ st.pendingDeferredFiles
    · simp [hp]
    · simp [hp]

/-- C2: reading a node holding a Deferred marker whose bundle body is not
resident returns the externally cached byte range when the
`(bundle, start, end)` key is cached (`[]` otherwise), replaces the node's
contents with exactly those bytes, records the pending request at most once,
and a repeated read of the same file changes nothing further. -/
theorem deferred_read_behaviour
    (st : VFS) (p B : String) (s e : Nat)
    (hnode : st.fs.lookup p = some (NodeContents.deferredMarker B s e))
    (hnores : st.bundleCache.lookup B = none) :
    (readFile st p).1 = some ((st.fetchedFiles.lookup (B, s, e)).getD [])
    ∧ (readFile st p).2.fs.lookup p
        = some (NodeContents.bytes ((st.fetchedFiles.lookup (B, s, e)).getD []))
    ∧ (readFile st p).2.pendingDeferredFiles
        = (if (st.fetchedFiles.lookup (B, s, e)).isSome
               ∨ (B, s, e) ∈ st.pendingDeferredFiles
           then st.pendingDeferredFiles
           else st.pendingDeferredFiles ++ [(B, s, e)])
    ∧ readFile (readFile st p).2 p = (some ((st.fetchedFiles.lookup (B, s, e)).getD []),
        (readFile st p).2) := by
  have hrd := resolveDeferred_miss st B s e hnores
  have hread := readFile_deferred st p B s e hnode
  rw [hrd] at hread
  refine ⟨?_, ?_, ?_, ?_⟩
  · rw [hread]
  · rw [hread]
    exact lookup_updAssoc_self _ _ _
  · rw [hread]
  · have hbytes : (readFile st p).2.fs.lookup p
        = some (NodeContents.bytes ((st.fetchedFiles.lookup (B, s, e)).getD [])) := by
      rw [hread]
      exact lookup_updAssoc_self _ _ _
    have := readFile_bytes (readFile st p).2 p _ hbytes
    rw [this, hread]

theorem deferred_read_behaviour_witness :
    ((({ vfsInit true with
          fs := [("/d.pfb", NodeContents.deferredMarker "cm-super" 4 9)] } : VFS)).fs.lookup
        "/d.pfb" = some (NodeContents.deferredMarker "cm-super" 4 9)) ∧
    ((({ vfsInit true with
          fs := [("/d.pfb", NodeContents.deferredMarker "cm-super" 4 9)] } : VFS)).bundleCache.lookup
        "cm-super" = none) ∧
    (readFile ({ vfsInit true with
          fs := [("/d.pfb", NodeContents.deferredMarker "cm-super" 4 9)] } : VFS)
        "/d.pfb").2.pendingDeferredFiles = [("cm-super", 4, 9)] :=
  ⟨rfl, rfl, by
    have h := (deferred_read_behaviour
      ({ vfsInit true with
          fs := [("/d.pfb", NodeContents.deferredMarker "cm-super" 4 9)] } : VFS)
      "/d.pfb" "cm-super" 4 9 rfl rfl).2.2.1
    simpa using h⟩

/-! ## Claim C10: later mounts of an already-mounted path -/

theorem mount_fs_lookup_ne (st : VFS) (p q : String) (c : List Nat) (tf : Bool)
    (h : p ≠ q) : (mount st q c tf).fs.lookup p = st.fs.lookup p := by
  rw [mount_fs]
  exact lookup_updAssoc_ne _ _ _ _ h

theorem mountLazy_fs_lookup_ne (st : VFS) (p q b : String) (s e : Nat) (tf : Bool)
    (h : p ≠ q) : (mountLazy st q b s e tf).fs.lookup p = st.fs.lookup p := by
  unfold mountLazy
  split
  · rfl
  · split <;> simp [trackFontFile_fs, lookup_updAssoc_ne _ _ _ _ h]

theorem mem_mount_mountedFiles (st : VFS) (p q : String) (c : List Nat) (tf : Bool)
    (h : p ∈ st.mountedFiles) : p ∈ (mount st q c tf).mountedFiles := by
  rw [mount_mountedFiles]
  exact subset_insertSet _ _ h

theorem mem_mountLazy_mountedFiles (st : VFS) (p q b : String) (s e : Nat) (tf : Bool)
    (h : p ∈ st.mountedFiles) : p ∈ (mountLazy st q b s e tf).mountedFiles := by
  unfold mountLazy
  split
  · exact h
  · split <;> simp [trackFontFile_mountedFiles] <;>
      exact subset_insertSet _ _ h

theorem mountBundleStep_preserves (b : String) (body : List Nat) (fb : Bool)
    (st : VFS) (entry : String × Nat × Nat) (p : String)
    (hp : p ∈ st.mountedFiles) :
    (mountBundleStep b body fb st entry).fs.lookup p = st.fs.lookup p
    ∧ p ∈ (mountBundleStep b body fb st entry).mountedFiles := by
  unfold mountBundleStep
  dsimp only
  split
  · exact ⟨rfl, hp⟩
  · next hqm =>
    have hpq : p ≠ entry.1 := fun hEq => hqm (hEq ▸ hp)
    split
    · constructor
      · split <;>
          simp [mountLazy_fs_lookup_ne _ _ _ _ _ _ _ hpq,
                mount_fs_lookup_ne _ _ _ _ _ hpq]
      · split <;>
          simp [mem_mountLazy_mountedFiles _ _ _ _ _ _ _ hp,
                mem_mount_mountedFiles _ _ _ _ _ hp]
    · constructor
      · split <;>
          simp [mountLazy_fs_lookup_ne _ _ _ _ _ _ _ hpq,
                mount_fs_lookup_ne _ _ _ _ _ hpq]
      · split <;>
          simp [mem_mountLazy_mountedFiles _ _ _ _ _ _ _ hp,
                mem_mount_mountedFiles _ _ _ _ _ hp]

theorem foldl_mountBundleStep_preserves (b : String) (body : List Nat) (fb : Bool)
    (l : List (String × Nat × Nat)) (st : VFS) (p : String)
    (hp : p ∈ st.mountedFiles) :
    (l.foldl (mountBundleStep b body fb) st).fs.lookup p = st.fs.lookup p
    ∧ p ∈ (l.foldl (mountBundleStep b body fb) st).mountedFiles := by
  induction l generalizing st with
  | nil => exact ⟨rfl, hp⟩
  | cons x t ih =>
    have hstep := mountBundleStep_preserves b body fb st x p hp
    have := ih (mountBundleStep b body fb st x) hstep.2
    exact ⟨this.1.trans hstep.1, this.2⟩

theorem mountCtanFiles_preserves (files : List (String × List Nat)) (st : VFS)
    (p : String) (hp : p ∈ st.mountedFiles) :
    (mountCtanFiles st files).fs.lookup p = st.fs.lookup p
    ∧ p ∈ (mountCtanFiles st files).mountedFiles := by
  unfold mountCtanFiles
  induction files generalizing st with
  | nil => exact ⟨rfl, hp⟩
  | cons kv t ih =>
    simp only [List.foldl]
    by_cases hk : kv.1 ∈ st.mountedFiles
    · rw [if_pos hk]
      exact ih st hp
    · rw [if_neg hk]
      have hpq : p ≠ kv.1 := fun hEq => hk (hEq ▸ hp)
      have h1 : (mount st kv.1 kv.2 true).fs.lookup p = st.fs.lookup p :=
        mount_fs_lookup_ne _ _ _ _ _ hpq
      have h2 : p ∈ (mount st kv.1 kv.2 true).mountedFiles :=
        mem_mount_mountedFiles _ _ _ _ _ hp
      have := ih (mount st kv.1 kv.2 true) h2
      exact ⟨this.1.trans h1, this.2⟩

/-- C10 (corrected): once a path is mounted, a later `mountLazy` for it is a
complete no-op, and later `mountBundle` / `mountCtanFiles` calls skip it and
leave its contents unchanged — so CTAN-fetched files never override files
already mounted from bundles.  (Plain `mount` however overwrites; see the
counterexample.) -/
theorem later_mounts_skip_mounted (st : VFS) (p : String)
    (hp : p ∈ st.mountedFiles) :
    (∀ c, st.fs.lookup p = some c → ∀ b s e tf, mountLazy st p b s e tf = st)
    ∧ (∀ B body manifest meta,
        (mountBundle st B body manifest meta).fs.lookup p = st.fs.lookup p)
    ∧ (∀ files, (mountCtanFiles st files).fs.lookup p = st.fs.lookup p) := by
  refine ⟨fun c hc b s e tf => mountLazy_skip st p b s e tf c hc, ?_, ?_⟩
  · intro B body manifest meta
    unfold mountBundle
    dsimp only
    exact (foldl_mountBundleStep_preserves B body
      (B == "cm-super" || jsStartsWith B "fonts-") (getBundleFiles B manifest meta)
      { st with bundleCache := updAssoc st.bundleCache B body } p hp).1
  · intro files
    exact (mountCtanFiles_preserves files st p hp).1

/-- C10 counterexample: the claim also names plain `mount`, but `mount` does
not consult `mountedFiles` and overwrites the existing node's contents. -/
theorem mount_overwrites_mounted_path :
    ("/texlive/a.sty" ∈ (mount (vfsInit true) "/texlive/a.sty" [1] true).mountedFiles)
    ∧ (mount (mount (vfsInit true) "/texlive/a.sty" [1] true)
          "/texlive/a.sty" [2] true).fs.lookup "/texlive/a.sty"
        = some (NodeContents.bytes [2])
    ∧ (mount (mount (vfsInit true) "/texlive/a.sty" [1] true)
          "/texlive/a.sty" [2] true).fs.lookup "/texlive/a.sty"
        ≠ (mount (vfsInit true) "/texlive/a.sty" [1] true).fs.lookup "/texlive/a.sty" := by
  refine ⟨by decide, by decide, by decide⟩

theorem later_mounts_skip_mounted_witness :
    ("/x.sty" ∈ ({ vfsInit true with
        mountedFiles := ["/x.sty"],
        fs := [("/x.sty", NodeContents.bytes [7])] } : VFS).mountedFiles)
    ∧ (mountCtanFiles ({ vfsInit true with
          mountedFiles := ["/x.sty"],
          fs := [("/x.sty", NodeContents.bytes [7])] } : VFS)
        [("/x.sty", [9])]).fs.lookup "/x.sty"
      = ({ vfsInit true with
          mountedFiles := ["/x.sty"],
          fs := [("/x.sty", NodeContents.bytes [7])] } : VFS).fs.lookup "/x.sty" :=
  ⟨by decide,
    (later_mounts_skip_mounted ({ vfsInit true with
        mountedFiles := ["/x.sty"],
        fs := [("/x.sty", NodeContents.bytes [7])] } : VFS) "/x.sty"
      (by decide)).2.2 [("/x.sty", [9])]⟩

end Siglum

namespace Siglum

/-! ## Claim C6: the `not_found` negative cache (`CTANFetcher`) -/

/-- Value of `CTAN_CACHE_VERSION` in `storage.js`. -/
def CTAN_CACHE_VERSION : Nat := 7

/-- A package-metadata record as stored by `savePackageMeta`. -/
structure PkgMeta : Type where
  cacheVersion : Nat
  notFound : Bool
  files : List String
  dependencies : List String
  deriving DecidableEq, Repr

/-- Result of `loadPackageFromCache`: either the `notFound` marker object or
the file map plus dependencies. -/
inductive CacheResult : Type where
  | notFoundMarker
  | pkgFiles (files : List (String × List Nat)) (deps : List String)
  deriving DecidableEq, Repr

/-- `CTANFetcher.loadPackageFromCache`.  `store` models the metadata store
(`getPackageMeta`), `fileStore` the union of the in-memory file cache and
OPFS (`this.fileCache` / `readFromOPFS`); files missing from both stores are
simply dropped, as in the source. -/
def loadPackageFromCache (store : List (String × PkgMeta))
    (fileStore : String → Option (List Nat)) (pkg : String) : Option CacheResult :=
  match store.lookup pkg with
  | none => none
  | some meta =>
    if meta.cacheVersion ≠ CTAN_CACHE_VERSION then none
    else if meta.notFound then some CacheResult.notFoundMarker
    else some (CacheResult.pkgFiles
      (meta.files.filterMap (fun fp => (fileStore fp).map (fun c => (fp, c))))
      meta.dependencies)

/-- A successful package fetch result: file map and declared dependencies. -/
structure PkgResult : Type where
  files : List (String × List Nat)
  dependencies : List String
  deriving DecidableEq, Repr

/-- `CTANFetcher.fetchPackage`.  The pair returned is (result, network
requests issued for this package).  The cache path issues none; the
`texliveFallback` parameter stands for the outcome and requests of
`fetchTexLivePackage` (the network path taken when the cache has nothing),
universally quantified in the theorem below. -/
def fetchPackage (store : List (String × PkgMeta))
    (fileStore : String → Option (List Nat))
    (texliveFallback : Option PkgResult × List String) (pkg : String) :
    Option PkgResult × List String :=
  match loadPackageFromCache store fileStore pkg with
  | some CacheResult.notFoundMarker => (none, [])
  | some (CacheResult.pkgFiles fs deps) => (some ⟨fs, deps⟩, [])
  | none => texliveFallback

/-- C6: once a `not_found` marker with the current cache version is stored
for a package, every `fetchPackage` call for that name returns `null` and
issues no network fetch, whatever the network path would have done. -/
theorem notFound_marker_blocks_fetch
    (store : List (String × PkgMeta)) (fileStore : String → Option (List Nat))
    (pkg : String) (meta : PkgMeta)
    (hstore : store.lookup pkg = some meta)
    (hnf : meta.notFound = true)
    (hver : meta.cacheVersion = CTAN_CACHE_VERSION) :
    ∀ texliveFallback, fetchPackage store fileStore texliveFallback pkg = (none, []) := by
  intro texliveFallback
  have hload : loadPackageFromCache store fileStore pkg
      = some CacheResult.notFoundMarker := by
    unfold loadPackageFromCache
    rw [hstore]
    simp [hver, hnf]
  unfold fetchPackage
  rw [hload]

theorem notFound_marker_blocks_fetch_witness :
    ([("badpkg", (⟨7, true, [], []⟩ : PkgMeta))].lookup "badpkg"
      = some (⟨7, true, [], []⟩ : PkgMeta)) ∧
    (⟨7, true, [], []⟩ : PkgMeta).notFound = true ∧
    (⟨7, true, [], []⟩ : PkgMeta).cacheVersion = CTAN_CACHE_VERSION ∧
    fetchPackage [("badpkg", (⟨7, true, [], []⟩ : PkgMeta))] (fun _ => none)
      (some ⟨[("/p.sty", [1])], []⟩, ["/api/texlive/badpkg"]) "badpkg" = (none, []) :=
  ⟨rfl, rfl, rfl,
    notFound_marker_blocks_fetch [("badpkg", (⟨7, true, [], []⟩ : PkgMeta))]
      (fun _ => none) "badpkg" (⟨7, true, [], []⟩ : PkgMeta) rfl rfl rfl
      (some ⟨[("/p.sty", [1])], []⟩, ["/api/texlive/badpkg"])⟩

/-! ## Claim C5: the compile retry loop -/

/-- Outcome of one iteration of `handleCompile`'s `while` loop: the engine
exit code, whether the attempt succeeded (exit code 0 and the PDF was
readable), and which of the diagnosis steps fetched something new.  These
are the inputs the loop body reacts to; the loop itself is the code under
verification. -/
structure Attempt : Type where
  exitCode : Int
  success : Bool
  fetchedRanges : Bool
  fetchedDeferredBundle : Bool
  fetchedMissingBundle : Bool
  fetchedCtan : Bool
  deriving DecidableEq, Repr

/-- One iteration made progress: some diagnosis step fetched something new
(byte ranges, a deferred or missing bundle, or a CTAN package). -/
def attemptProgress (a : Attempt) : Bool :=
  a.fetchedRanges || a.fetchedDeferredBundle || a.fetchedMissingBundle || a.fetchedCtan

/-- Result of `handleCompile`: iterations executed, `success`, and the
`exitCode` sent in the `compile-response` message. -/
structure CompileOutcome : Type where
  iterations : Nat
  success : Bool
  exitCode : Int
  deriving DecidableEq, Repr

/-- The `while (!compileSuccess && retryCount < maxRetries)` loop of
`handleCompile`.  `fuel` is `maxRetries - retryCount` and decreases exactly
when `retryCount++` runs; every `continue` is guarded by a successful fetch,
and when nothing is actionable the loop `break`s with the last exit code. -/
def compileLoop (attempts : Nat → Attempt) : Nat → Nat → Int → CompileOutcome
  | 0, iter, lastExit => ⟨iter, false, lastExit⟩
  | fuel + 1, iter, _ =>
    let a := attempts iter
    if a.success then ⟨iter + 1, true, a.exitCode⟩
    else if attemptProgress a then compileLoop attempts fuel (iter + 1) a.exitCode
    else ⟨iter + 1, false, a.exitCode⟩

/-- `handleCompile`'s loop with `maxRetries = 10`, `retryCount = 0` and
`lastExitCode = -1`. -/
def handleCompileLoop (attempts : Nat → Attempt) : CompileOutcome :=
  compileLoop attempts 10 0 (-1)

theorem compileLoop_iterations_le (attempts : Nat → Attempt) :
    ∀ fuel iter lastExit,
      (compileLoop attempts fuel iter lastExit).iterations ≤ iter + fuel := by
  intro fuel
  induction fuel with
  | zero => intro iter lastExit; simp [compileLoop]
  | succ f ih =>
    intro iter lastExit
    unfold compileLoop
    dsimp only
    split
    · show iter + 1 ≤ iter + (f + 1)
      omega
    · split
      · have := ih (iter + 1) (attempts iter).exitCode
        omega
      · show iter + 1 ≤ iter + (f + 1)
        omega

theorem compileLoop_retry_progress (attempts : Nat → Attempt) :
    ∀ fuel iter lastExit k, iter ≤ k →
      k + 1 < (compileLoop attempts fuel iter lastExit).iterations →
      (attempts k).success = false ∧ attemptProgress (attempts k) = true := by
  intro fuel
  induction fuel with
  | zero =>
    intro iter lastExit k hik hk
    simp [compileLoop] at hk
    omega
  | succ f ih =>
    intro iter lastExit k hik hk
    unfold compileLoop at hk
    dsimp only at hk
    by_cases hs : (attempts iter).success
    · rw [if_pos hs] at hk
      have hk2 : k + 1 < iter + 1 := hk
      omega
    · rw [if_neg hs] at hk
      by_cases hpr : attemptProgress (attempts iter)
      · rw [if_pos hpr] at hk
        by_cases hik2 : iter = k
        · exact ⟨by simpa [hik2] using (Bool.not_eq_true _).mp (hik2 ▸ hs),
            by simpa [hik2] using hpr⟩
        · exact ih (iter + 1) (attempts iter).exitCode k (by omega) hk
      · rw [if_neg hpr] at hk
        have hk2 : k + 1 < iter + 1 := hk
        omega

theorem compileLoop_fail_exit (attempts : Nat → Attempt) :
    ∀ fuel iter lastExit,
      1 ≤ fuel →
      (compileLoop attempts fuel iter lastExit).success = false →
      (compileLoop attempts fuel iter lastExit).exitCode
        = (attempts ((compileLoop attempts fuel iter lastExit).iterations - 1)).exitCode := by
  intro fuel
  induction fuel with
  | zero => intro iter lastExit h; omega
  | succ f ih =>
    intro iter lastExit _ hfail
    unfold compileLoop at hfail ⊢
    dsimp only at hfail ⊢
    by_cases hs : (attempts iter).success
    · rw [if_pos hs] at hfail
      simp at hfail
    · rw [if_neg hs] at hfail ⊢
      by_cases hpr : attemptProgress (attempts iter)
      · rw [if_pos hpr] at hfail ⊢
        rcases Nat.eq_zero_or_pos f with hf | hf
        · subst hf
          simp [compileLoop]
        · exact ih (iter + 1) (attempts iter).exitCode hf hfail
      · rw [if_neg hpr] at hfail ⊢
        simp

/-- C5: the retry loop runs at most `maxRetries = 10` iterations; iteration
`k + 1` is only reached when iteration `k` failed and fetched something new
(byte ranges, a bundle, or a CTAN package); and a failing compile responds
with the exit code of its last engine run. -/
theorem compile_retry_loop_bounds (attempts : Nat → Attempt)
    (hfail : (handleCompileLoop attempts).success = false) :
    (handleCompileLoop attempts).iterations ≤ 10
    ∧ (∀ k, k + 1 < (handleCompileLoop attempts).iterations →
        (attempts k).success = false ∧ attemptProgress (attempts k) = true)
    ∧ (handleCompileLoop attempts).exitCode
        = (attempts ((handleCompileLoop attempts).iterations - 1)).exitCode := by
  refine ⟨?_, ?_, ?_⟩
  · simpa using compileLoop_iterations_le attempts 10 0 (-1)
  · intro k hk
    exact compileLoop_retry_progress attempts 10 0 (-1) k (Nat.zero_le k) hk
  · exact compileLoop_fail_exit attempts 10 0 (-1) (by omega) hfail

theorem compile_retry_loop_bounds_witness :
    (handleCompileLoop (fun _ => ⟨1, false, false, false, false, false⟩)).success = false
    ∧ (handleCompileLoop (fun _ => ⟨1, false, false, false, false, false⟩)).iterations ≤ 10
    ∧ (handleCompileLoop (fun _ => ⟨1, false, false, false, false, false⟩)).exitCode
        = ((fun (_ : Nat) => (⟨1, false, false, false, false, false⟩ : Attempt))
            ((handleCompileLoop
                (fun _ => ⟨1, false, false, false, false, false⟩)).iterations - 1)).exitCode :=
  ⟨by decide,
    (compile_retry_loop_bounds (fun _ => ⟨1, false, false, false, false, false⟩)
      (by decide)).1,
    (compile_retry_loop_bounds (fun _ => ⟨1, false, false, false, false, false⟩)
      (by decide)).2.2⟩

end Siglum

namespace Siglum

/-! ## Claim C7: `checkPackages` package extraction

The three regexes of `checkPackages` are deterministic on their inputs:
`(?:\[[^\]]*\])?` either consumes a complete bracket group or fails at
that start position (the backtracking alternative needs `\x7b` where the
`[` sits), and `([^\x7d]+)\x7d` is a maximal run of non-brace characters
followed by the closing brace.  `scanCmd` is that scan: at every position,
try the literal command name followed by the optional bracket group and the
brace group; on success emit the capture and continue after the match
(`lastIndex`), else advance one character.  The fuel argument is bounded by
the input length, which every step strictly decreases, so it never runs
out. -/

/-- Optional bracket group `(?:\[[^\]]*\])?` at the head: the text after it,
or `none` when the whole pattern must fail at this position. -/
def optBracket (cs : List Char) : Option (List Char) :=
  match cs with
  | '[' :: t =>
    let opt := t.takeWhile (fun c => c ≠ ']')
    match t.drop opt.length with
    | ']' :: t3 => some t3
    | _ => none
  | _ => some cs

/-- Brace group `\x7b([^\x7d]+)\x7d` at the head: capture and rest. -/
def bracedCapture (cs : List Char) : Option (List Char × List Char) :=
  match cs with
  | '\x7b' :: t =>
    let cap := t.takeWhile (fun c => c ≠ '\x7d')
    if cap.isEmpty then none
    else
      match t.drop cap.length with
      | '\x7d' :: t4 => some (cap, t4)
      | _ => none
  | _ => none

def matchArgs (cs : List Char) : Option (List Char × List Char) :=
  match optBracket cs with
  | none => none
  | some cs2 => bracedCapture cs2

/-- All captures of `/cmd(?:\[[^\]]*\])?\x7b([^\x7d]+)\x7d/g` over the
source, in order, resuming after each match. -/
def scanCmdF (cmd : List Char) : Nat → List Char → List (List Char)
  | 0, _ => []
  | fuel + 1, cs =>
    match cs with
    | [] => []
    | c :: t =>
      if cmd.isPrefixOf (c :: t) then
        match matchArgs ((c :: t).drop cmd.length) with
        | some capRest => capRest.1 :: scanCmdF cmd fuel capRest.2
        | none => scanCmdF cmd fuel t
      else scanCmdF cmd fuel t

def scanCmd (cmd : List Char) (cs : List Char) : List (List Char) :=
  scanCmdF cmd cs.length cs

/-- JavaScript `String.prototype.trim` whitespace (the characters that can
occur in practice; further Unicode space separators are not modelled). -/
def jsWhitespace (c : Char) : Bool :=
  c = ' ' || c = '\t' || c = '\n' || c = '\r' || c = '\x0b' || c = '\x0c' ||
  c = '\u00a0' || c = '\ufeff' || c = '\u2028' || c = '\u2029'

def jsTrimList (cs : List Char) : List Char :=
  ((cs.dropWhile jsWhitespace).reverse.dropWhile jsWhitespace).reverse

/-- JavaScript `String.prototype.split(',')`. -/
def splitComma : List Char → List (List Char)
  | [] => [[]]
  | c :: t =>
    if c = ',' then [] :: splitComma t
    else
      match splitComma t with
      | [] => [[c]]
      | g :: gs => (c :: g) :: gs

/-- `pkgList = match[1].split(',').map(p => p.trim()); for (pkg of pkgList)
packages.add(pkg)`. -/
def addSplitTrim (acc : List String) (cap : List Char) : List String :=
  (splitComma cap).foldl (fun a g => insertSet a (String.mk (jsTrimList g))) acc

/-- `BundleManager.checkPackages`, the `packages` set it builds (insertion
order): all `\usepackage` captures split and trimmed, then the raw capture
of the first `\documentclass` match only, then all `\RequirePackage`
captures split and trimmed. -/
def checkPackagesList (source : String) : List String :=
  let src := source.data
  let s0 := (scanCmd ("\\usepackage".data) src).foldl addSplitTrim []
  let s1 :=
    match (scanCmd ("\\documentclass".data) src).head? with
    | some cap => insertSet s0 (String.mk cap)
    | none => s0
  (scanCmd ("\\RequirePackage".data) src).foldl addSplitTrim s1

/-- The extraction as the specification words it: the union over every
occurrence of the three patterns of their brace-list arguments split by
comma and trimmed. -/
def specDeclaredPackages (source : String) : List String :=
  let src := source.data
  (scanCmd ("\\usepackage".data) src ++ scanCmd ("\\documentclass".data) src ++
    scanCmd ("\\RequirePackage".data) src).foldl addSplitTrim []

/-- C7 counterexample: on `\documentclass\x7ba, b\x7d` the code stores the raw
capture `"a, b"` (no comma split, no trim, first match only), while the
spec's union would contain `"a"` and `"b"`. -/
theorem checkPackages_docclass_cex :
    checkPackagesList "\\documentclass\x7ba, b\x7d" = ["a, b"]
    ∧ specDeclaredPackages "\\documentclass\x7ba, b\x7d" = ["a", "b"]
    ∧ ¬ ("a" ∈ checkPackagesList "\\documentclass\x7ba, b\x7d")
    ∧ "a" ∈ specDeclaredPackages "\\documentclass\x7ba, b\x7d" := by decide

theorem mem_foldl_insertSet_trim (G : List (List Char)) (acc : List String) (p : String) :
    p ∈ G.foldl (fun a g => insertSet a (String.mk (jsTrimList g))) acc
    ↔ p ∈ acc ∨ ∃ g ∈ G, p = String.mk (jsTrimList g) := by
  induction G generalizing acc with
  | nil => simp
  | cons g t ih =>
    simp only [List.foldl, ih, mem_insertSet, List.mem_cons]
    constructor
    · rintro (⟨h | h⟩ | ⟨g2, hg2, hp⟩)
      · exact Or.inl h
      · exact Or.inr ⟨g, Or.inl rfl, h⟩
      · exact Or.inr ⟨g2, Or.inr hg2, hp⟩
    · rintro (h | ⟨g2, hg2 | hg2, hp⟩)
      · exact Or.inl (Or.inl h)
      · exact Or.inl (Or.inr (hg2 ▸ hp))
      · exact Or.inr ⟨g2, hg2, hp⟩

theorem mem_foldl_addSplitTrim (L : List (List Char)) (acc : List String) (p : String) :
    p ∈ L.foldl addSplitTrim acc
    ↔ p ∈ acc ∨ ∃ cap ∈ L, ∃ g ∈ splitComma cap, p = String.mk (jsTrimList g) := by
  induction L generalizing acc with
  | nil => simp
  | cons cap t ih =>
    simp only [List.foldl, ih, addSplitTrim, mem_foldl_insertSet_trim, List.mem_cons]
    constructor
    · rintro (⟨h | ⟨g, hg, hp⟩⟩ | ⟨c2, hc2, hrest⟩)
      · exact Or.inl h
      · exact Or.inr ⟨cap, Or.inl rfl, g, hg, hp⟩
      · exact Or.inr ⟨c2, Or.inr hc2, hrest⟩
    · rintro (h | ⟨c2, hc2 | hc2, hrest⟩)
      · exact Or.inl (Or.inl h)
      · exact Or.inl (Or.inr (hc2 ▸ hrest))
      · exact Or.inr ⟨c2, hc2, hrest⟩

/-- C7 (corrected): a package name is extracted by `checkPackages` iff it is
a comma-split, trimmed entry of some `\usepackage` or `\RequirePackage`
brace list, or it is the raw (unsplit, untrimmed) brace argument of the
first `\documentclass` match. -/
theorem checkPackages_extraction (source p : String) :
    p ∈ checkPackagesList source ↔
      (∃ cap ∈ scanCmd ("\\usepackage".data) source.data,
        ∃ g ∈ splitComma cap, p = String.mk (jsTrimList g))
      ∨ (∃ cap, (scanCmd ("\\documentclass".data) source.data).head? = some cap
          ∧ p = String.mk cap)
      ∨ (∃ cap ∈ scanCmd ("\\RequirePackage".data) source.data,
          ∃ g ∈ splitComma cap, p = String.mk (jsTrimList g)) := by
  unfold checkPackagesList
  dsimp only
  rw [mem_foldl_addSplitTrim]
  cases hdc : (scanCmd ("\\documentclass".data) source.data).head? with
  | none =>
    simp only [hdc]
    rw [mem_foldl_addSplitTrim]
    simp only [List.not_mem_nil, false_or, Option.some.injEq]
    constructor
    · rintro (h | h)
      · exact Or.inl h
      · exact Or.inr (Or.inr h)
    · rintro (h | ⟨cap, hcap, hp⟩ | h)
      · exact Or.inl h
      · cases hcap
      · exact Or.inr h
  | some cap0 =>
    simp only [hdc]
    rw [mem_insertSet, mem_foldl_addSplitTrim]
    simp only [List.not_mem_nil, false_or, Option.some.injEq]
    constructor
    · rintro ((h | h) | h)
      · exact Or.inl h
      · exact Or.inr (Or.inl ⟨cap0, rfl, h⟩)
      · exact Or.inr (Or.inr h)
    · rintro (h | ⟨cap, hcap, hp⟩ | h)
      · exact Or.inl (Or.inl h)
      · exact Or.inl (Or.inr (hcap ▸ hp))
      · exact Or.inr h

end Siglum

namespace Siglum

/-! ## Claim C3: `BundleManager.resolveBundles`

The resolver's recursion terminates in JavaScript because every recursive
call first inserts a fresh name into the `resolved` set, and all names come
from the finite inputs.  The embedding makes the same argument explicit: a
fuel argument, fixed to (length of a universe list containing every name the
recursion can visit) + 1, which therefore never runs out. -/

/-- The manifests `resolveBundles` consults: `bundleRegistry`,
`packageMap`, `bundleDeps.bundles[b].requires`,
`bundleDeps.engines[e].required` and `packageDeps`. -/
structure BMData : Type where
  bundleRegistry : List String
  packageMap : List (String × String)
  bundleRequires : List (String × List String)
  engineRequired : List (String × List String)
  packageDeps : List (String × List String)
  deriving DecidableEq, Repr

/-- `BundleManager.bundleExists`. -/
def bundleExists (bm : BMData) (b : String) : Bool := b ∈ bm.bundleRegistry

/-- `this.bundleDeps?.bundles?.[b]?.requires` (empty when absent). -/
def reqOf (bm : BMData) (b : String) : List String :=
  (bm.bundleRequires.lookup b).getD []

/-- `this.packageDeps?.[p] || []`. -/
def pdepsOf (bm : BMData) (p : String) : List String :=
  (bm.packageDeps.lookup p).getD []

/-- `this.bundleDeps?.engines?.[engine]?.required` (empty when absent). -/
def engReq (bm : BMData) (engine : String) : List String :=
  (bm.engineRequired.lookup engine).getD []

/-- The two mutable sets of `resolveBundles`: `resolved` (bundle names and
`pkg:`-prefixed package markers) and `bundles`. -/
structure RSt : Type where
  resolved : List String
  bundles : List String
  deriving DecidableEq, Repr

/-- The inner `addBundle` closure. -/
def addBundle (bm : BMData) : Nat → RSt → String → RSt
  | 0, st, _ => st
  | fuel + 1, st, name =>
    if name ∈ st.resolved then st
    else
      let st1 : RSt := ⟨name :: st.resolved, st.bundles⟩
      if bundleExists bm name then
        (reqOf bm name).foldl (addBundle bm fuel)
          ⟨st1.resolved, insertSet st1.bundles name⟩
      else st1

/-- The inner `resolvePackage` closure (`if (bundleName)` is JavaScript
truthiness, so the empty string is skipped). -/
def resolvePackage (bm : BMData) : Nat → RSt → String → RSt
  | 0, st, _ => st
  | fuel + 1, st, pkg =>
    if ("pkg:" ++ pkg) ∈ st.resolved then st
    else
      let st1 : RSt := ⟨("pkg:" ++ pkg) :: st.resolved, st.bundles⟩
      let st2 :=
        match bm.packageMap.lookup pkg with
        | some b => if b == "" then st1 else addBundle bm fuel st1 b
        | none => st1
      (pdepsOf bm pkg).foldl (resolvePackage bm fuel) st2

/-- The engine-required seeding loop at the top of `resolveBundles`. -/
def engineSeeds (bm : BMData) (engine : String) : List String :=
  (engReq bm engine).foldl
    (fun acc b => if bundleExists bm b then insertSet acc b else acc) []

/-- Every name the recursion can insert into `resolved`: package markers for
the input packages and for all package-dependency entries, and bundle names
from the package map and the bundle-dependency lists. -/
def resolveUniverse (bm : BMData) (packages : List String) : List String :=
  packages.map (fun p => "pkg:" ++ p)
  ++ ((bm.packageDeps.map Prod.snd).flatten.map (fun p => "pkg:" ++ p))
  ++ bm.packageMap.map Prod.snd
  ++ (bm.bundleRequires.map Prod.snd).flatten

/-- `BundleManager.resolveBundles`. -/
def resolveBundles (bm : BMData) (packages : List String) (engine : String) :
    List String :=
  let fuel := (resolveUniverse bm packages).length + 1
  let stF := packages.foldl (resolvePackage bm fuel) ⟨[], engineSeeds bm engine⟩
  stF.bundles.filter (fun b => bundleExists bm b)

/-- C3 counterexample: engine-mandated seed bundles are added without
following their dependencies, so the output is not closed under the
bundle-dependency relation.  With registry `{A, B}`, engine seed `A` and
`A requires B`, the output is `[A]` although `B` is a registry bundle
required by `A`. -/
theorem resolver_closure_cex :
    resolveBundles
      ⟨["A", "B"], [], [("A", ["B"])], [("pdflatex", ["A"])], []⟩ [] "pdflatex"
      = ["A"]
    ∧ "B" ∈ reqOf ⟨["A", "B"], [], [("A", ["B"])], [("pdflatex", ["A"])], []⟩ "A"
    ∧ "B" ∈ (⟨["A", "B"], [], [("A", ["B"])], [("pdflatex", ["A"])], []⟩ : BMData).bundleRegistry
    ∧ "B" ∉ resolveBundles
        ⟨["A", "B"], [], [("A", ["B"])], [("pdflatex", ["A"])], []⟩ [] "pdflatex" := by
  decide

end Siglum

namespace Siglum

/-! ## Support lemmas for the resolver proof -/

theorem bundleExists_iff (bm : BMData) (b : String) :
    bundleExists bm b = true ↔ b ∈ bm.bundleRegistry := by
  simp [bundleExists]

theorem lookup_mem_map_snd {σ α : Type} [BEq σ] [LawfulBEq σ]
    (m : List (σ × α)) (k : σ) (v : α) (h : m.lookup k = some v) :
    v ∈ m.map Prod.snd := by
  induction m with
  | nil => cases h
  | cons kv t ih =>
    rw [List.lookup] at h
    cases hk : k == kv.1 with
    | true =>
      rw [hk] at h
      cases h
      exact List.mem_map_of_mem Prod.snd (List.mem_cons_self kv t)
    | false =>
      rw [hk] at h
      exact List.mem_cons_of_mem _ (ih h)

theorem jsStartsWith_append (s t : String) : jsStartsWith (s ++ t) s = true := by
  unfold jsStartsWith
  have hdata : (s ++ t).data = s.data ++ t.data := rfl
  rw [hdata]
  exact List.isPrefixOf_iff_prefix.mpr ⟨t.data, rfl⟩

/-- Count of universe names not yet in `resolved`: the decreasing measure of
the resolver recursion. -/
def unresolvedCount (univ : List String) (resolved : List String) : Nat :=
  (univ.filter (fun x => decide (x ∉ resolved))).length

theorem length_filter_mono {α : Type} (l : List α) (p q : α → Bool)
    (h : ∀ x ∈ l, p x = true → q x = true) :
    (l.filter p).length ≤ (l.filter q).length := by
  induction l with
  | nil => simp
  | cons a t ih =>
    have iht := ih (fun x hx => h x (List.mem_cons_of_mem a hx))
    by_cases hp : p a = true
    · rw [List.filter_cons_of_pos hp, List.filter_cons_of_pos (h a (List.mem_cons_self a t) hp)]
      simpa using iht
    · rw [List.filter_cons_of_neg (by simpa using hp)]
      by_cases hq : q a = true
      · rw [List.filter_cons_of_pos hq]
        exact iht.trans (Nat.le_succ _)
      · rw [List.filter_cons_of_neg (by simpa using hq)]
        exact iht

theorem unresolvedCount_mono (univ : List String) (r1 r2 : List String)
    (h : r1 ⊆ r2) : unresolvedCount univ r2 ≤ unresolvedCount univ r1 := by
  unfold unresolvedCount
  refine length_filter_mono univ _ _ ?_
  intro x _ hx
  simp only [decide_eq_true_eq] at hx ⊢
  exact fun hx1 => hx (h hx1)

theorem unresolvedCount_cons_lt (univ : List String) (name : String)
    (r : List String) (hU : name ∈ univ) (hn : name ∉ r) :
    unresolvedCount univ (name :: r) < unresolvedCount univ r := by
  induction univ with
  | nil => cases hU
  | cons a u ih =>
    unfold unresolvedCount
    by_cases ha : a = name
    · subst ha
      rw [List.filter_cons_of_neg (by simp), List.filter_cons_of_pos (by simpa using hn)]
      have := unresolvedCount_mono u r (a :: r) (List.subset_cons_self a r)
      unfold unresolvedCount at this
      simpa using Nat.lt_succ_of_le this
    · have hU2 : name ∈ u := by
        rcases List.mem_cons.mp hU with h | h
        · exact absurd h.symm ha
        · exact h
      have ihu := ih hU2
      unfold unresolvedCount at ihu
      by_cases har : a ∈ r
      · rw [List.filter_cons, List.filter_cons, if_neg (by simp [har]),
          if_neg (by simp [har])]
        exact ihu
      · rw [List.filter_cons, List.filter_cons, if_pos (by simp [ha, har]),
          if_pos (by simp [har])]
        simpa using ihu

/-- Pointwise ordering of resolver states: both sets only grow. -/
def RStLe (s1 s2 : RSt) : Prop :=
  s1.resolved ⊆ s2.resolved ∧ s1.bundles ⊆ s2.bundles

theorem RStLe_refl (s : RSt) : RStLe s s := ⟨fun _ h => h, fun _ h => h⟩

theorem RStLe_trans {a b c : RSt} (h1 : RStLe a b) (h2 : RStLe b c) : RStLe a c :=
  ⟨h1.1.trans h2.1, h1.2.trans h2.2⟩

theorem foldl_RStLe {f : RSt → String → RSt} (hf : ∀ st x, RStLe st (f st x)) :
    ∀ (l : List String) (st : RSt), RStLe st (l.foldl f st) := by
  intro l
  induction l with
  | nil => intro st; exact RStLe_refl st
  | cons x t ih => intro st; exact RStLe_trans (hf st x) (ih (f st x))

theorem addBundle_rstLe (bm : BMData) :
    ∀ fuel (st : RSt) (name : String), RStLe st (addBundle bm fuel st name) := by
  intro fuel
  induction fuel with
  | zero => intro st name; exact RStLe_refl st
  | succ f ih =>
    intro st name
    unfold addBundle
    by_cases hmem : name ∈ st.resolved
    · rw [if_pos hmem]; exact RStLe_refl st
    · rw [if_neg hmem]
      dsimp only
      by_cases hex : bundleExists bm name
      · rw [if_pos hex]
        refine RStLe_trans ?_ (foldl_RStLe ih _ _)
        exact ⟨List.subset_cons_self _ _, subset_insertSet _ _⟩
      · rw [if_neg hex]
        exact ⟨List.subset_cons_self _ _, fun _ h => h⟩

theorem resolvePackage_rstLe (bm : BMData) :
    ∀ fuel (st : RSt) (pkg : String), RStLe st (resolvePackage bm fuel st pkg) := by
  intro fuel
  induction fuel with
  | zero => intro st pkg; exact RStLe_refl st
  | succ f ih =>
    intro st pkg
    unfold resolvePackage
    by_cases hmem : ("pkg:" ++ pkg) ∈ st.resolved
    · rw [if_pos hmem]; exact RStLe_refl st
    · rw [if_neg hmem]
      dsimp only
      have h1 : RStLe st ⟨("pkg:" ++ pkg) :: st.resolved, st.bundles⟩ :=
        ⟨List.subset_cons_self _ _, fun _ h => h⟩
      refine RStLe_trans ?_ (foldl_RStLe ih _ _)
      split
      next b heq =>
        split
        · exact h1
        · exact RStLe_trans h1 (addBundle_rstLe bm f _ b)
      next heq => exact h1

end Siglum

namespace Siglum

/-- Registry bundles in `resolved` are always in `bundles` (they are added
to both together by `addBundle`). -/
def RegInv (bm : BMData) (st : RSt) : Prop :=
  ∀ b, b ∈ st.resolved → b ∈ bm.bundleRegistry → b ∈ st.bundles

/-- Every registry bundle newly added to `resolved` between two states has
all its registry dependencies in the final `bundles`. -/
def NewClosed (bm : BMData) (st st2 : RSt) : Prop :=
  ∀ b, b ∈ st2.resolved → b ∉ st.resolved → b ∈ bm.bundleRegistry →
    ∀ d, d ∈ reqOf bm b → d ∈ bm.bundleRegistry → d ∈ st2.bundles

theorem NewClosed_rfl (bm : BMData) (st : RSt) : NewClosed bm st st :=
  fun _ _hmem hnew _ _ _ _ => absurd _hmem hnew

theorem NewClosed_trans {bm : BMData} {s a b : RSt}
    (h1 : NewClosed bm s a) (h2 : NewClosed bm a b) (hle : RStLe a b) :
    NewClosed bm s b := by
  intro x hx hxs hxreg d hd hdreg
  by_cases hxa : x ∈ a.resolved
  · exact hle.2 (h1 x hxa hxs hxreg d hd hdreg)
  · exact h2 x hx hxa hxreg d hd hdreg

/-- Main lemma for `addBundle`: with fuel exceeding the number of
unvisited universe names, the call preserves the registry invariant, puts
`name` into `resolved`, only ever adds universe names to `resolved`, and
leaves every newly resolved registry bundle closed under its registry
dependencies. -/
theorem addBundle_main (bm : BMData) (univ : List String)
    (hUreq : ∀ n d, d ∈ reqOf bm n → d ∈ univ) :
    ∀ fuel (st : RSt) (name : String),
      RegInv bm st → name ∈ univ →
      unresolvedCount univ st.resolved + 1 ≤ fuel →
      RegInv bm (addBundle bm fuel st name)
      ∧ (∀ x, x ∈ (addBundle bm fuel st name).resolved → x ∈ st.resolved ∨ x ∈ univ)
      ∧ name ∈ (addBundle bm fuel st name).resolved
      ∧ NewClosed bm st (addBundle bm fuel st name) := by
  intro fuel
  induction fuel with
  | zero =>
    intro st name _ _ hfuel
    omega
  | succ f ih =>
    intro st name hInv hU hfuel
    unfold addBundle
    by_cases hmem : name ∈ st.resolved
    · rw [if_pos hmem]
      exact ⟨hInv, fun x hx => Or.inl hx, hmem, NewClosed_rfl bm st⟩
    · rw [if_neg hmem]
      dsimp only
      have hm1 : unresolvedCount univ (name :: st.resolved) + 1 ≤ f := by
        have := unresolvedCount_cons_lt univ name st.resolved hU hmem
        omega
      by_cases hex : bundleExists bm name
      · rw [if_pos hex]
        have hnreg : name ∈ bm.bundleRegistry := (bundleExists_iff bm name).mp hex
        set st2 : RSt := ⟨name :: st.resolved, insertSet st.bundles name⟩ with hst2
        have hInv2 : RegInv bm st2 := by
          intro b hb hbreg
          rcases List.mem_cons.mp hb with hb | hb
          · subst hb
            exact (mem_insertSet _ _ _).mpr (Or.inr rfl)
          · exact subset_insertSet _ _ (hInv b hb hbreg)
        -- the dependency fold at fuel f
        have hfold : ∀ (l : List String) (s : RSt),
            (∀ x ∈ l, x ∈ univ) → RegInv bm s →
            unresolvedCount univ s.resolved + 1 ≤ f →
            RegInv bm (l.foldl (addBundle bm f) s)
            ∧ (∀ x, x ∈ (l.foldl (addBundle bm f) s).resolved →
                x ∈ s.resolved ∨ x ∈ univ)
            ∧ NewClosed bm s (l.foldl (addBundle bm f) s)
            ∧ (∀ x ∈ l, x ∈ (l.foldl (addBundle bm f) s).resolved) := by
          intro l
          induction l with
          | nil =>
            intro s _ hsInv _
            exact ⟨hsInv, fun x hx => Or.inl hx, NewClosed_rfl bm s, by simp⟩
          | cons d t ihl =>
            intro s hlU hsInv hsf
            simp only [List.foldl]
            have hstep := ih s d hsInv (hlU d (List.mem_cons_self d t)) hsf
            have hstepLe : RStLe s (addBundle bm f s d) := addBundle_rstLe bm f s d
            have hsf2 : unresolvedCount univ (addBundle bm f s d).resolved + 1 ≤ f := by
              have := unresolvedCount_mono univ s.resolved
                (addBundle bm f s d).resolved hstepLe.1
              omega
            have hrest := ihl (addBundle bm f s d)
              (fun x hx => hlU x (List.mem_cons_of_mem d hx)) hstep.1 hsf2
            have hrestLe : RStLe (addBundle bm f s d)
                (t.foldl (addBundle bm f) (addBundle bm f s d)) :=
              foldl_RStLe (addBundle_rstLe bm f) t _
            refine ⟨hrest.1, ?_, ?_, ?_⟩
            · intro x hx
              rcases hrest.2.1 x hx with hx2 | hx2
              · rcases hstep.2.1 x hx2 with hx3 | hx3
                · exact Or.inl hx3
                · exact Or.inr hx3
              · exact Or.inr hx2
            · exact NewClosed_trans hstep.2.2.2 hrest.2.2.1 hrestLe
            · intro x hx
              rcases List.mem_cons.mp hx with hx | hx
              · subst hx
                exact hrestLe.1 hstep.2.2.1
              · exact hrest.2.2.2 x hx
        have hm2 : unresolvedCount univ st2.resolved + 1 ≤ f := hm1
        have hresult := hfold (reqOf bm name) st2
          (fun x hx => hUreq name x hx) hInv2 hm2
        set stF := (reqOf bm name).foldl (addBundle bm f) st2 with hstF
        have hFLe : RStLe st2 stF := foldl_RStLe (addBundle_rstLe bm f) _ _
        refine ⟨hresult.1, ?_, ?_, ?_⟩
        · intro x hx
          rcases hresult.2.1 x hx with hx2 | hx2
          · rcases List.mem_cons.mp hx2 with hx3 | hx3
            · exact Or.inr (hx3 ▸ hU)
            · exact Or.inl hx3
          · exact Or.inr hx2
        · exact hFLe.1 (List.mem_cons_self name st.resolved)
        · intro b hb hbnew hbreg d hd hdreg
          by_cases hbn : b = name
          · subst hbn
            have hdres : d ∈ stF.resolved := hresult.2.2.2 d hd
            exact hresult.1 d hdres hdreg
          · have hbnew2 : b ∉ st2.resolved := by
              intro hb2
              rcases List.mem_cons.mp hb2 with h | h
              · exact hbn h
              · exact hbnew h
            exact hresult.2.2.1 b hb hbnew2 hbreg d hd hdreg
      · rw [if_neg hex]
        have hnreg : name ∉ bm.bundleRegistry := fun h =>
          hex ((bundleExists_iff bm name).mpr h)
        refine ⟨?_, ?_, List.mem_cons_self name st.resolved, ?_⟩
        · intro b hb hbreg
          rcases List.mem_cons.mp hb with hb | hb
          · exact absurd (hb ▸ hbreg) hnreg
          · exact hInv b hb hbreg
        · intro x hx
          rcases List.mem_cons.mp hx with hx | hx
          · exact Or.inr (hx ▸ hU)
          · exact Or.inl hx
        · intro b hb hbnew hbreg d hd hdreg
          rcases List.mem_cons.mp hb with hb | hb
          · exact absurd (hb ▸ hbreg) hnreg
          · exact absurd hb hbnew

end Siglum

namespace Siglum

theorem resolvePackage_main (bm : BMData) (univ : List String)
    (hUreq : ∀ n d, d ∈ reqOf bm n → d ∈ univ)
    (hUpm : ∀ p b, bm.packageMap.lookup p = some b → b ∈ univ)
    (hUpd : ∀ p d, d ∈ pdepsOf bm p → ("pkg:" ++ d) ∈ univ)
    (Hreg : ∀ s ∈ bm.bundleRegistry, jsStartsWith s "pkg:" = false) :
    ∀ fuel (st : RSt) (pkg : String),
      RegInv bm st → ("pkg:" ++ pkg) ∈ univ →
      unresolvedCount univ st.resolved + 1 ≤ fuel →
      RegInv bm (resolvePackage bm fuel st pkg)
      ∧ (∀ x, x ∈ (resolvePackage bm fuel st pkg).resolved →
          x ∈ st.resolved ∨ x ∈ univ)
      ∧ NewClosed bm st (resolvePackage bm fuel st pkg) := by
  intro fuel
  induction fuel with
  | zero =>
    intro st pkg _ _ hfuel
    omega
  | succ f ih =>
    intro st pkg hInv hU hfuel
    unfold resolvePackage
    by_cases hmem : ("pkg:" ++ pkg) ∈ st.resolved
    · rw [if_pos hmem]
      exact ⟨hInv, fun x hx => Or.inl hx, NewClosed_rfl bm st⟩
    · rw [if_neg hmem]
      dsimp only
      have hmarker_notreg : ("pkg:" ++ pkg) ∉ bm.bundleRegistry := by
        intro h
        have h1 := Hreg _ h
        have h2 := jsStartsWith_append "pkg:" pkg
        rw [h1] at h2
        cases h2
      set st1 : RSt := ⟨("pkg:" ++ pkg) :: st.resolved, st.bundles⟩ with hst1
      have hInv1 : RegInv bm st1 := by
        intro b hb hbreg
        rcases List.mem_cons.mp hb with hb | hb
        · exact absurd (hb ▸ hbreg) hmarker_notreg
        · exact hInv b hb hbreg
      have hNew1 : NewClosed bm st st1 := by
        intro b hb hbnew hbreg d hd hdreg
        rcases List.mem_cons.mp hb with hb | hb
        · exact absurd (hb ▸ hbreg) hmarker_notreg
        · exact absurd hb hbnew
      have hLe1 : RStLe st st1 := ⟨List.subset_cons_self _ _, fun _ h => h⟩
      have hm1 : unresolvedCount univ st1.resolved + 1 ≤ f := by
        have h := unresolvedCount_cons_lt univ ("pkg:" ++ pkg) st.resolved hU hmem
        have heq2 : unresolvedCount univ st1.resolved
            = unresolvedCount univ (("pkg:" ++ pkg) :: st.resolved) := rfl
        rw [heq2]
        omega
      -- the intermediate state after the packageMap lookup
      have hst2 : ∀ st2 : RSt,
          (RegInv bm st2 ∧ (∀ x, x ∈ st2.resolved → x ∈ st1.resolved ∨ x ∈ univ)
            ∧ NewClosed bm st1 st2 ∧ RStLe st1 st2) →
          unresolvedCount univ st2.resolved + 1 ≤ f →
          RegInv bm ((pdepsOf bm pkg).foldl (resolvePackage bm f) st2)
          ∧ (∀ x, x ∈ ((pdepsOf bm pkg).foldl (resolvePackage bm f) st2).resolved →
              x ∈ st2.resolved ∨ x ∈ univ)
          ∧ NewClosed bm st2 ((pdepsOf bm pkg).foldl (resolvePackage bm f) st2) := by
        intro st2 _ hm2
        have hfold : ∀ (l : List String) (s : RSt),
            (∀ x ∈ l, ("pkg:" ++ x) ∈ univ) → RegInv bm s →
            unresolvedCount univ s.resolved + 1 ≤ f →
            RegInv bm (l.foldl (resolvePackage bm f) s)
            ∧ (∀ x, x ∈ (l.foldl (resolvePackage bm f) s).resolved →
                x ∈ s.resolved ∨ x ∈ univ)
            ∧ NewClosed bm s (l.foldl (resolvePackage bm f) s) := by
          intro l
          induction l with
          | nil =>
            intro s _ hsInv _
            exact ⟨hsInv, fun x hx => Or.inl hx, NewClosed_rfl bm s⟩
          | cons d t ihl =>
            intro s hlU hsInv hsf
            simp only [List.foldl]
            have hstep := ih s d hsInv (hlU d (List.mem_cons_self d t)) hsf
            have hstepLe : RStLe s (resolvePackage bm f s d) :=
              resolvePackage_rstLe bm f s d
            have hsf2 : unresolvedCount univ (resolvePackage bm f s d).resolved + 1 ≤ f := by
              have := unresolvedCount_mono univ s.resolved
                (resolvePackage bm f s d).resolved hstepLe.1
              omega
            have hrest := ihl (resolvePackage bm f s d)
              (fun x hx => hlU x (List.mem_cons_of_mem d hx)) hstep.1 hsf2
            have hrestLe : RStLe (resolvePackage bm f s d)
                (t.foldl (resolvePackage bm f) (resolvePackage bm f s d)) :=
              foldl_RStLe (resolvePackage_rstLe bm f) t _
            refine ⟨hrest.1, ?_, ?_⟩
            · intro x hx
              rcases hrest.2.1 x hx with hx2 | hx2
              · rcases hstep.2.1 x hx2 with hx3 | hx3
                · exact Or.inl hx3
                · exact Or.inr hx3
              · exact Or.inr hx2
            · exact NewClosed_trans hstep.2.2 hrest.2.2 hrestLe
        exact hfold (pdepsOf bm pkg) st2 (fun x hx => hUpd pkg x hx) (by tauto) hm2
      -- case analysis on the lookup
      split
      next b heq =>
        by_cases hb : (b == "") = true
        · rw [if_pos hb]
          have hres := hst2 st1 ⟨hInv1, fun x hx => Or.inl hx, NewClosed_rfl bm st1,
            RStLe_refl st1⟩ hm1
          refine ⟨hres.1, ?_, ?_⟩
          · intro x hx
            rcases hres.2.1 x hx with hx2 | hx2
            · rcases List.mem_cons.mp hx2 with hx3 | hx3
              · exact Or.inr (hx3 ▸ hU)
              · exact Or.inl hx3
            · exact Or.inr hx2
          · refine NewClosed_trans hNew1 hres.2.2 ?_
            exact foldl_RStLe (resolvePackage_rstLe bm f) _ _
        · rw [if_neg hb]
          have hab := addBundle_main bm univ hUreq f st1 b hInv1 (hUpm pkg b heq) hm1
          have habLe : RStLe st1 (addBundle bm f st1 b) := addBundle_rstLe bm f st1 b
          have hm2 : unresolvedCount univ (addBundle bm f st1 b).resolved + 1 ≤ f := by
            have := unresolvedCount_mono univ st1.resolved
              (addBundle bm f st1 b).resolved habLe.1
            omega
          have hres := hst2 (addBundle bm f st1 b)
            ⟨hab.1, hab.2.1, hab.2.2.2, habLe⟩ hm2
          refine ⟨hres.1, ?_, ?_⟩
          · intro x hx
            rcases hres.2.1 x hx with hx2 | hx2
            · rcases hab.2.1 x hx2 with hx3 | hx3
              · rcases List.mem_cons.mp hx3 with hx4 | hx4
                · exact Or.inr (hx4 ▸ hU)
                · exact Or.inl hx4
              · exact Or.inr hx3
            · exact Or.inr hx2
          · have hfoldLe : RStLe (addBundle bm f st1 b)
                ((pdepsOf bm pkg).foldl (resolvePackage bm f) (addBundle bm f st1 b)) :=
              foldl_RStLe (resolvePackage_rstLe bm f) _ _
            exact NewClosed_trans hNew1
              (NewClosed_trans hab.2.2.2 hres.2.2 hfoldLe)
              (RStLe_trans habLe hfoldLe)
      next heq =>
        have hres := hst2 st1 ⟨hInv1, fun x hx => Or.inl hx, NewClosed_rfl bm st1,
          RStLe_refl st1⟩ hm1
        refine ⟨hres.1, ?_, ?_⟩
        · intro x hx
          rcases hres.2.1 x hx with hx2 | hx2
          · rcases List.mem_cons.mp hx2 with hx3 | hx3
            · exact Or.inr (hx3 ▸ hU)
            · exact Or.inl hx3
          · exact Or.inr hx2
        · refine NewClosed_trans hNew1 hres.2.2 ?_
          exact foldl_RStLe (resolvePackage_rstLe bm f) _ _

end Siglum

namespace Siglum

theorem foldl_bundles_origin {f : RSt → String → RSt}
    (hstep : ∀ s x, ∀ y ∈ (f s x).bundles, y ∈ s.bundles ∨ y ∈ (f s x).resolved)
    (hmono : ∀ s x, RStLe s (f s x)) :
    ∀ (l : List String) (s : RSt),
      ∀ y ∈ (l.foldl f s).bundles, y ∈ s.bundles ∨ y ∈ (l.foldl f s).resolved := by
  intro l
  induction l with
  | nil => intro s y hy; exact Or.inl hy
  | cons x t ih =>
    intro s y hy
    simp only [List.foldl] at hy ⊢
    have hrestLe : RStLe (f s x) (t.foldl f (f s x)) := foldl_RStLe hmono t _
    rcases ih (f s x) y hy with hy2 | hy2
    · rcases hstep s x y hy2 with hy3 | hy3
      · exact Or.inl hy3
      · exact Or.inr (hrestLe.1 hy3)
    · exact Or.inr hy2

theorem addBundle_bundles_origin (bm : BMData) :
    ∀ fuel (st : RSt) (name : String),
      ∀ y ∈ (addBundle bm fuel st name).bundles,
        y ∈ st.bundles ∨ y ∈ (addBundle bm fuel st name).resolved := by
  intro fuel
  induction fuel with
  | zero => intro st name y hy; exact Or.inl hy
  | succ f ih =>
    intro st name y hy
    unfold addBundle at hy ⊢
    by_cases hmem : name ∈ st.resolved
    · rw [if_pos hmem] at hy ⊢
      exact Or.inl hy
    · rw [if_neg hmem] at hy ⊢
      dsimp only at hy ⊢
      by_cases hex : bundleExists bm name
      · rw [if_pos hex] at hy ⊢
        have hFLe : RStLe ⟨name :: st.resolved, insertSet st.bundles name⟩
            ((reqOf bm name).foldl (addBundle bm f)
              ⟨name :: st.resolved, insertSet st.bundles name⟩) :=
          foldl_RStLe (addBundle_rstLe bm f) _ _
        rcases foldl_bundles_origin ih (addBundle_rstLe bm f) (reqOf bm name)
            ⟨name :: st.resolved, insertSet st.bundles name⟩ y hy with hy2 | hy2
        · rcases (mem_insertSet st.bundles name y).mp hy2 with hy3 | hy3
          · exact Or.inl hy3
          · exact Or.inr (hFLe.1 (hy3 ▸ List.mem_cons_self name st.resolved))
        · exact Or.inr hy2
      · rw [if_neg hex] at hy ⊢
        exact Or.inl hy

theorem resolvePackage_bundles_origin (bm : BMData) :
    ∀ fuel (st : RSt) (pkg : String),
      ∀ y ∈ (resolvePackage bm fuel st pkg).bundles,
        y ∈ st.bundles ∨ y ∈ (resolvePackage bm fuel st pkg).resolved := by
  intro fuel
  induction fuel with
  | zero => intro st pkg y hy; exact Or.inl hy
  | succ f ih =>
    intro st pkg y hy
    unfold resolvePackage at hy ⊢
    by_cases hmem : ("pkg:" ++ pkg) ∈ st.resolved
    · rw [if_pos hmem] at hy ⊢
      exact Or.inl hy
    · rw [if_neg hmem] at hy ⊢
      dsimp only at hy ⊢
      set st1 : RSt := ⟨("pkg:" ++ pkg) :: st.resolved, st.bundles⟩ with hst1
      have hmain : ∀ st2 : RSt,
          (∀ y2 ∈ st2.bundles, y2 ∈ st.bundles ∨ y2 ∈ st2.resolved) →
          ∀ y2 ∈ ((pdepsOf bm pkg).foldl (resolvePackage bm f) st2).bundles,
            y2 ∈ st.bundles
            ∨ y2 ∈ ((pdepsOf bm pkg).foldl (resolvePackage bm f) st2).resolved := by
        intro st2 h2 y2 hy2
        have hFLe : RStLe st2 ((pdepsOf bm pkg).foldl (resolvePackage bm f) st2) :=
          foldl_RStLe (resolvePackage_rstLe bm f) _ _
        rcases foldl_bundles_origin ih (resolvePackage_rstLe bm f)
            (pdepsOf bm pkg) st2 y2 hy2 with hy3 | hy3
        · rcases h2 y2 hy3 with hy4 | hy4
          · exact Or.inl hy4
          · exact Or.inr (hFLe.1 hy4)
        · exact Or.inr hy3
      revert hy
      split
      next b heq =>
        split
        · exact fun hy => hmain st1 (fun y2 hy2 => Or.inl hy2) y hy
        · refine fun hy => hmain (addBundle bm f st1 b) ?_ y hy
          intro y2 hy2
          exact addBundle_bundles_origin bm f st1 b y2 hy2
      next heq =>
        exact fun hy => hmain st1 (fun y2 hy2 => Or.inl hy2) y hy

/-- C3 (corrected): the resolver's output is a subset of the registry, and it
is closed under the bundle-dependency relation restricted to (a) bundles the
package-resolution recursion added (engine-seed bundles are placed in the
output without following their `requires` lists) and (b) required bundles
that are present in the registry (others are omitted).  The hypothesis rules
out registry names that collide with the resolver's internal `pkg:` markers. -/
theorem resolver_subset_and_closure (bm : BMData) (packages : List String)
    (engine : String)
    (Hreg : ∀ s ∈ bm.bundleRegistry, jsStartsWith s "pkg:" = false) :
    (∀ b ∈ resolveBundles bm packages engine, b ∈ bm.bundleRegistry)
    ∧ (∀ b ∈ resolveBundles bm packages engine, b ∉ engineSeeds bm engine →
        ∀ d ∈ reqOf bm b, d ∈ bm.bundleRegistry →
          d ∈ resolveBundles bm packages engine) := by
  have hsubset : ∀ b ∈ resolveBundles bm packages engine, b ∈ bm.bundleRegistry := by
    intro b hb
    unfold resolveBundles at hb
    dsimp only at hb
    have := List.mem_filter.mp hb
    exact (bundleExists_iff bm b).mp this.2
  refine ⟨hsubset, ?_⟩
  intro b hb hbseed d hd hdreg
  set univ := resolveUniverse bm packages with huniv
  set fuel := univ.length + 1 with hfuel
  set st0 : RSt := ⟨[], engineSeeds bm engine⟩ with hst0
  set stF := packages.foldl (resolvePackage bm fuel) st0 with hstF
  have hUreq : ∀ n d2, d2 ∈ reqOf bm n → d2 ∈ univ := by
    intro n d2 hd2
    unfold reqOf at hd2
    cases hlk : bm.bundleRequires.lookup n with
    | none => rw [hlk] at hd2; cases hd2
    | some l =>
      rw [hlk] at hd2
      have hmem : d2 ∈ (bm.bundleRequires.map Prod.snd).flatten :=
        List.mem_flatten.mpr ⟨l, lookup_mem_map_snd _ _ _ hlk, hd2⟩
      rw [huniv]
      unfold resolveUniverse
      simp only [List.mem_append]
      tauto
  have hUpm : ∀ p b2, bm.packageMap.lookup p = some b2 → b2 ∈ univ := by
    intro p b2 h
    have hmem : b2 ∈ bm.packageMap.map Prod.snd := lookup_mem_map_snd _ _ _ h
    rw [huniv]
    unfold resolveUniverse
    simp only [List.mem_append]
    tauto
  have hUpd : ∀ p d2, d2 ∈ pdepsOf bm p → ("pkg:" ++ d2) ∈ univ := by
    intro p d2 hd2
    unfold pdepsOf at hd2
    cases hlk : bm.packageDeps.lookup p with
    | none => rw [hlk] at hd2; cases hd2
    | some l =>
      rw [hlk] at hd2
      have hmem : ("pkg:" ++ d2)
          ∈ (bm.packageDeps.map Prod.snd).flatten.map (fun p => "pkg:" ++ p) :=
        List.mem_map.mpr ⟨d2,
          List.mem_flatten.mpr ⟨l, lookup_mem_map_snd _ _ _ hlk, hd2⟩, rfl⟩
      rw [huniv]
      unfold resolveUniverse
      simp only [List.mem_append]
      tauto
  -- the top-level fold over the extracted packages
  have hfold : ∀ (l : List String) (s : RSt),
      (∀ x ∈ l, ("pkg:" ++ x) ∈ univ) → RegInv bm s →
      unresolvedCount univ s.resolved + 1 ≤ fuel →
      RegInv bm (l.foldl (resolvePackage bm fuel) s)
      ∧ NewClosed bm s (l.foldl (resolvePackage bm fuel) s) := by
    intro l
    induction l with
    | nil => intro s _ hsInv _; exact ⟨hsInv, NewClosed_rfl bm s⟩
    | cons x t ihl =>
      intro s hlU hsInv hsf
      simp only [List.foldl]
      have hstep := resolvePackage_main bm univ hUreq hUpm hUpd Hreg fuel s x
        hsInv (hlU x (List.mem_cons_self x t)) hsf
      have hstepLe : RStLe s (resolvePackage bm fuel s x) :=
        resolvePackage_rstLe bm fuel s x
      have hsf2 : unresolvedCount univ (resolvePackage bm fuel s x).resolved + 1
          ≤ fuel := by
        have := unresolvedCount_mono univ s.resolved
          (resolvePackage bm fuel s x).resolved hstepLe.1
        omega
      have hrest := ihl (resolvePackage bm fuel s x)
        (fun y hy => hlU y (List.mem_cons_of_mem x hy)) hstep.1 hsf2
      have hrestLe : RStLe (resolvePackage bm fuel s x)
          (t.foldl (resolvePackage bm fuel) (resolvePackage bm fuel s x)) :=
        foldl_RStLe (resolvePackage_rstLe bm fuel) t _
      exact ⟨hrest.1, NewClosed_trans hstep.2.2 hrest.2 hrestLe⟩
  have hUl : ∀ x ∈ packages, ("pkg:" ++ x) ∈ univ := by
    intro x hx
    have hmem : ("pkg:" ++ x) ∈ packages.map (fun p => "pkg:" ++ p) :=
      List.mem_map.mpr ⟨x, hx, rfl⟩
    rw [huniv]
    unfold resolveUniverse
    simp only [List.mem_append]
    tauto
  have hInv0 : RegInv bm st0 := by
    intro b2 hb2 _
    cases hb2
  have hm0 : unresolvedCount univ st0.resolved + 1 ≤ fuel := by
    have : unresolvedCount univ st0.resolved = univ.length := by
      show (univ.filter (fun x => decide (x ∉ ([] : List String)))).length = univ.length
      simp
    omega
  have hmain := hfold packages st0 hUl hInv0 hm0
  -- membership of b in the output
  have hbout : b ∈ stF.bundles ∧ bundleExists bm b = true := by
    have hb2 := hb
    unfold resolveBundles at hb2
    dsimp only at hb2
    exact List.mem_filter.mp hb2
  -- b was resolved by the recursion (it is in the output but not a seed)
  have hbres : b ∈ stF.resolved := by
    have horigin := foldl_bundles_origin (resolvePackage_bundles_origin bm fuel)
      (resolvePackage_rstLe bm fuel) packages st0 b hbout.1
    rcases horigin with h | h
    · exact absurd h hbseed
    · exact h
  have hbreg : b ∈ bm.bundleRegistry := (bundleExists_iff bm b).mp hbout.2
  have hdbundles : d ∈ stF.bundles :=
    hmain.2 b hbres (by intro h; cases h) hbreg d hd hdreg
  unfold resolveBundles
  dsimp only
  exact List.mem_filter.mpr ⟨hdbundles, (bundleExists_iff bm d).mpr hdreg⟩

theorem resolver_subset_and_closure_witness :
    (∀ s ∈ (⟨["A", "B"], [("p", "A")], [("A", ["B"])], [("pdflatex", [])], []⟩
        : BMData).bundleRegistry, jsStartsWith s "pkg:" = false)
    ∧ (∀ b ∈ resolveBundles
          ⟨["A", "B"], [("p", "A")], [("A", ["B"])], [("pdflatex", [])], []⟩
          ["p"] "pdflatex",
        b ∈ (⟨["A", "B"], [("p", "A")], [("A", ["B"])], [("pdflatex", [])], []⟩
          : BMData).bundleRegistry) :=
  ⟨by decide,
    (resolver_subset_and_closure
      ⟨["A", "B"], [("p", "A")], [("A", ["B"])], [("pdflatex", [])], []⟩
      ["p"] "pdflatex" (by decide)).1⟩

end Siglum

namespace Siglum

/-! ## Claim C8: `generateLsR`

Paths are modelled as lists of non-empty components: the canonical absolute
path `/texlive/texmf-dist/tex/a.sty` is `["texlive", "texmf-dist", "tex",
"a.sty"]`.  On such canonical paths `startsWith(basePath)` is component-list
prefixing, and the `substring` / `split('/')` arithmetic of `generateLsR` is
exactly the component operations used below.  `dirContents` is the same flat
map from directory path to `{files, subdirs}` that the source builds, and the
emission loop is split into the block structure it pushes (one `dirPath:`
line, the sorted files, the sorted subdirectories, one blank line) followed
by the flattening into lines.  JavaScript's default array sort (UTF-16
code-unit lexicographic) is `List.insertionSort (· ≤ ·)` on strings, which
agrees on the basic-plane strings that occur as path components. -/

/-- A `{files, subdirs}` record of `dirContents`. -/
abbrev DirEntry : Type := List String × List String

/-- `dirContents`: directory path (components relative to the base) to entry. -/
abbrev DC : Type := List (List String × DirEntry)

def getDirE (m : DC) (k : List String) : DirEntry :=
  (m.lookup k).getD ([], [])

def setDirE (m : DC) (k : List String) (e : DirEntry) : DC :=
  updAssoc m k e

def hasDirE (m : DC) (k : List String) : Bool :=
  (m.lookup k).isSome

/-- The inner walk of `generateLsR`'s first loop: register each component of
the directory path in its parent's `subdirs` and make sure an entry exists
(`getDir`). -/
def walkDirs : DC → List String → List String → DC
  | m, _, [] => m
  | m, cur, part :: rest =>
    let parent := getDirE m cur
    let m1 := setDirE m cur (parent.1,
      if part ∈ parent.2 then parent.2 else parent.2 ++ [part])
    let m2 := if hasDirE m1 (cur ++ [part]) then m1
      else setDirE m1 (cur ++ [part]) ([], [])
    walkDirs m2 (cur ++ [part]) rest

/-- Register one mounted file: walk the directory chain, then push the file
name onto its directory's `files`. -/
def registerPath (m : DC) (ds : List String) (f : String) : DC :=
  let m1 := walkDirs m [] ds
  let e := getDirE m1 ds
  setDirE m1 ds (e.1 ++ [f], e.2)

/-- The first loop of `generateLsR` over `mountedFiles`, starting from the
map holding the base directory. -/
def buildDirContents (base : List String) (paths : List (List String)) : DC :=
  paths.foldl
    (fun m p =>
      if base.isPrefixOf p then
        match (p.drop base.length).reverse with
        | [] => m
        | f :: revDs => registerPath m revDs.reverse f
      else m)
    (setDirE ([] : List (List String × DirEntry)) [] ([], []))

/-- One output block of `outputDir`: the `dirPath:` line's directory, its
sorted files and sorted subdirectories. -/
structure LsBlock : Type where
  dir : List String
  files : List String
  subdirs : List String
  deriving DecidableEq, Repr

/-- `outputDir`, returning the blocks it pushes in emission order.  The fuel
is bounded below by the longest registered directory path, which every
recursive call strictly shortens relative to, so it never runs out. -/
def outputDirB (m : DC) : Nat → List String → List LsBlock
  | 0, _ => []
  | fuel + 1, cur =>
    match m.lookup cur with
    | none => []
    | some e =>
      ⟨cur, e.1.insertionSort (· ≤ ·), e.2.insertionSort (· ≤ ·)⟩ ::
        ((e.2.insertionSort (· ≤ ·)).map
          (fun d => outputDirB m fuel (cur ++ [d]))).flatten

/-- `dirPath` as a string: the base followed by `/component` segments. -/
def dirPathString (base : String) (cur : List String) : String :=
  cur.foldl (fun acc c => acc ++ "/" ++ c) base

/-- The lines one block contributes: `dirPath:`, files, subdirs, blank. -/
def renderBlock (base : String) (b : LsBlock) : List String :=
  (dirPathString base b.dir ++ ":") :: (b.files ++ b.subdirs ++ [""])

def texRootComps : List String := ["texlive", "texmf-dist"]

def lsRFuel (paths : List (List String)) : Nat :=
  (paths.map List.length).foldr max 0 + 1

/-- The blocks `generateLsR` emits for the given mounted path set. -/
def lsRBlocks (paths : List (List String)) : List LsBlock :=
  outputDirB (buildDirContents texRootComps paths) (lsRFuel paths) []

/-- `generateLsR` as the list of lines it joins with newlines. -/
def generateLsRLines (paths : List (List String)) : List String :=
  ["% ls-R -- filename database.", "% Created by Siglum VFS", ""]
  ++ ((lsRBlocks paths).map (renderBlock "/texlive/texmf-dist")).flatten

end Siglum

namespace Siglum

theorem getDirE_setDirE_self (m : DC) (k : List String) (e : DirEntry) :
    getDirE (setDirE m k e) k = e := by
  unfold getDirE setDirE
  rw [lookup_updAssoc_self]
  rfl

theorem getDirE_setDirE_ne (m : DC) (k k' : List String) (e : DirEntry)
    (h : k' ≠ k) : getDirE (setDirE m k e) k' = getDirE m k' := by
  unfold getDirE setDirE
  rw [lookup_updAssoc_ne _ _ _ _ h]

theorem hasDirE_setDirE_self (m : DC) (k : List String) (e : DirEntry) :
    hasDirE (setDirE m k e) k = true := by
  unfold hasDirE setDirE
  rw [lookup_updAssoc_self]
  rfl

theorem hasDirE_setDirE_ne (m : DC) (k k' : List String) (e : DirEntry)
    (h : k' ≠ k) : hasDirE (setDirE m k e) k' = hasDirE m k' := by
  unfold hasDirE setDirE
  rw [lookup_updAssoc_ne _ _ _ _ h]

theorem getDirE_of_hasDirE_false (m : DC) (k : List String)
    (h : hasDirE m k = false) : getDirE m k = ([], []) := by
  unfold hasDirE at h
  unfold getDirE
  cases hl : m.lookup k with
  | none => rfl
  | some e => rw [hl] at h; cases h

/-- `walkDirs` never changes the `files` component of any entry. -/
theorem walkDirs_files (parts : List String) :
    ∀ (m : DC) (cur k : List String),
      (getDirE (walkDirs m cur parts) k).1 = (getDirE m k).1 := by
  induction parts with
  | nil => intro m cur k; rfl
  | cons part rest ih =>
    intro m cur k
    unfold walkDirs
    dsimp only
    set parent := getDirE m cur with hparent
    set m1 := setDirE m cur (parent.1,
      if part ∈ parent.2 then parent.2 else parent.2 ++ [part]) with hm1
    have h1 : ∀ k2, (getDirE m1 k2).1 = (getDirE m k2).1 := by
      intro k2
      by_cases hk : k2 = cur
      · subst hk
        rw [hm1, getDirE_setDirE_self]
      · rw [hm1, getDirE_setDirE_ne _ _ _ _ hk]
    by_cases h2 : hasDirE m1 (cur ++ [part]) = true
    · rw [if_pos h2, ih]
      exact h1 k
    · rw [if_neg h2, ih]
      by_cases hk : k = cur ++ [part]
      · subst hk
        rw [getDirE_setDirE_self, ← h1 (cur ++ [part]),
          getDirE_of_hasDirE_false m1 _ (by simpa using h2)]
      · rw [getDirE_setDirE_ne _ _ _ _ hk]
        exact h1 k

/-- `walkDirs` never removes an entry. -/
theorem walkDirs_hasDirE_mono (parts : List String) :
    ∀ (m : DC) (cur k : List String),
      hasDirE m k = true → hasDirE (walkDirs m cur parts) k = true := by
  induction parts with
  | nil => intro m cur k h; exact h
  | cons part rest ih =>
    intro m cur k h
    unfold walkDirs
    dsimp only
    set parent := getDirE m cur with hparent
    set m1 := setDirE m cur (parent.1,
      if part ∈ parent.2 then parent.2 else parent.2 ++ [part]) with hm1
    have h1 : hasDirE m1 k = true := by
      by_cases hk : k = cur
      · subst hk; rw [hm1]; exact hasDirE_setDirE_self _ _ _
      · rw [hm1, hasDirE_setDirE_ne _ _ _ _ hk]; exact h
    by_cases h2 : hasDirE m1 (cur ++ [part]) = true
    · rw [if_pos h2]; exact ih _ _ _ h1
    · rw [if_neg h2]
      refine ih _ _ _ ?_
      by_cases hk : k = cur ++ [part]
      · subst hk; exact hasDirE_setDirE_self _ _ _
      · rw [hasDirE_setDirE_ne _ _ _ _ hk]; exact h1

/-- After the walk, the full chain is present. -/
theorem walkDirs_hasDirE_chain (parts : List String) :
    ∀ (m : DC) (cur : List String),
      hasDirE m cur = true →
      hasDirE (walkDirs m cur parts) (cur ++ parts) = true := by
  induction parts with
  | nil => intro m cur h; simpa using h
  | cons part rest ih =>
    intro m cur h
    unfold walkDirs
    dsimp only
    set parent := getDirE m cur with hparent
    set m1 := setDirE m cur (parent.1,
      if part ∈ parent.2 then parent.2 else parent.2 ++ [part]) with hm1
    have hgoal : cur ++ part :: rest = (cur ++ [part]) ++ rest := by simp
    by_cases h2 : hasDirE m1 (cur ++ [part]) = true
    · rw [if_pos h2, hgoal]
      exact ih m1 (cur ++ [part]) h2
    · rw [if_neg h2, hgoal]
      exact ih _ (cur ++ [part]) (hasDirE_setDirE_self _ _ _)

theorem append_singleton_inj {α : Type} (l l' : List α) (a a' : α) :
    l ++ [a] = l' ++ [a'] ↔ l = l' ∧ a = a' := by
  constructor
  · intro h
    have h2 := congrArg List.reverse h
    simp only [List.reverse_append, List.reverse_cons, List.reverse_nil,
      List.nil_append, List.singleton_append] at h2
    injection h2 with ha hl
    refine ⟨?_, ha⟩
    have h3 := congrArg List.reverse hl
    simpa using h3
  · rintro ⟨rfl, rfl⟩; rfl

/-- `registerPath` appends exactly one file name to exactly one directory. -/
theorem registerPath_files_count (m : DC) (ds : List String) (f : String)
    (k : List String) (g : String) :
    List.count g (getDirE (registerPath m ds f) k).1
      = List.count g (getDirE m k).1 + (if k = ds ∧ g = f then 1 else 0) := by
  unfold registerPath
  dsimp only
  by_cases hk : k = ds
  · subst hk
    rw [getDirE_setDirE_self]
    dsimp only
    rw [List.count_append, walkDirs_files]
    by_cases hg : g = f
    · subst hg; simp
    · simp [hg, List.count_singleton', if_neg hg]
  · rw [getDirE_setDirE_ne _ _ _ _ hk, walkDirs_files]
    simp [hk]

end Siglum

namespace Siglum

/-- Does path `p` mount file `g` into directory `k` (relative to `base`)? -/
def pathPred (base k : List String) (g : String) (p : List String) : Bool :=
  base.isPrefixOf p && (p.drop base.length == k ++ [g])

/-- After the first loop, the `files` list of directory `k` holds file `g`
exactly as often as a mounted path decomposes into `base ++ k ++ [g]`. -/
theorem build_files_count (base : List String) (paths : List (List String))
    (k : List String) (g : String) :
    List.count g (getDirE (buildDirContents base paths) k).1
      = List.countP (pathPred base k g) paths := by
  unfold buildDirContents
  have hgen : ∀ (l : List (List String)) (m : DC),
      List.count g (getDirE (l.foldl
        (fun m p =>
          if base.isPrefixOf p then
            match (p.drop base.length).reverse with
            | [] => m
            | f :: revDs => registerPath m revDs.reverse f
          else m) m) k).1
      = List.count g (getDirE m k).1 + List.countP (pathPred base k g) l := by
    intro l
    induction l with
    | nil => intro m; simp
    | cons p t ih =>
      intro m
      simp only [List.foldl, List.countP_cons]
      by_cases hpre : base.isPrefixOf p
      · rw [if_pos hpre]
        cases hrev : (p.drop base.length).reverse with
        | nil =>
          have hdrop : p.drop base.length = [] := by
            have := congrArg List.reverse hrev
            simpa using this
          have hpred : pathPred base k g p = false := by
            unfold pathPred
            rw [hdrop]
            simp
          rw [ih, hpred]
          simp
        | cons f revDs =>
          have hdrop : p.drop base.length = revDs.reverse ++ [f] := by
            have := congrArg List.reverse hrev
            simpa using this
          have hpred : pathPred base k g p = (if k = revDs.reverse ∧ g = f then true else false) := by
            unfold pathPred
            rw [hdrop]
            by_cases hkg : k = revDs.reverse ∧ g = f
            · rcases hkg with ⟨rfl, rfl⟩
              simp [hpre]
            · rw [if_neg hkg]
              have : ¬(revDs.reverse ++ [f] = k ++ [g]) := by
                rw [append_singleton_inj]
                intro ⟨h1, h2⟩
                exact hkg ⟨h1.symm, h2.symm⟩
              simp [this]
          rw [ih, registerPath_files_count, hpred]
          have htrue : (if (true = true) then 1 else 0) = 1 := rfl
          have hfalse : (if (false = true) then 1 else 0) = 0 := rfl
          by_cases hkg : k = revDs.reverse ∧ g = f
          · rw [if_pos hkg, if_pos hkg, htrue]
            omega
          · rw [if_neg hkg, if_neg hkg, hfalse]
            omega
      · rw [if_neg hpre]
        have hpred : pathPred base k g p = false := by
          unfold pathPred
          simp [hpre]
        rw [ih, hpred]
        simp
  rw [hgen]
  have hinit : (getDirE (setDirE ([] : DC) [] ([], [])) k).1 = [] := by
    by_cases hk : k = []
    · subst hk; rw [getDirE_setDirE_self]
    · rw [getDirE_setDirE_ne _ _ _ _ hk]; rfl
  rw [hinit]
  simp

/-- The structural invariant of `dirContents`: the root is present, every
non-root entry's parent is present and records it as a subdirectory, and
`subdirs` lists hold no duplicates. -/
def KInv (m : DC) : Prop :=
  hasDirE m [] = true
  ∧ (∀ k d, hasDirE m (k ++ [d]) = true →
      hasDirE m k = true ∧ d ∈ (getDirE m k).2)
  ∧ (∀ k, (getDirE m k).2.Nodup)

theorem KInv_walkDirs (parts : List String) :
    ∀ (m : DC) (cur : List String), KInv m → hasDirE m cur = true →
      KInv (walkDirs m cur parts) := by
  induction parts with
  | nil => intro m cur h _; exact h
  | cons part rest ih =>
    intro m cur hK hcur
    unfold walkDirs
    dsimp only
    set parent := getDirE m cur with hparent
    set sub2 := (if part ∈ parent.2 then parent.2 else parent.2 ++ [part]) with hsub2
    set m1 := setDirE m cur (parent.1, sub2) with hm1
    have hsub2nd : sub2.Nodup := by
      rw [hsub2]
      by_cases hp : part ∈ parent.2
      · rw [if_pos hp]; exact hK.2.2 cur
      · rw [if_neg hp]
        have := hK.2.2 cur
        simp [List.nodup_append, this, hp]
    have hsub2mem : part ∈ sub2 := by
      rw [hsub2]
      by_cases hp : part ∈ parent.2
      · rw [if_pos hp]; exact hp
      · rw [if_neg hp]; simp
    have hsub2sup : parent.2 ⊆ sub2 := by
      rw [hsub2]
      by_cases hp : part ∈ parent.2
      · rw [if_pos hp]
        exact List.Subset.refl _
      · rw [if_neg hp]; exact List.subset_append_left _ _
    have hm1has : ∀ k2, hasDirE m1 k2 = hasDirE m k2 := by
      intro k2
      by_cases hk : k2 = cur
      · subst hk
        rw [hm1, hasDirE_setDirE_self, hcur]
      · rw [hm1, hasDirE_setDirE_ne _ _ _ _ hk]
    have hK1 : KInv m1 := by
      refine ⟨by rw [hm1has]; exact hK.1, ?_, ?_⟩
      · intro k d hkd
        rw [hm1has] at hkd
        have := hK.2.1 k d hkd
        refine ⟨by rw [hm1has]; exact this.1, ?_⟩
        by_cases hk : k = cur
        · subst hk
          rw [hm1, getDirE_setDirE_self]
          exact hsub2sup this.2
        · rw [hm1, getDirE_setDirE_ne _ _ _ _ hk]
          exact this.2
      · intro k
        by_cases hk : k = cur
        · subst hk
          rw [hm1, getDirE_setDirE_self]
          exact hsub2nd
        · rw [hm1, getDirE_setDirE_ne _ _ _ _ hk]
          exact hK.2.2 k
    have hm1cursub : part ∈ (getDirE m1 cur).2 := by
      rw [hm1, getDirE_setDirE_self]
      exact hsub2mem
    by_cases h2 : hasDirE m1 (cur ++ [part]) = true
    · rw [if_pos h2]
      exact ih m1 (cur ++ [part]) hK1 h2
    · rw [if_neg h2]
      set m2 := setDirE m1 (cur ++ [part]) ([], []) with hm2
      have hm2cur : hasDirE m2 cur = true := by
        have hne : cur ≠ cur ++ [part] := by simp
        rw [hm2, hasDirE_setDirE_ne _ _ _ _ hne, hm1has]
        exact hcur
      have hK2 : KInv m2 := by
        refine ⟨?_, ?_, ?_⟩
        · have hne : ([] : List String) ≠ cur ++ [part] := by simp
          rw [hm2, hasDirE_setDirE_ne _ _ _ _ hne]
          exact hK1.1
        · intro k d hkd
          by_cases hk : k ++ [d] = cur ++ [part]
          · rw [append_singleton_inj] at hk
            obtain ⟨hk1, hk2⟩ := hk
            have hne : cur ≠ cur ++ [part] := by simp
            refine ⟨by rw [hk1]; exact hm2cur, ?_⟩
            rw [hk1, hk2, hm2, getDirE_setDirE_ne _ _ _ _ hne]
            exact hm1cursub
          · rw [hm2, hasDirE_setDirE_ne _ _ _ _ hk] at hkd
            have h3 := hK1.2.1 k d hkd
            by_cases hk2 : k = cur ++ [part]
            · exfalso
              rw [hk2] at h3
              exact h2 h3.1
            · refine ⟨?_, ?_⟩
              · rw [hm2, hasDirE_setDirE_ne _ _ _ _ hk2]
                exact h3.1
              · rw [hm2, getDirE_setDirE_ne _ _ _ _ hk2]
                exact h3.2
        · intro k
          by_cases hk : k = cur ++ [part]
          · subst hk
            rw [hm2, getDirE_setDirE_self]
            exact List.nodup_nil
          · rw [hm2, getDirE_setDirE_ne _ _ _ _ hk]
            exact hK1.2.2 k
      exact ih m2 (cur ++ [part]) hK2 (by rw [hm2]; exact hasDirE_setDirE_self _ _ _)

end Siglum

namespace Siglum

theorem KInv_registerPath (m : DC) (ds : List String) (f : String)
    (hK : KInv m) : KInv (registerPath m ds f) := by
  unfold registerPath
  dsimp only
  set m1 := walkDirs m [] ds with hm1
  have hK1 : KInv m1 := KInv_walkDirs ds m [] hK hK.1
  have hdsk : hasDirE m1 ds = true := by
    have := walkDirs_hasDirE_chain ds m [] hK.1
    simpa using this
  set e := getDirE m1 ds with he
  have hhas : ∀ k2, hasDirE (setDirE m1 ds (e.1 ++ [f], e.2)) k2 = hasDirE m1 k2 := by
    intro k2
    by_cases hk : k2 = ds
    · subst hk
      rw [hasDirE_setDirE_self, hdsk]
    · rw [hasDirE_setDirE_ne _ _ _ _ hk]
  have hsub : ∀ k2, (getDirE (setDirE m1 ds (e.1 ++ [f], e.2)) k2).2 = (getDirE m1 k2).2 := by
    intro k2
    by_cases hk : k2 = ds
    · subst hk
      rw [getDirE_setDirE_self]
    · rw [getDirE_setDirE_ne _ _ _ _ hk]
  refine ⟨by rw [hhas]; exact hK1.1, ?_, ?_⟩
  · intro k d hkd
    rw [hhas] at hkd
    have h3 := hK1.2.1 k d hkd
    rw [hhas, hsub]
    exact h3
  · intro k
    rw [hsub]
    exact hK1.2.2 k

theorem KInv_build (base : List String) (paths : List (List String)) :
    KInv (buildDirContents base paths) := by
  unfold buildDirContents
  have hK0 : KInv (setDirE ([] : DC) [] ([], [])) := by
    refine ⟨hasDirE_setDirE_self _ _ _, ?_, ?_⟩
    · intro k d hkd
      exfalso
      have hne : k ++ [d] ≠ [] := by simp
      rw [hasDirE_setDirE_ne _ _ _ _ hne] at hkd
      cases hkd
    · intro k
      by_cases hk : k = []
      · subst hk
        rw [getDirE_setDirE_self]
        exact List.nodup_nil
      · rw [getDirE_setDirE_ne _ _ _ _ hk]
        unfold getDirE
        simp [List.lookup]
  have hgen : ∀ (l : List (List String)) (m : DC), KInv m →
      KInv (l.foldl
        (fun m p =>
          if base.isPrefixOf p then
            match (p.drop base.length).reverse with
            | [] => m
            | f :: revDs => registerPath m revDs.reverse f
          else m) m) := by
    intro l
    induction l with
    | nil => intro m h; exact h
    | cons p t ih =>
      intro m h
      simp only [List.foldl]
      refine ih _ ?_
      by_cases hpre : base.isPrefixOf p
      · rw [if_pos hpre]
        cases hrev : (p.drop base.length).reverse with
        | nil => exact h
        | cons f revDs => exact KInv_registerPath m revDs.reverse f h
      · rw [if_neg hpre]
        exact h
  exact hgen paths _ hK0

/-- Every registered directory path is bounded by `n`. -/
def KBound (m : DC) (n : Nat) : Prop :=
  ∀ k, hasDirE m k = true → k.length ≤ n

theorem KBound_walkDirs (parts : List String) :
    ∀ (m : DC) (cur : List String) (n : Nat), KBound m n →
      cur.length + parts.length ≤ n → KBound (walkDirs m cur parts) n := by
  induction parts with
  | nil => intro m cur n h _; exact h
  | cons part rest ih =>
    intro m cur n hB hlen
    unfold walkDirs
    dsimp only
    set parent := getDirE m cur with hparent
    set m1 := setDirE m cur (parent.1,
      if part ∈ parent.2 then parent.2 else parent.2 ++ [part]) with hm1
    have hcurlen : cur.length ≤ n := by
      simp only [List.length_cons] at hlen
      omega
    have hB1 : KBound m1 n := by
      intro k hk
      by_cases hkc : k = cur
      · subst hkc; exact hcurlen
      · rw [hm1, hasDirE_setDirE_ne _ _ _ _ hkc] at hk
        exact hB k hk
    have hlen2 : (cur ++ [part]).length + rest.length ≤ n := by
      simp only [List.length_append, List.length_cons, List.length_nil] at hlen ⊢
      omega
    by_cases h2 : hasDirE m1 (cur ++ [part]) = true
    · rw [if_pos h2]
      exact ih m1 (cur ++ [part]) n hB1 hlen2
    · rw [if_neg h2]
      refine ih _ (cur ++ [part]) n ?_ hlen2
      intro k hk
      by_cases hkc : k = cur ++ [part]
      · subst hkc
        simp only [List.length_append, List.length_cons] at hlen2 ⊢
        simp
        omega
      · rw [hasDirE_setDirE_ne _ _ _ _ hkc] at hk
        exact hB1 k hk

theorem mem_le_foldr_max : ∀ (l : List Nat) (x : Nat), x ∈ l → x ≤ l.foldr max 0 := by
  intro l
  induction l with
  | nil => intro x hx; cases hx
  | cons a t ih =>
    intro x hx
    rcases List.mem_cons.mp hx with rfl | hx
    · exact Nat.le_max_left _ _
    · exact (ih x hx).trans (Nat.le_max_right _ _)

theorem KBound_build (base : List String) (paths : List (List String)) :
    KBound (buildDirContents base paths) ((paths.map List.length).foldr max 0) := by
  unfold buildDirContents
  set n := (paths.map List.length).foldr max 0 with hn
  have hB0 : KBound (setDirE ([] : DC) [] ([], [])) n := by
    intro k hk
    by_cases hkc : k = []
    · subst hkc; simp
    · rw [hasDirE_setDirE_ne _ _ _ _ hkc] at hk
      cases hk
  have hgen : ∀ (l : List (List String)) (m : DC),
      (∀ p ∈ l, p.length ≤ n) → KBound m n →
      KBound (l.foldl
        (fun m p =>
          if base.isPrefixOf p then
            match (p.drop base.length).reverse with
            | [] => m
            | f :: revDs => registerPath m revDs.reverse f
          else m) m) n := by
    intro l
    induction l with
    | nil => intro m _ h; exact h
    | cons p t ih =>
      intro m hlen h
      simp only [List.foldl]
      refine ih _ (fun q hq => hlen q (List.mem_cons_of_mem p hq)) ?_
      by_cases hpre : base.isPrefixOf p
      · rw [if_pos hpre]
        cases hrev : (p.drop base.length).reverse with
        | nil => exact h
        | cons f revDs =>
          -- the directory chain is strictly shorter than the path
          have hplen : p.length ≤ n := hlen p (List.mem_cons_self p t)
          have hdslen : revDs.reverse.length + 1 ≤ p.length := by
            have h1 : (p.drop base.length).length = revDs.length + 1 := by
              have := congrArg List.length hrev
              simpa using this
            have h2 : (p.drop base.length).length ≤ p.length := by
              simp
            simp only [List.length_reverse]
            omega
          unfold registerPath
          dsimp only
          set m1 := walkDirs m [] revDs.reverse with hm1
          have hB1 : KBound m1 n := by
            refine KBound_walkDirs revDs.reverse m [] n h ?_
            simp only [List.length_nil, Nat.zero_add]
            omega
          intro k hk
          by_cases hkc : k = revDs.reverse
          · subst hkc
            omega
          · rw [hasDirE_setDirE_ne _ _ _ _ hkc] at hk
            exact hB1 k hk
      · rw [if_neg hpre]
        exact h
  refine hgen paths _ ?_ hB0
  intro p hp
  exact mem_le_foldr_max _ _ (List.mem_map.mpr ⟨p, hp, rfl⟩)

end Siglum

namespace Siglum

theorem outputDirB_zero (m : DC) (cur : List String) : outputDirB m 0 cur = [] := rfl

theorem outputDirB_succ (m : DC) (fuel : Nat) (cur : List String) (e : DirEntry)
    (he : m.lookup cur = some e) :
    outputDirB m (fuel + 1) cur
      = ⟨cur, e.1.insertionSort (· ≤ ·), e.2.insertionSort (· ≤ ·)⟩ ::
        ((e.2.insertionSort (· ≤ ·)).map
          (fun d => outputDirB m fuel (cur ++ [d]))).flatten := by
  conv_lhs => rw [outputDirB]
  rw [he]

theorem outputDirB_not_has (m : DC) (fuel : Nat) (cur : List String)
    (h : hasDirE m cur = false) : outputDirB m fuel cur = [] := by
  cases fuel with
  | zero => rfl
  | succ f =>
    unfold hasDirE at h
    unfold outputDirB
    cases hl : m.lookup cur with
    | none => rfl
    | some e => rw [hl] at h; cases h

theorem prefix_eq_of_length_eq {α : Type} {l1 l2 k : List α}
    (h1 : l1 <+: k) (h2 : l2 <+: k) (hlen : l1.length = l2.length) : l1 = l2 := by
  rcases h1 with ⟨t1, rfl⟩
  rcases h2 with ⟨t2, ht⟩
  have := congrArg (List.take l1.length) ht
  rw [List.take_left] at this
  rw [hlen] at this
  rw [List.take_left] at this
  exact this.symm

theorem sum_map_zero {α : Type} (l : List α) (f : α → Nat)
    (h : ∀ x ∈ l, f x = 0) : (l.map f).sum = 0 := by
  induction l with
  | nil => rfl
  | cons a t ih =>
    simp only [List.map_cons, List.sum_cons, h a (List.mem_cons_self a t),
      ih (fun x hx => h x (List.mem_cons_of_mem a hx))]

theorem sum_map_single {α : Type} [DecidableEq α] (l : List α) (f : α → Nat)
    (d : α) (hnd : l.Nodup) (hd : d ∈ l) (h1 : f d = 1)
    (h0 : ∀ x ∈ l, x ≠ d → f x = 0) : (l.map f).sum = 1 := by
  induction l with
  | nil => cases hd
  | cons a t ih =>
    simp only [List.map_cons, List.sum_cons]
    rcases List.mem_cons.mp hd with hda | hdt
    · have hnotint : ∀ x ∈ t, f x = 0 := by
        intro x hx
        refine h0 x (List.mem_cons_of_mem a hx) ?_
        intro hEq
        rw [hEq, hda] at hx
        exact (List.nodup_cons.mp hnd).1 hx
      rw [← hda, h1, sum_map_zero t f hnotint]
    · have haf : f a = 0 := by
        refine h0 a (List.mem_cons_self a t) ?_
        intro hEq
        rw [← hEq] at hdt
        exact (List.nodup_cons.mp hnd).1 hdt
      rw [haf, ih (List.nodup_cons.mp hnd).2 hdt
        (fun x hx hxd => h0 x (List.mem_cons_of_mem a hx) hxd)]

/-- Correctness of the emission walk: every block it pushes describes a
registered directory below the start, and every registered directory below
the start gets exactly one block. -/
theorem outputDirB_spec (m : DC) (N : Nat)
    (hb : KBound m N)
    (hpar : ∀ k d, hasDirE m (k ++ [d]) = true →
      hasDirE m k = true ∧ d ∈ (getDirE m k).2)
    (hnd : ∀ k, (getDirE m k).2.Nodup) :
    ∀ (fuel : Nat) (cur : List String), hasDirE m cur = true →
      N + 1 ≤ cur.length + fuel →
      (∀ b ∈ outputDirB m fuel cur,
        cur <+: b.dir ∧ hasDirE m b.dir = true
        ∧ b.files = (getDirE m b.dir).1.insertionSort (· ≤ ·)
        ∧ b.subdirs = (getDirE m b.dir).2.insertionSort (· ≤ ·))
      ∧ (∀ k, hasDirE m k = true → cur <+: k →
          List.countP (fun b => b.dir == k) (outputDirB m fuel cur) = 1) := by
  intro fuel
  induction fuel with
  | zero =>
    intro cur hcur hN
    exfalso
    have := hb cur hcur
    omega
  | succ f ih =>
    intro cur hcur hN
    obtain ⟨e, he⟩ : ∃ e, m.lookup cur = some e := by
      unfold hasDirE at hcur
      cases hl : m.lookup cur with
      | none => rw [hl] at hcur; cases hcur
      | some e => exact ⟨e, rfl⟩
    have hgetcur : getDirE m cur = e := by
      unfold getDirE
      rw [he]
      rfl
    rw [outputDirB_succ m f cur e he]
    have hsubnd : (e.2.insertionSort (· ≤ ·)).Nodup := by
      have hperm := List.perm_insertionSort (α := String) (· ≤ ·) e.2
      have := hnd cur
      rw [hgetcur] at this
      exact hperm.nodup_iff.mpr this
    have hsubmem : ∀ d, d ∈ e.2.insertionSort (· ≤ ·) ↔ d ∈ e.2 := by
      intro d
      exact (List.perm_insertionSort (· ≤ ·) e.2).mem_iff
    -- part one: description of every block
    have hdescr : ∀ b ∈ (⟨cur, e.1.insertionSort (· ≤ ·), e.2.insertionSort (· ≤ ·)⟩ ::
        ((e.2.insertionSort (· ≤ ·)).map
          (fun d => outputDirB m f (cur ++ [d]))).flatten : List LsBlock),
        cur <+: b.dir ∧ hasDirE m b.dir = true
        ∧ b.files = (getDirE m b.dir).1.insertionSort (· ≤ ·)
        ∧ b.subdirs = (getDirE m b.dir).2.insertionSort (· ≤ ·) := by
      intro b hb2
      rcases List.mem_cons.mp hb2 with rfl | hb3
      · refine ⟨List.prefix_refl cur, hcur, ?_, ?_⟩
        · dsimp only
          rw [hgetcur]
        · dsimp only
          rw [hgetcur]
      · obtain ⟨lb, hlb, hbin⟩ := List.mem_flatten.mp hb3
        obtain ⟨d, hd, rfl⟩ := List.mem_map.mp hlb
        by_cases hcd : hasDirE m (cur ++ [d]) = true
        · have hfuel2 : N + 1 ≤ (cur ++ [d]).length + f := by
            simp only [List.length_append, List.length_cons, List.length_nil]
            omega
          have hsub := (ih (cur ++ [d]) hcd hfuel2).1 b hbin
          exact ⟨(List.prefix_append cur [d]).trans hsub.1, hsub.2.1, hsub.2.2⟩
        · rw [outputDirB_not_has m f (cur ++ [d]) (by simpa using hcd)] at hbin
          cases hbin
    refine ⟨hdescr, ?_⟩
    -- part two: each registered directory below `cur` gets exactly one block
    intro k hk hpre
    rw [List.countP_cons]
    rcases hpre with ⟨t, rfl⟩
    cases t with
    | nil =>
      -- k = cur: the head block matches, no subtree block can
      have hzero : List.countP (fun b => b.dir == cur ++ [])
          (((e.2.insertionSort (· ≤ ·)).map
            (fun d => outputDirB m f (cur ++ [d]))).flatten) = 0 := by
        rw [List.countP_eq_zero]
        intro b hb3
        obtain ⟨lb, hlb, hbin⟩ := List.mem_flatten.mp hb3
        obtain ⟨d, hd, rfl⟩ := List.mem_map.mp hlb
        by_cases hcd : hasDirE m (cur ++ [d]) = true
        · have hfuel2 : N + 1 ≤ (cur ++ [d]).length + f := by
            simp only [List.length_append, List.length_cons, List.length_nil]
            omega
          have hsub := (ih (cur ++ [d]) hcd hfuel2).1 b hbin
          have hlen : (cur ++ [d]).length ≤ b.dir.length := hsub.1.length_le
          simp only [List.length_append, List.length_cons, List.length_nil] at hlen
          simp only [beq_iff_eq, List.append_nil]
          intro hEq
          rw [hEq] at hlen
          omega
        · rw [outputDirB_not_has m f (cur ++ [d]) (by simpa using hcd)] at hbin
          cases hbin
      rw [hzero]
      simp
    | cons d t2 =>
      -- k = cur ++ d :: t2 sits in exactly the subtree of child d
      have hrootne : cur ≠ cur ++ d :: t2 := by
        intro hEq
        have := congrArg List.length hEq
        simp at this
      have hchildkey : hasDirE m (cur ++ [d]) = true := by
        -- prefix closure along the parent invariant
        have hchain : ∀ (s : List String), hasDirE m (cur ++ [d] ++ s) = true →
            hasDirE m (cur ++ [d]) = true := by
          intro s
          induction s using List.reverseRecOn with
          | nil => intro h; simpa using h
          | append_singleton s x ihs =>
            intro h
            have h2 : hasDirE m ((cur ++ [d] ++ s) ++ [x]) = true := by
              simpa [List.append_assoc] using h
            exact ihs (hpar _ _ h2).1
        have : cur ++ d :: t2 = cur ++ [d] ++ t2 := by simp
        rw [this] at hk
        exact hchain t2 hk
      have hdmem : d ∈ e.2.insertionSort (· ≤ ·) := by
        rw [hsubmem]
        have := (hpar cur d hchildkey).2
        rw [hgetcur] at this
        exact this
      have hcnt : List.countP (fun b => b.dir == cur ++ d :: t2)
          (((e.2.insertionSort (· ≤ ·)).map
            (fun d => outputDirB m f (cur ++ [d]))).flatten) = 1 := by
        rw [List.countP_flatten, List.map_map]
        refine sum_map_single _ _ d hsubnd hdmem ?_ ?_
        · have hfuel2 : N + 1 ≤ (cur ++ [d]).length + f := by
            simp only [List.length_append, List.length_cons, List.length_nil]
            omega
          have hpre2 : (cur ++ [d]) <+: (cur ++ d :: t2) := ⟨t2, by simp⟩
          exact (ih (cur ++ [d]) hchildkey hfuel2).2 (cur ++ d :: t2) hk hpre2
        · intro d2 hd2 hd2ne
          simp only [Function.comp]
          by_cases hcd2 : hasDirE m (cur ++ [d2]) = true
          · have hfuel2 : N + 1 ≤ (cur ++ [d2]).length + f := by
              simp only [List.length_append, List.length_cons, List.length_nil]
              omega
            rw [List.countP_eq_zero]
            intro b hbin
            have hsub := (ih (cur ++ [d2]) hcd2 hfuel2).1 b hbin
            simp only [beq_iff_eq]
            intro hEq
            have hpre1 : (cur ++ [d2]) <+: b.dir := hsub.1
            rw [hEq] at hpre1
            have hpre2 : (cur ++ [d]) <+: (cur ++ d :: t2) := ⟨t2, by simp⟩
            have heq2 : cur ++ [d2] = cur ++ [d] := by
              refine prefix_eq_of_length_eq hpre1 hpre2 ?_
              simp
            have := List.append_cancel_left heq2
            cases this
            exact hd2ne rfl
          · rw [outputDirB_not_has m f (cur ++ [d2]) (by simpa using hcd2)]
            rfl
      rw [hcnt]
      simp [hrootne]

end Siglum

namespace Siglum

theorem registerPath_hasDirE (m : DC) (ds : List String) (f : String) (k : List String)
    (h : hasDirE m k = true) : hasDirE (registerPath m ds f) k = true := by
  unfold registerPath
  dsimp only
  by_cases hk : k = ds
  · subst hk
    exact hasDirE_setDirE_self _ _ _
  · rw [hasDirE_setDirE_ne _ _ _ _ hk]
    exact walkDirs_hasDirE_mono ds m [] k h

theorem registerPath_hasDirE_self (m : DC) (ds : List String) (f : String)
    (hroot : hasDirE m [] = true) : hasDirE (registerPath m ds f) ds = true := by
  unfold registerPath
  dsimp only
  exact hasDirE_setDirE_self _ _ _

theorem buildStep_hasDirE_mono (base : List String) (m : DC) (p : List String)
    (k : List String) (h : hasDirE m k = true) :
    hasDirE ((fun m p =>
      if base.isPrefixOf p then
        match (p.drop base.length).reverse with
        | [] => m
        | f :: revDs => registerPath m revDs.reverse f
      else m) m p) k = true := by
  dsimp only
  by_cases hpre : base.isPrefixOf p
  · rw [if_pos hpre]
    cases hrev : (p.drop base.length).reverse with
    | nil => exact h
    | cons f revDs => exact registerPath_hasDirE m revDs.reverse f k h
  · rw [if_neg hpre]
    exact h

theorem buildFold_hasDirE_mono (base : List String) (l : List (List String)) :
    ∀ (m : DC) (k : List String), hasDirE m k = true →
      hasDirE (l.foldl
        (fun m p =>
          if base.isPrefixOf p then
            match (p.drop base.length).reverse with
            | [] => m
            | f :: revDs => registerPath m revDs.reverse f
          else m) m) k = true := by
  induction l with
  | nil => intro m k h; exact h
  | cons q t ih =>
    intro m k h
    simp only [List.foldl]
    exact ih _ k (buildStep_hasDirE_mono base m q k h)

theorem isPrefixOf_decompose {base p : List String}
    (h : base.isPrefixOf p = true) : base ++ p.drop base.length = p := by
  rw [List.isPrefixOf_iff_prefix] at h
  rcases h with ⟨t, rfl⟩
  rw [List.drop_left]

theorem build_hasDirE_of_mem (base : List String) (paths : List (List String))
    (p ds : List String) (f : String) (hp : p ∈ paths)
    (hpre : base.isPrefixOf p = true)
    (hdec : p.drop base.length = ds ++ [f]) :
    hasDirE (buildDirContents base paths) ds = true := by
  unfold buildDirContents
  have hroot0 : hasDirE (setDirE ([] : DC) [] ([], [])) [] = true :=
    hasDirE_setDirE_self _ _ _
  -- the fold keeps the root present, and processing p registers ds
  have hgen : ∀ (l : List (List String)) (m : DC), hasDirE m [] = true → p ∈ l →
      hasDirE (l.foldl
        (fun m p =>
          if base.isPrefixOf p then
            match (p.drop base.length).reverse with
            | [] => m
            | f :: revDs => registerPath m revDs.reverse f
          else m) m) ds = true := by
    intro l
    induction l with
    | nil => intro m _ hmem; cases hmem
    | cons q t ih =>
      intro m hroot hmem
      simp only [List.foldl]
      rcases List.mem_cons.mp hmem with rfl | hmem2
      · -- processing p itself registers ds; the rest of the fold keeps it
        refine buildFold_hasDirE_mono base t _ ds ?_
        dsimp only
        rw [if_pos hpre]
        have hrev : (p.drop base.length).reverse = f :: ds.reverse := by
          rw [hdec]
          simp
        rw [hrev]
        show hasDirE (registerPath m ds.reverse.reverse f) ds = true
        rw [List.reverse_reverse]
        exact registerPath_hasDirE_self m ds f hroot
      · exact ih _ (buildStep_hasDirE_mono base m q [] hroot) hmem2
  exact hgen paths _ hroot0 hp

theorem countP_beq_eq_one {α : Type} [BEq α] [LawfulBEq α] (l : List α) (p : α)
    (h : l.Nodup) (hp : p ∈ l) : List.countP (fun q => q == p) l = 1 := by
  induction l with
  | nil => cases hp
  | cons a t ih =>
    rw [List.countP_cons]
    rcases List.mem_cons.mp hp with hpa | hpt
    · have hpred : (a == p) = true := by simpa using hpa.symm
      rw [hpred]
      have hzero : List.countP (fun q => q == p) t = 0 := by
        rw [List.countP_eq_zero]
        intro q hq
        simp only [beq_iff_eq]
        intro hEq
        rw [hEq, hpa] at hq
        exact (List.nodup_cons.mp h).1 hq
      rw [hzero]
      rfl
    · have hpred : (a == p) = false := by
        refine beq_eq_false_iff_ne.mpr ?_
        intro hEq
        rw [hEq] at h
        exact (List.nodup_cons.mp h).1 hpt
      rw [hpred, ih (List.nodup_cons.mp h).2 hpt]
      rfl

/-- C8: the generated `ls-R` starts with the kpathsea header line, lists
every mounted file under the TeX root exactly once (one block per directory,
the file name once in that block's files), sorts files and subdirectories
within each directory block, and consists of directory blocks each ending
in a blank separator line. -/
theorem lsR_header_complete_once_sorted (paths : List (List String))
    (hnodup : paths.Nodup) :
    (generateLsRLines paths).head? = some "% ls-R -- filename database."
    ∧ (∀ p ∈ paths, ∀ ds f, texRootComps.isPrefixOf p = true →
        p.drop texRootComps.length = ds ++ [f] →
        List.countP (fun b => b.dir == ds) (lsRBlocks paths) = 1
        ∧ ∀ b ∈ lsRBlocks paths, b.dir = ds → List.count f b.files = 1)
    ∧ (∀ b ∈ lsRBlocks paths, b.files.Sorted (· ≤ ·) ∧ b.subdirs.Sorted (· ≤ ·))
    ∧ generateLsRLines paths
        = ["% ls-R -- filename database.", "% Created by Siglum VFS", ""]
          ++ ((lsRBlocks paths).map (renderBlock "/texlive/texmf-dist")).flatten
    ∧ (∀ b ∈ lsRBlocks paths,
        (renderBlock "/texlive/texmf-dist" b).head?
          = some (dirPathString "/texlive/texmf-dist" b.dir ++ ":")
        ∧ (renderBlock "/texlive/texmf-dist" b).getLast? = some "") := by
  set m := buildDirContents texRootComps paths with hm
  set N := (paths.map List.length).foldr max 0 with hN
  have hK := KInv_build texRootComps paths
  have hB := KBound_build texRootComps paths
  have hfuel : lsRFuel paths = N + 1 := rfl
  have hspec := outputDirB_spec m N hB hK.2.1 hK.2.2 (N + 1) [] hK.1 (by omega)
  have hblocks : lsRBlocks paths = outputDirB m (N + 1) [] := by
    unfold lsRBlocks
    rw [hfuel]
  refine ⟨rfl, ?_, ?_, rfl, ?_⟩
  · intro p hp ds f hpre hdec
    have hdsk : hasDirE m ds = true :=
      build_hasDirE_of_mem texRootComps paths p ds f hp hpre hdec
    have hcnt_files : List.count f (getDirE m ds).1 = 1 := by
      rw [hm, build_files_count]
      have hpeq : p = texRootComps ++ (ds ++ [f]) := by
        rw [← hdec]
        exact (isPrefixOf_decompose hpre).symm
      have hcongr : List.countP (pathPred texRootComps ds f) paths
          = List.countP (fun q => q == p) paths := by
        refine List.countP_congr ?_
        intro q _
        unfold pathPred
        by_cases hq : q = p
        · subst hq
          simp [hpre, hdec]
        · have hrhs : (q == p) = false := by simpa using hq
          rw [hrhs]
          cases h1 : texRootComps.isPrefixOf q with
          | false => rfl
          | true =>
            have h2 : (q.drop texRootComps.length == ds ++ [f]) = false := by
              refine beq_eq_false_iff_ne.mpr ?_
              intro h2
              apply hq
              rw [hpeq, ← h2]
              exact (isPrefixOf_decompose h1).symm
            rw [h2]
            rfl
      rw [hcongr]
      exact countP_beq_eq_one paths p hnodup hp
    constructor
    · rw [hblocks]
      exact hspec.2 ds hdsk List.nil_prefix
    · intro b hbmem hbdir
      rw [hblocks] at hbmem
      have hd := hspec.1 b hbmem
      rw [hd.2.2.1, hbdir]
      have hperm := List.perm_insertionSort (α := String) (· ≤ ·) (getDirE m ds).1
      rw [hperm.count_eq]
      exact hcnt_files
  · intro b hbmem
    rw [hblocks] at hbmem
    have hd := hspec.1 b hbmem
    rw [hd.2.2.1, hd.2.2.2]
    exact ⟨List.sorted_insertionSort _ _, List.sorted_insertionSort _ _⟩
  · intro b hbmem
    refine ⟨rfl, ?_⟩
    have hshape : renderBlock "/texlive/texmf-dist" b
        = ((dirPathString "/texlive/texmf-dist" b.dir ++ ":")
            :: (b.files ++ b.subdirs)) ++ [""] := by
      unfold renderBlock
      simp
    rw [hshape, List.getLast?_concat]

end Siglum

namespace Siglum

theorem lsR_header_complete_once_sorted_witness :
    ([["texlive", "texmf-dist", "tex", "a.sty"],
      ["texlive", "texmf-dist", "tex", "b.sty"]] : List (List String)).Nodup
    ∧ (generateLsRLines [["texlive", "texmf-dist", "tex", "a.sty"],
        ["texlive", "texmf-dist", "tex", "b.sty"]]).head?
        = some "% ls-R -- filename database." :=
  ⟨by decide,
    (lsR_header_complete_once_sorted
      [["texlive", "texmf-dist", "tex", "a.sty"],
       ["texlive", "texmf-dist", "tex", "b.sty"]] (by decide)).1⟩

end Siglum

namespace Siglum

/-! ## Claim C9: `finalize()` idempotence

`finalize()` = `processFontMaps()`, then `rewritePdftexMapPaths()`, then
`generateLsR()`.  Both rewriting functions scan lines with the same regex
`/<<?([a-zA-Z0-9_-]+\.(pfb|enc))/g` and replace each resolvable reference
(`String.replace`, i.e. first occurrence of the matched text) by
`prefix + absolutePath`; they differ only in how a file name resolves to a
path, so the scan/replace core is shared below and parameterised by the
resolver.  File contents are modelled at the text level (`List Char`);
the `TextDecoder`/`TextEncoder` round trip is identity on them. -/

/-- The character class `[a-zA-Z0-9_-]` of the font-reference regex. -/
def fontRefChar (c : Char) : Bool := c.isAlphanum || c = '_' || c = '-'

/-- One regex match: the full matched text, the captured
`filename.(pfb|enc)`, the extension, and the text after the match. -/
structure FontRef : Type where
  full : List Char
  filename : List Char
  ext : List Char
  rest : List Char
  deriving DecidableEq, Repr

/-- Match `([a-zA-Z0-9_-]+\.(pfb|enc))` right after a consumed `pre`
(`<` or `<<`).  The name run is maximal and cannot be shrunk to expose
another `.`, so the regex is deterministic here. -/
def headFontRefAux (pre t2 : List Char) : Option FontRef :=
  let name := t2.takeWhile fontRefChar
  if name.isEmpty then none
  else
    match t2.drop name.length with
    | '.' :: e1 :: e2 :: e3 :: rest =>
      if [e1, e2, e3] = ['p', 'f', 'b'] ∨ [e1, e2, e3] = ['e', 'n', 'c'] then
        some ⟨pre ++ name ++ '.' :: [e1, e2, e3], name ++ '.' :: [e1, e2, e3],
          [e1, e2, e3], rest⟩
      else none
    | _ => none

/-- Match `<<?([a-zA-Z0-9_-]+\.(pfb|enc))` at the head of the text.  After
`<<`, the single-`<` backtracking alternative would need `<` to be a name
character, so it never succeeds and is omitted. -/
def headFontRef : List Char → Option FontRef
  | '<' :: '<' :: t2 => headFontRefAux ['<', '<'] t2
  | '<' :: t => headFontRefAux ['<'] t
  | _ => none

/-- All matches of the global regex over a line, resuming after each match
(`lastIndex`) and advancing one position on failure.  Fuel is the input
length, which every step strictly decreases. -/
def allFontRefsF : Nat → List Char → List (List Char × List Char × List Char)
  | 0, _ => []
  | _ + 1, [] => []
  | fuel + 1, c :: t =>
    match headFontRef (c :: t) with
    | some r => (r.full, r.filename, r.ext) :: allFontRefsF fuel r.rest
    | none => allFontRefsF fuel t

def allFontRefs (cs : List Char) : List (List Char × List Char × List Char) :=
  allFontRefsF cs.length cs

/-- JavaScript `String.replace` with a plain-string pattern: replace the
first occurrence (replacement-pattern escapes do not occur in our inputs). -/
def replaceFirst (s pat rep : List Char) : List Char :=
  match s with
  | [] => []
  | c :: t =>
    if pat.isPrefixOf s then rep ++ s.drop pat.length
    else c :: replaceFirst t pat rep

/-- `line.trim().startsWith('%') || line.trim() === ''`. -/
def lineIsSkippable (line : List Char) : Bool :=
  (jsTrimList line).head? = some '%' || (jsTrimList line).isEmpty

/-- The loop body shared by `_rewriteMapPaths` / `rewritePdftexMapPaths`:
for a match `r` (full text, captured filename, extension) whose filename
resolves, replace the first occurrence of the matched text by the original
`<`/`<<` prefix followed by the resolved absolute path and count it. -/
def rewriteStep (resolve : List Char → List Char → Option (List Char))
    (acc : List Char × Nat) (r : List Char × List Char × List Char) :
    List Char × Nat :=
  match resolve r.2.1 r.2.2 with
  | some path =>
    (replaceFirst acc.1 r.1
      ((if ['<', '<'].isPrefixOf r.1 then ['<', '<'] else ['<']) ++ path),
      acc.2 + 1)
  | none => acc

/-- The shared per-line loop of `_rewriteMapPaths` / `rewritePdftexMapPaths`:
scan the original line and fold the replacement step over the matches.
Also returns the number of replacements (`modifiedCount` counts them in
`rewritePdftexMapPaths`). -/
def rewriteFontRefsLine (resolve : List Char → List Char → Option (List Char))
    (line : List Char) : List Char × Nat :=
  if lineIsSkippable line then (line, 0)
  else (allFontRefs line).foldl (rewriteStep resolve) (line, 0)

def splitOnChar (sep : Char) : List Char → List (List Char)
  | [] => [[]]
  | c :: t =>
    if c = sep then [] :: splitOnChar sep t
    else
      match splitOnChar sep t with
      | [] => [[c]]
      | g :: gs => (c :: g) :: gs

def joinChar (sep : Char) : List (List Char) → List Char
  | [] => []
  | [l] => l
  | l :: ls => l ++ sep :: joinChar sep ls

/-- Whole-content rewrite: split on newlines, rewrite each line, rejoin,
summing the replacement count. -/
def rewriteContent (resolve : List Char → List Char → Option (List Char))
    (content : List Char) : List Char × Nat :=
  let results := (splitOnChar '\n' content).map (rewriteFontRefsLine resolve)
  (joinChar '\n' (results.map Prod.fst), (results.map Prod.snd).sum)

/-- `mapFilePath.substring(0, mapFilePath.lastIndexOf('/'))`. -/
def upToLastSlash (cs : List Char) : List Char :=
  joinChar '/' ((splitOnChar '/' cs).dropLast)

/-- The capture of `/\/([^\/]+)\/[^\/]+\.map$/`: the directory component
before a final `pkg/name.map` pair, empty when the path has no such shape. -/
def packageNameOf (cs : List Char) : List Char :=
  match (splitOnChar '/' cs).reverse with
  | fname :: pkg :: _ :: _ =>
    if (".map".data.isSuffixOf fname) && decide (5 ≤ fname.length) && !pkg.isEmpty
    then pkg else []
  | _ => []

/-- The per-extension search directories of `_rewriteMapPaths`. -/
def searchDirs (mapPath : List Char) (ext : List Char) : List (List Char) :=
  let mapDir := upToLastSlash mapPath
  let pkg := packageNameOf mapPath
  if ext = "pfb".data then
    ["/texlive/texmf-dist/fonts/type1/public/".data ++ pkg,
     "/texlive/texmf-dist/fonts/type1/public/cm-super".data,
     mapDir]
  else
    ["/texlive/texmf-dist/fonts/enc/dvips/".data ++ pkg,
     "/texlive/texmf-dist/fonts/enc/dvips/cm-super".data,
     "/texlive/texmf-dist/fonts/type1/public/".data ++ pkg,
     mapDir]

/-- The finalize-relevant state of one VFS: file texts, the queued font
maps, the font-file index and the mounted path set (as in `generateLsR`). -/
structure FinState : Type where
  fs : List (String × List Char)
  pendingFontMaps : List String
  fontFileLocations : List (String × String)
  mountedFiles : List (List String)
  deriving DecidableEq, Repr

def PDFTEX_MAP_PATH : String :=
  "/texlive/texmf-dist/texmf-var/fonts/map/pdftex/updmap/pdftex.map"

def LS_R_PATH : String := "/texlive/texmf-dist/ls-R"

/-- The resolver of `_rewriteMapPaths`: the first search directory whose
`dir/filename` exists in the filesystem (`FS.analyzePath(...).exists`). -/
def resolveSearch (fs : List (String × List Char)) (mapPath : List Char)
    (fn ext : List Char) : Option (List Char) :=
  (searchDirs mapPath ext).findSome?
    (fun d =>
      let candidate := d ++ '/' :: fn
      if (fs.lookup (String.mk candidate)).isSome then some candidate else none)

/-- The resolver of `rewritePdftexMapPaths`: `fontFileLocations.get`. -/
def resolveFontLoc (ffl : List (String × String)) (fn _ext : List Char) :
    Option (List Char) :=
  (ffl.lookup (String.mk fn)).map String.data

/-- One iteration of the `processFontMaps` loop: read the queued map file
(a read failure skips it), rewrite its font references against the search
directories, and append it to the accumulated `pdftex.map` text. -/
def procMapStep (fs : List (String × List Char)) (acc : List Char × Nat)
    (mapPath : String) : List Char × Nat :=
  match fs.lookup mapPath with
  | none => acc
  | some mapContent =>
    let rewritten := (rewriteContent (resolveSearch fs mapPath.data) mapContent).1
    (acc.1 ++ '\n' :: ("% Added from ".data ++ mapPath.data
       ++ '\n' :: (rewritten ++ ['\n'])), acc.2 + 1)

/-- `VirtualFileSystem.processFontMaps`. -/
def processFontMaps (st : FinState) : FinState :=
  if st.pendingFontMaps.isEmpty then st
  else
    let existingMap :=
      match st.fs.lookup PDFTEX_MAP_PATH with
      | some c => c
      | none => []
    let result := st.pendingFontMaps.foldl (procMapStep st.fs) (existingMap, 0)
    let st1 :=
      if 0 < result.2 then { st with fs := updAssoc st.fs PDFTEX_MAP_PATH result.1 }
      else st
    { st1 with pendingFontMaps := [] }

/-- `VirtualFileSystem.rewritePdftexMapPaths`. -/
def rewritePdftexMapPaths (st : FinState) : FinState :=
  if st.fontFileLocations.isEmpty then st
  else
    match st.fs.lookup PDFTEX_MAP_PATH with
    | none => st
    | some content =>
      let result := rewriteContent (resolveFontLoc st.fontFileLocations) content
      if 0 < result.2 then
        { st with fs := updAssoc st.fs PDFTEX_MAP_PATH result.1 }
      else st

/-- `generateLsR` as a state operation: write the index derived from the
mounted path set. -/
def generateLsRState (st : FinState) : FinState :=
  let lsr := joinChar '\n' ((generateLsRLines st.mountedFiles).map String.data)
  { st with fs := updAssoc st.fs LS_R_PATH lsr }

/-- `VirtualFileSystem.finalize`. -/
def finalize (st : FinState) : FinState :=
  generateLsRState (rewritePdftexMapPaths (processFontMaps st))

end Siglum

namespace Siglum

theorem headFontRefAux_rest_lt (pre t2 : List Char) (r : FontRef)
    (h : headFontRefAux pre t2 = some r) : r.rest.length + 5 ≤ t2.length := by
  unfold headFontRefAux at h
  dsimp only at h
  by_cases he : (t2.takeWhile fontRefChar).isEmpty
  · simp [he] at h
  · simp only [he, Bool.false_eq_true, if_false] at h
    split at h
    · next e1 e2 e3 restv heq =>
      split at h
      · cases h
        show restv.length + 5 ≤ t2.length
        have hlen := congrArg List.length heq
        simp only [List.length_drop, List.length_cons] at hlen
        have h1 : (t2.takeWhile fontRefChar).length ≤ t2.length :=
          (List.takeWhile_prefix _).length_le
        have h2 : t2.takeWhile fontRefChar ≠ [] := by
          intro hnil; rw [hnil] at he; exact he rfl
        have h3 : 0 < (t2.takeWhile fontRefChar).length :=
          List.length_pos.mpr h2
        omega
      · cases h
    · cases h

theorem headFontRef_rest_lt (cs : List Char) (r : FontRef)
    (h : headFontRef cs = some r) : r.rest.length < cs.length := by
  unfold headFontRef at h
  split at h
  · next t2 =>
    have := headFontRefAux_rest_lt _ _ _ h
    simp only [List.length_cons]
    omega
  · next t _ =>
    have := headFontRefAux_rest_lt _ _ _ h
    simp only [List.length_cons]
    omega
  · cases h

theorem allFontRefsF_congr : ∀ (f1 : Nat), ∀ (f2 : Nat) (cs : List Char),
    cs.length ≤ f1 → cs.length ≤ f2 → allFontRefsF f1 cs = allFontRefsF f2 cs := by
  intro f1
  induction f1 with
  | zero =>
    intro f2 cs h1 _
    have : cs = [] := List.length_eq_zero.mp (Nat.le_zero.mp h1)
    subst this
    cases f2 <;> rfl
  | succ f1' ih =>
    intro f2 cs h1 h2
    cases cs with
    | nil => cases f2 <;> rfl
    | cons c t =>
      cases f2 with
      | zero => simp at h2
      | succ f2' =>
        simp only [allFontRefsF]
        cases hh : headFontRef (c :: t) with
        | none =>
          dsimp only
          simp only [List.length_cons] at h1 h2
          exact ih f2' t (by omega) (by omega)
        | some r =>
          dsimp only
          have hlt := headFontRef_rest_lt _ _ hh
          simp only [List.length_cons] at h1 h2 hlt
          rw [ih f2' r.rest (by omega) (by omega)]

theorem allFontRefs_nil : allFontRefs [] = [] := rfl

theorem allFontRefs_cons_none (c : Char) (t : List Char)
    (h : headFontRef (c :: t) = none) : allFontRefs (c :: t) = allFontRefs t := by
  simp only [allFontRefs, List.length_cons, allFontRefsF]
  rw [h]

theorem allFontRefs_cons_some (c : Char) (t : List Char) (r : FontRef)
    (h : headFontRef (c :: t) = some r) :
    allFontRefs (c :: t) = (r.full, r.filename, r.ext) :: allFontRefs r.rest := by
  have hlt := headFontRef_rest_lt _ _ h
  simp only [List.length_cons] at hlt
  simp only [allFontRefs, List.length_cons, allFontRefsF]
  rw [h]
  exact congrArg _ (allFontRefsF_congr _ _ _ (by omega) (le_refl _))

theorem headFontRef_not_lt (c : Char) (t : List Char) (hc : c ≠ '<') :
    headFontRef (c :: t) = none := by
  unfold headFontRef
  split
  · rename_i heq
    cases heq
    exact absurd rfl hc
  · rename_i heq
    cases heq
    exact absurd rfl hc
  · rfl

theorem allFontRefs_append_of_nolt (cs r : List Char) (h : '<' ∉ cs) :
    allFontRefs (cs ++ r) = allFontRefs r := by
  induction cs with
  | nil => rfl
  | cons c cs' ih =>
    have hc : c ≠ '<' := fun he => h (he ▸ List.mem_cons_self c cs')
    have h' : '<' ∉ cs' := fun hm => h (List.mem_cons_of_mem _ hm)
    rw [List.cons_append, allFontRefs_cons_none _ _ (headFontRef_not_lt _ _ hc), ih h']

theorem takeWhile_append_all {p : Char → Bool} (l : List Char) (c : Char)
    (w : List Char) (hl : ∀ a ∈ l, p a = true) (hc : p c = false) :
    (l ++ c :: w).takeWhile p = l := by
  induction l with
  | nil => simp [List.takeWhile_cons, hc]
  | cons a l' ih =>
    have ha : p a = true := hl a (List.mem_cons_self a l')
    simp only [List.cons_append, List.takeWhile_cons, ha, if_true]
    rw [ih (fun b hb => hl b (List.mem_cons_of_mem _ hb))]

theorem headFontRefAux_complete (pre nm e w : List Char) (hnm : nm ≠ [])
    (hall : ∀ a ∈ nm, fontRefChar a = true)
    (hext : e = "pfb".data ∨ e = "enc".data) :
    headFontRefAux pre (nm ++ '.' :: (e ++ w)) =
      some ⟨pre ++ nm ++ '.' :: e, nm ++ '.' :: e, e, w⟩ := by
  unfold headFontRefAux
  dsimp only
  have htw : (nm ++ '.' :: (e ++ w)).takeWhile fontRefChar = nm :=
    takeWhile_append_all nm '.' (e ++ w) hall (by decide)
  rw [htw]
  have hne : nm.isEmpty = false := by
    cases nm with
    | nil => exact absurd rfl hnm
    | cons a l => rfl
  rw [hne]
  simp only [Bool.false_eq_true, if_false]
  rw [List.drop_left]
  rcases hext with rfl | rfl
  · rfl
  · rfl

end Siglum

namespace Siglum

/-- Token structure of a font-map line: plain text without `<`, a font
reference `<name.ext` / `<<name.ext`, or a `<`/`<<` followed by text the
reference regex cannot match (e.g. an absolute path or `[`). -/
inductive MapTok : Type where
  | txt (cs : List Char)
  | ref (dbl : Bool) (name ext : List Char)
  | blk (dbl : Bool) (cs : List Char)
  deriving DecidableEq, Repr

def renderTok : MapTok → List Char
  | .txt cs => cs
  | .ref dbl name ext => (if dbl then ['<', '<'] else ['<']) ++ name ++ '.' :: ext
  | .blk dbl cs => (if dbl then ['<', '<'] else ['<']) ++ cs

def renderLine (ts : List MapTok) : List Char := (ts.map renderTok).flatten

def refFull (dbl : Bool) (name ext : List Char) : List Char :=
  (if dbl then ['<', '<'] else ['<']) ++ name ++ '.' :: ext

/-- The regex matches of a token line, in order. -/
def refsOf : List MapTok → List (List Char × List Char × List Char)
  | [] => []
  | .ref dbl name ext :: ts =>
    (refFull dbl name ext, name ++ '.' :: ext, ext) :: refsOf ts
  | .txt _ :: ts => refsOf ts
  | .blk _ _ :: ts => refsOf ts

def WfTok : MapTok → Prop
  | .txt cs => '<' ∉ cs
  | .ref _ name ext => name ≠ [] ∧ (∀ a ∈ name, fontRefChar a = true) ∧
      (ext = "pfb".data ∨ ext = "enc".data)
  | .blk _ cs => cs ≠ [] ∧ '<' ∉ cs ∧
      ∀ pre z, headFontRefAux pre (cs ++ z) = none

def WfLine (ts : List MapTok) : Prop := ∀ t ∈ ts, WfTok t

theorem renderLine_nil : renderLine [] = [] := rfl

theorem renderLine_cons (t : MapTok) (ts : List MapTok) :
    renderLine (t :: ts) = renderTok t ++ renderLine ts := by
  simp [renderLine]

theorem renderLine_append (a b : List MapTok) :
    renderLine (a ++ b) = renderLine a ++ renderLine b := by
  simp [renderLine]

theorem refsOf_append (a b : List MapTok) :
    refsOf (a ++ b) = refsOf a ++ refsOf b := by
  induction a with
  | nil => rfl
  | cons t ts ih =>
    cases t with
    | txt cs => simpa [refsOf] using ih
    | ref dbl nm e => simpa [refsOf] using ih
    | blk dbl cs => simpa [refsOf] using ih

theorem headFontRef_single (c : Char) (t : List Char) (hc : c ≠ '<') :
    headFontRef ('<' :: c :: t) = headFontRefAux ['<'] (c :: t) := by
  unfold headFontRef
  split
  · rename_i heq
    injection heq with h1 h2
    injection h2 with h3 h4
    exact absurd h3 hc
  · rename_i heq
    injection heq with h1 h2
    rw [h2]
  · rename_i h1 h2
    exact absurd rfl (h2 (c :: t))

theorem headFontRef_double (t2 : List Char) :
    headFontRef ('<' :: '<' :: t2) = headFontRefAux ['<', '<'] t2 := by
  unfold headFontRef
  split
  · rename_i heq
    injection heq with h1 h2
    injection h2 with h3 h4
    rw [h4]
  · rename_i h1 heq
    injection heq with ha hb
    exact absurd hb.symm (h1 t2)
  · rename_i h1 h2
    exact absurd rfl (h1 t2)

theorem headFontRef_nil : headFontRef [] = none := by
  unfold headFontRef
  split
  · rename_i heq
    cases heq
  · rename_i hfail heq
    cases heq
  · rfl

theorem headFontRef_ref (dbl : Bool) (nm e Z : List Char) (h1 : nm ≠ [])
    (h2 : ∀ a ∈ nm, fontRefChar a = true)
    (h3 : e = "pfb".data ∨ e = "enc".data) :
    headFontRef (renderTok (.ref dbl nm e) ++ Z) =
      some ⟨refFull dbl nm e, nm ++ '.' :: e, e, Z⟩ := by
  cases nm with
  | nil => exact absurd rfl h1
  | cons n0 nt =>
    have hn0 : fontRefChar n0 = true := h2 n0 (List.mem_cons_self _ _)
    have hn0ne : n0 ≠ '<' := by
      intro he; rw [he] at hn0; exact absurd hn0 (by decide)
    cases dbl with
    | false =>
      have hshape : renderTok (.ref false (n0 :: nt) e) ++ Z =
          '<' :: n0 :: (nt ++ '.' :: (e ++ Z)) := by
        simp [renderTok]
      rw [hshape, headFontRef_single _ _ hn0ne]
      have := headFontRefAux_complete ['<'] (n0 :: nt) e Z h1 h2 h3
      simp only [List.cons_append] at this ⊢
      rw [this]
      rfl
    | true =>
      have hshape : renderTok (.ref true (n0 :: nt) e) ++ Z =
          '<' :: '<' :: ((n0 :: nt) ++ '.' :: (e ++ Z)) := by
        simp [renderTok]
      rw [hshape, headFontRef_double]
      rw [headFontRefAux_complete ['<', '<'] (n0 :: nt) e Z h1 h2 h3]
      rfl

theorem headFontRef_blk (dbl : Bool) (cs Z : List Char) (hne : cs ≠ [])
    (hnolt : '<' ∉ cs) (haux : ∀ pre z, headFontRefAux pre (cs ++ z) = none) :
    headFontRef (renderTok (.blk dbl cs) ++ Z) = none := by
  cases cs with
  | nil => exact absurd rfl hne
  | cons c0 ct =>
    have hc0 : c0 ≠ '<' := fun he => hnolt (he ▸ List.mem_cons_self c0 ct)
    cases dbl with
    | false =>
      have hshape : renderTok (.blk false (c0 :: ct)) ++ Z =
          '<' :: c0 :: (ct ++ Z) := by simp [renderTok]
      rw [hshape, headFontRef_single _ _ hc0]
      exact haux ['<'] Z
    | true =>
      have hshape : renderTok (.blk true (c0 :: ct)) ++ Z =
          '<' :: '<' :: ((c0 :: ct) ++ Z) := by simp [renderTok]
      rw [hshape, headFontRef_double]
      exact haux ['<', '<'] Z

theorem allFontRefs_some (cs : List Char) (r : FontRef)
    (h : headFontRef cs = some r) :
    allFontRefs cs = (r.full, r.filename, r.ext) :: allFontRefs r.rest := by
  cases cs with
  | nil => rw [headFontRef_nil] at h; cases h
  | cons c t => exact allFontRefs_cons_some c t r h

theorem allFontRefs_renderLine (ts : List MapTok) (hwf : WfLine ts) :
    allFontRefs (renderLine ts) = refsOf ts := by
  induction ts with
  | nil => rfl
  | cons t ts' ih =>
    have hwft : WfTok t := hwf t (List.mem_cons_self _ _)
    have hwf' : WfLine ts' := fun u hu => hwf u (List.mem_cons_of_mem _ hu)
    rw [renderLine_cons]
    cases t with
    | txt cs =>
      have : '<' ∉ cs := hwft
      rw [show renderTok (.txt cs) = cs from rfl,
        allFontRefs_append_of_nolt cs _ this, ih hwf', refsOf]
    | ref dbl nm e =>
      obtain ⟨h1, h2, h3⟩ := hwft
      rw [allFontRefs_some _ _ (headFontRef_ref dbl nm e _ h1 h2 h3)]
      dsimp only
      rw [ih hwf']
      rfl
    | blk dbl cs =>
      obtain ⟨h1, h2, h3⟩ := hwft
      have hnone := headFontRef_blk dbl cs (renderLine ts') h1 h2 h3
      cases cs with
      | nil => exact absurd rfl h1
      | cons c0 ct =>
        have hc0 : c0 ≠ '<' := fun he => h2 (he ▸ List.mem_cons_self c0 ct)
        have hct : '<' ∉ ct := fun hm => h2 (List.mem_cons_of_mem _ hm)
        cases dbl with
        | false =>
          have hshape : renderTok (.blk false (c0 :: ct)) ++ renderLine ts' =
              '<' :: c0 :: (ct ++ renderLine ts') := by simp [renderTok]
          rw [hshape] at hnone ⊢
          rw [allFontRefs_cons_none _ _ hnone,
            allFontRefs_cons_none _ _ (headFontRef_not_lt _ _ hc0),
            allFontRefs_append_of_nolt ct _ hct, ih hwf']
          rfl
        | true =>
          have hshape : renderTok (.blk true (c0 :: ct)) ++ renderLine ts' =
              '<' :: '<' :: (c0 :: (ct ++ renderLine ts')) := by simp [renderTok]
          rw [hshape] at hnone ⊢
          have hsec : headFontRef ('<' :: c0 :: (ct ++ renderLine ts')) = none := by
            rw [headFontRef_single _ _ hc0]
            exact h3 ['<'] (renderLine ts')
          rw [allFontRefs_cons_none _ _ hnone,
            allFontRefs_cons_none _ _ hsec,
            allFontRefs_cons_none _ _ (headFontRef_not_lt _ _ hc0),
            allFontRefs_append_of_nolt ct _ hct, ih hwf']
          rfl

end Siglum

namespace Siglum

theorem suffix_append_cases {α : Type} (S X Y : List α) (h : S <:+ X ++ Y) :
    S <:+ Y ∨ ∃ S1, S1 <:+ X ∧ S1 ≠ [] ∧ S = S1 ++ Y := by
  obtain ⟨T, hT⟩ := h
  rcases List.append_eq_append_iff.mp hT with ⟨a2, ha1, ha2⟩ | ⟨c2, hc1, hc2⟩
  · cases a2 with
    | nil =>
      left
      simp only [List.nil_append] at ha2
      exact ha2 ▸ List.suffix_refl Y
    | cons x xs =>
      right
      exact ⟨x :: xs, ⟨T, ha1.symm⟩, by simp, ha2⟩
  · left
    exact ⟨c2, hc2.symm⟩

theorem suffix_cons_cases {α : Type} (S : List α) (c : α) (l : List α)
    (h : S <:+ c :: l) : S = c :: l ∨ S <:+ l := by
  obtain ⟨T, hT⟩ := h
  cases T with
  | nil => left; simpa using hT
  | cons a T' =>
    right
    injection hT with h1 h2
    exact ⟨T', h2⟩

theorem refFull_false (nm e : List Char) :
    refFull false nm e = '<' :: (nm ++ '.' :: e) := by simp [refFull]

theorem refFull_true (nm e : List Char) :
    refFull true nm e = '<' :: '<' :: (nm ++ '.' :: e) := by simp [refFull]

theorem renderTok_ref (dbl : Bool) (nm e : List Char) :
    renderTok (.ref dbl nm e) = refFull dbl nm e := rfl

theorem refFull_head (dbl : Bool) (nm e : List Char) :
    ∃ t, refFull dbl nm e = '<' :: t := by
  cases dbl
  · exact ⟨_, refFull_false nm e⟩
  · exact ⟨_, refFull_true nm e⟩

/-- The name run of a match is maximal, so two pattern instances lined up
at the same position agree on name and extension. -/
theorem namedot_prefix (nm e : List Char) : ∀ (nm' : List Char) (e' W : List Char),
    (∀ a ∈ nm, fontRefChar a = true) → (∀ a ∈ nm', fontRefChar a = true) →
    (nm ++ '.' :: e) <+: (nm' ++ '.' :: (e' ++ W)) → nm = nm' ∧ e <+: e' ++ W := by
  induction nm with
  | nil =>
    intro nm' e' W _ h2 hp
    cases nm' with
    | nil =>
      simp only [List.nil_append, List.cons_prefix_cons] at hp
      exact ⟨rfl, hp.2⟩
    | cons b nt' =>
      simp only [List.nil_append, List.cons_append, List.cons_prefix_cons] at hp
      have hb : fontRefChar b = true := h2 b (List.mem_cons_self _ _)
      rw [← hp.1] at hb
      exact absurd hb (by decide)
  | cons a nt ih =>
    intro nm' e' W h1 h2 hp
    cases nm' with
    | nil =>
      simp only [List.cons_append, List.nil_append, List.cons_prefix_cons] at hp
      have ha : fontRefChar a = true := h1 a (List.mem_cons_self _ _)
      rw [hp.1] at ha
      exact absurd ha (by decide)
    | cons b nt' =>
      simp only [List.cons_append, List.cons_prefix_cons] at hp
      obtain ⟨hab, hp'⟩ := hp
      have := ih nt' e' W (fun x hx => h1 x (List.mem_cons_of_mem _ hx))
        (fun x hx => h2 x (List.mem_cons_of_mem _ hx)) hp'
      exact ⟨by rw [hab, this.1], this.2⟩

theorem ext_eq_of_prefix (e e' W : List Char) (hlen : e.length = e'.length)
    (hp : e <+: e' ++ W) : e = e' := by
  obtain ⟨r, hr⟩ := hp
  exact (List.append_inj hr.symm hlen.symm).1.symm

/-- Two well-formed full matches lined up at the same position have the
same captured filename and extension. -/
theorem refFull_prefix_eq (dbl dbl' : Bool) (nm e nm' e' W : List Char)
    (hnm : nm ≠ []) (hall : ∀ a ∈ nm, fontRefChar a = true)
    (hext : e = "pfb".data ∨ e = "enc".data)
    (hnm' : nm' ≠ []) (hall' : ∀ a ∈ nm', fontRefChar a = true)
    (hext' : e' = "pfb".data ∨ e' = "enc".data)
    (hp : refFull dbl nm e <+: refFull dbl' nm' e' ++ W) :
    nm = nm' ∧ e = e' := by
  have hlen : e.length = e'.length := by
    rcases hext with rfl | rfl <;> rcases hext' with rfl | rfl <;> decide
  cases dbl <;> cases dbl'
  · rw [refFull_false, refFull_false] at hp
    simp only [List.cons_append, List.cons_prefix_cons] at hp
    rw [List.append_assoc, List.cons_append] at hp
    have := namedot_prefix nm e nm' e' W hall hall' hp.2
    exact ⟨this.1, ext_eq_of_prefix e e' W hlen this.2⟩
  · rw [refFull_false, refFull_true] at hp
    simp only [List.cons_append, List.cons_prefix_cons] at hp
    obtain ⟨-, hp2⟩ := hp
    cases nm with
    | nil => exact absurd rfl hnm
    | cons a nt =>
      simp only [List.cons_append, List.cons_prefix_cons] at hp2
      have ha : fontRefChar a = true := hall a (List.mem_cons_self _ _)
      rw [hp2.1] at ha
      exact absurd ha (by decide)
  · rw [refFull_true, refFull_false] at hp
    simp only [List.cons_append, List.cons_prefix_cons] at hp
    obtain ⟨-, hp2⟩ := hp
    rw [List.append_assoc, List.cons_append] at hp2
    cases nm' with
    | nil => exact absurd rfl hnm'
    | cons b nt' =>
      simp only [List.cons_append, List.cons_prefix_cons] at hp2
      have hb : fontRefChar b = true := hall' b (List.mem_cons_self _ _)
      rw [← hp2.1] at hb
      exact absurd hb (by decide)
  · rw [refFull_true, refFull_true] at hp
    simp only [List.cons_append, List.cons_prefix_cons] at hp
    rw [List.append_assoc, List.cons_append] at hp
    have := namedot_prefix nm e nm' e' W hall hall' hp.2.2
    exact ⟨this.1, ext_eq_of_prefix e e' W hlen this.2⟩

/-- A well-formed pattern instance at the head of the text makes the
matcher succeed. -/
theorem headFontRefAux_ne_none_of_prefix (pre nm e v : List Char)
    (hnm : nm ≠ []) (hall : ∀ a ∈ nm, fontRefChar a = true)
    (hext : e = "pfb".data ∨ e = "enc".data)
    (hp : (nm ++ '.' :: e) <+: v) : headFontRefAux pre v ≠ none := by
  obtain ⟨w, hw⟩ := hp
  rw [← hw, List.append_assoc, List.cons_append]
  rw [headFontRefAux_complete pre nm e w hnm hall hext]
  simp

end Siglum

namespace Siglum

theorem ref_body_nolt (nm e : List Char) (hall : ∀ a ∈ nm, fontRefChar a = true)
    (hext : e = "pfb".data ∨ e = "enc".data) : '<' ∉ (nm ++ '.' :: e) := by
  intro hmem
  rcases List.mem_append.mp hmem with h | h
  · exact absurd (hall _ h) (by decide)
  · rcases List.mem_cons.mp h with h | h
    · exact absurd h (by decide)
    · rcases hext with rfl | rfl
      · exact absurd h (by decide)
      · exact absurd h (by decide)

/-- A full match cannot start strictly inside `<`-free text. -/
theorem no_full_in_body (dbl : Bool) (nm e body S1 W : List Char)
    (hnb : '<' ∉ body) (hs : S1 <:+ body) (hne : S1 ≠ [])
    (hp : refFull dbl nm e <+: S1 ++ W) : False := by
  cases S1 with
  | nil => exact hne rfl
  | cons s0 S1' =>
    obtain ⟨t, ht⟩ := refFull_head dbl nm e
    rw [ht, List.cons_append, List.cons_prefix_cons] at hp
    have hmem : s0 ∈ body := hs.subset (List.mem_cons_self _ _)
    rw [← hp.1] at hmem
    exact hnb hmem

/-- A full match with a resolvable filename cannot start inside the render
of a well-formed token whose references all fail to resolve. -/
theorem tok_nonocc (resolve : List Char → List Char → Option (List Char))
    (dbl : Bool) (nm e p : List Char)
    (hnm : nm ≠ []) (hall : ∀ a ∈ nm, fontRefChar a = true)
    (hext : e = "pfb".data ∨ e = "enc".data)
    (hres : resolve (nm ++ '.' :: e) e = some p)
    (u : MapTok) (hwf : WfTok u)
    (hures : ∀ dbl' n' e', u = .ref dbl' n' e' → resolve (n' ++ '.' :: e') e' = none)
    (S1 W : List Char) (hne : S1 ≠ []) (hsuf : S1 <:+ renderTok u)
    (hp : refFull dbl nm e <+: S1 ++ W) : False := by
  cases u with
  | txt cs =>
    exact no_full_in_body dbl nm e cs S1 W hwf hsuf hne hp
  | ref dbl' n' e' =>
    obtain ⟨hn', hall', hext'⟩ := hwf
    have hres' := hures dbl' n' e' rfl
    have hbody : '<' ∉ (n' ++ '.' :: e') := ref_body_nolt n' e' hall' hext'
    have hclose : ∀ (d2 : Bool), refFull dbl nm e <+: refFull d2 n' e' ++ W → False := by
      intro d2 hpp
      obtain ⟨heq1, heq2⟩ := refFull_prefix_eq dbl d2 nm e n' e' W hnm hall hext
        hn' hall' hext' hpp
      rw [heq1, heq2, hres'] at hres
      cases hres
    cases dbl' with
    | false =>
      rw [renderTok_ref, refFull_false] at hsuf
      rcases suffix_cons_cases _ _ _ hsuf with heq | hsuf'
      · subst heq
        exact hclose false (by rw [refFull_false]; exact hp)
      · exact no_full_in_body dbl nm e _ S1 W hbody hsuf' hne hp
    | true =>
      rw [renderTok_ref, refFull_true] at hsuf
      rcases suffix_cons_cases _ _ _ hsuf with heq | hsuf2
      · subst heq
        exact hclose true (by rw [refFull_true]; exact hp)
      · rcases suffix_cons_cases _ _ _ hsuf2 with heq | hsuf'
        · subst heq
          exact hclose false (by rw [refFull_false]; exact hp)
        · exact no_full_in_body dbl nm e _ S1 W hbody hsuf' hne hp
  | blk dbl' cs =>
    obtain ⟨hcne, hcnolt, haux⟩ := hwf
    have hsingle : ¬ (refFull dbl nm e <+: '<' :: (cs ++ W)) := by
      intro hpp
      cases dbl with
      | false =>
        rw [refFull_false, List.cons_prefix_cons] at hpp
        exact headFontRefAux_ne_none_of_prefix ['<'] nm e (cs ++ W) hnm hall hext
          hpp.2 (haux ['<'] W)
      | true =>
        rw [refFull_true, List.cons_prefix_cons] at hpp
        obtain ⟨-, hpp2⟩ := hpp
        cases cs with
        | nil => exact hcne rfl
        | cons c0 ct =>
          rw [List.cons_append, List.cons_prefix_cons] at hpp2
          exact hcnolt (hpp2.1 ▸ List.mem_cons_self c0 ct)
    have hdouble : ¬ (refFull dbl nm e <+: '<' :: '<' :: (cs ++ W)) := by
      intro hpp
      cases dbl with
      | false =>
        rw [refFull_false, List.cons_prefix_cons] at hpp
        obtain ⟨-, hpp2⟩ := hpp
        cases nm with
        | nil => exact hnm rfl
        | cons a nt =>
          rw [List.cons_append, List.cons_prefix_cons] at hpp2
          have ha := hall a (List.mem_cons_self _ _)
          rw [hpp2.1] at ha
          exact absurd ha (by decide)
      | true =>
        rw [refFull_true] at hpp
        simp only [List.cons_prefix_cons] at hpp
        exact headFontRefAux_ne_none_of_prefix ['<', '<'] nm e (cs ++ W) hnm hall hext
          hpp.2.2 (haux ['<', '<'] W)
    cases dbl' with
    | false =>
      rw [show renderTok (.blk false cs) = '<' :: cs by simp [renderTok]] at hsuf
      rcases suffix_cons_cases _ _ _ hsuf with heq | hsuf'
      · subst heq
        rw [List.cons_append] at hp
        exact hsingle hp
      · exact no_full_in_body dbl nm e cs S1 W hcnolt hsuf' hne hp
    | true =>
      rw [show renderTok (.blk true cs) = '<' :: '<' :: cs by simp [renderTok]] at hsuf
      rcases suffix_cons_cases _ _ _ hsuf with heq | hsuf2
      · subst heq
        simp only [List.cons_append] at hp
        exact hdouble hp
      · rcases suffix_cons_cases _ _ _ hsuf2 with heq | hsuf'
        · subst heq
          rw [List.cons_append] at hp
          exact hsingle hp
        · exact no_full_in_body dbl nm e cs S1 W hcnolt hsuf' hne hp

end Siglum

namespace Siglum

theorem line_nonocc (resolve : List Char → List Char → Option (List Char))
    (dbl : Bool) (nm e p : List Char)
    (hnm : nm ≠ []) (hall : ∀ a ∈ nm, fontRefChar a = true)
    (hext : e = "pfb".data ∨ e = "enc".data)
    (hres : resolve (nm ++ '.' :: e) e = some p) :
    ∀ (us : List MapTok), WfLine us →
      (∀ r ∈ refsOf us, resolve r.2.1 r.2.2 = none) →
      ∀ S Z, S ≠ [] → S <:+ renderLine us → ¬ (refFull dbl nm e <+: S ++ Z) := by
  intro us
  induction us with
  | nil =>
    intro _ _ S Z hne hsuf hp
    rw [renderLine_nil] at hsuf
    obtain ⟨T, hT⟩ := hsuf
    exact hne (List.append_eq_nil.mp hT).2
  | cons u us' ih =>
    intro hwf hrefs S Z hne hsuf hp
    have hwfu := hwf u (List.mem_cons_self _ _)
    have hwf' : WfLine us' := fun t ht => hwf t (List.mem_cons_of_mem _ ht)
    have hrefs' : ∀ r ∈ refsOf us', resolve r.2.1 r.2.2 = none := by
      intro r hr
      apply hrefs
      cases u with
      | txt cs => exact hr
      | blk d cs => exact hr
      | ref d n2 e2 => exact List.mem_cons_of_mem _ hr
    rw [renderLine_cons] at hsuf
    rcases suffix_append_cases S _ _ hsuf with hS | ⟨S1, hS1suf, hS1ne, rfl⟩
    · exact ih hwf' hrefs' S Z hne hS hp
    · have hures : ∀ dbl' n' e', u = .ref dbl' n' e' →
          resolve (n' ++ '.' :: e') e' = none := by
        intro dbl' n' e' hu
        subst hu
        exact hrefs _ (List.mem_cons_self _ _)
      rw [List.append_assoc] at hp
      exact tok_nonocc resolve dbl nm e p hnm hall hext hres u hwfu hures S1
        (renderLine us' ++ Z) hS1ne hS1suf hp

theorem replaceFirst_at (A pat B rep : List Char) (hpat : pat ≠ [])
    (hsafe : ∀ S, S ≠ [] → S <:+ A → ¬ (pat <+: S ++ (pat ++ B))) :
    replaceFirst (A ++ (pat ++ B)) pat rep = A ++ (rep ++ B) := by
  induction A with
  | nil =>
    simp only [List.nil_append]
    cases pat with
    | nil => exact absurd rfl hpat
    | cons p0 pt =>
      rw [List.cons_append]
      simp only [replaceFirst]
      have hpre : (p0 :: pt).isPrefixOf (p0 :: (pt ++ B)) = true := by
        rw [List.isPrefixOf_iff_prefix,
          show p0 :: (pt ++ B) = (p0 :: pt) ++ B from rfl]
        exact List.prefix_append _ _
      rw [hpre]
      simp only [if_true]
      rw [show p0 :: (pt ++ B) = (p0 :: pt) ++ B from rfl, List.drop_left]
  | cons c A' ih =>
    have hnot : ¬ (pat <+: (c :: A') ++ (pat ++ B)) :=
      hsafe (c :: A') (by simp) (List.suffix_refl _)
    rw [List.cons_append]
    simp only [replaceFirst]
    have hx : ¬ (pat.isPrefixOf (c :: (A' ++ (pat ++ B))) = true) := by
      rw [List.isPrefixOf_iff_prefix]
      intro h
      exact hnot (by rw [List.cons_append]; exact h)
    rw [if_neg hx]
    rw [ih (fun S hne hs => hsafe S hne (hs.trans (List.suffix_cons c A')))]
    rw [List.cons_append]

/-- The per-extension resolver yields shielded absolute paths on
well-formed reference filenames. -/
def CleanResolve (resolve : List Char → List Char → Option (List Char)) : Prop :=
  ∀ nm e p, nm ≠ [] → (∀ a ∈ nm, fontRefChar a = true) →
    (e = "pfb".data ∨ e = "enc".data) → resolve (nm ++ '.' :: e) e = some p →
    p ≠ [] ∧ p.head? = some '/' ∧ '<' ∉ p ∧ '\n' ∉ p

/-- The token-level effect of one rewriting pass: each resolvable
reference becomes a shielded `<path` / `<<path` block. -/
def rewriteToks (resolve : List Char → List Char → Option (List Char)) :
    List MapTok → List MapTok
  | [] => []
  | .ref dbl nm e :: ts =>
    (match resolve (nm ++ '.' :: e) e with
     | some p => .blk dbl p
     | none => .ref dbl nm e) :: rewriteToks resolve ts
  | t :: ts => t :: rewriteToks resolve ts

def cntRes (resolve : List Char → List Char → Option (List Char)) :
    List MapTok → Nat
  | [] => 0
  | .ref _ nm e :: ts =>
    (if (resolve (nm ++ '.' :: e) e).isSome then 1 else 0) + cntRes resolve ts
  | _ :: ts => cntRes resolve ts

theorem blk_wf_of_clean (p : List Char) (hp1 : p ≠ []) (hp2 : p.head? = some '/')
    (hp3 : '<' ∉ p) (dbl : Bool) : WfTok (.blk dbl p) := by
  refine ⟨hp1, hp3, ?_⟩
  intro pre z
  cases p with
  | nil => exact absurd rfl hp1
  | cons c0 ct =>
    injection hp2 with hc0
    subst hc0
    unfold headFontRefAux
    dsimp only
    rw [List.cons_append, List.takeWhile_cons]
    rw [show fontRefChar '/' = false from by decide]
    simp

theorem WfLine_append_single (done : List MapTok) (t : MapTok)
    (h1 : WfLine done) (h2 : WfTok t) : WfLine (done ++ [t]) := by
  intro x hx
  rcases List.mem_append.mp hx with h | h
  · exact h1 x h
  · rw [List.mem_singleton.mp h]
    exact h2

theorem renderLine_snoc (a : List MapTok) (t : MapTok) :
    renderLine (a ++ [t]) = renderLine a ++ renderTok t := by
  rw [renderLine_append, renderLine_cons, renderLine_nil, List.append_nil]

end Siglum

namespace Siglum

theorem rewriteToks_nil (resolve : List Char → List Char → Option (List Char)) :
    rewriteToks resolve [] = [] := rfl

theorem rewriteToks_txt (resolve : List Char → List Char → Option (List Char))
    (cs : List Char) (ts : List MapTok) :
    rewriteToks resolve (.txt cs :: ts) = .txt cs :: rewriteToks resolve ts := rfl

theorem rewriteToks_blk (resolve : List Char → List Char → Option (List Char))
    (dbl : Bool) (cs : List Char) (ts : List MapTok) :
    rewriteToks resolve (.blk dbl cs :: ts) = .blk dbl cs :: rewriteToks resolve ts := rfl

theorem rewriteToks_ref_none (resolve : List Char → List Char → Option (List Char))
    (dbl : Bool) (nm e : List Char) (ts : List MapTok)
    (h : resolve (nm ++ '.' :: e) e = none) :
    rewriteToks resolve (.ref dbl nm e :: ts) = .ref dbl nm e :: rewriteToks resolve ts := by
  simp only [rewriteToks, h]

theorem rewriteToks_ref_some (resolve : List Char → List Char → Option (List Char))
    (dbl : Bool) (nm e p : List Char) (ts : List MapTok)
    (h : resolve (nm ++ '.' :: e) e = some p) :
    rewriteToks resolve (.ref dbl nm e :: ts) = .blk dbl p :: rewriteToks resolve ts := by
  simp only [rewriteToks, h]

theorem isPrefixOf_dbl_refFull (dbl : Bool) (nm e : List Char) (hnm : nm ≠ [])
    (hall : ∀ a ∈ nm, fontRefChar a = true) :
    (['<', '<'].isPrefixOf (refFull dbl nm e)) = dbl := by
  cases dbl with
  | false =>
    rw [refFull_false]
    cases nm with
    | nil => exact absurd rfl hnm
    | cons a nt =>
      have ha : a ≠ '<' := by
        intro he
        have := hall a (List.mem_cons_self _ _)
        rw [he] at this
        exact absurd this (by decide)
      have hb : ('<' == a) = false := beq_eq_false_iff_ne.mpr (Ne.symm ha)
      simp [List.isPrefixOf, List.cons_append, hb]
  | true =>
    rw [refFull_true]
    simp [List.isPrefixOf]

theorem rewriteStep_none (resolve : List Char → List Char → Option (List Char))
    (acc : List Char × Nat) (r : List Char × List Char × List Char)
    (h : resolve r.2.1 r.2.2 = none) : rewriteStep resolve acc r = acc := by
  unfold rewriteStep
  rw [h]

theorem rewriteStep_some (resolve : List Char → List Char → Option (List Char))
    (acc : List Char × Nat) (r : List Char × List Char × List Char)
    (path : List Char) (h : resolve r.2.1 r.2.2 = some path) :
    rewriteStep resolve acc r =
      (replaceFirst acc.1 r.1
        ((if ['<', '<'].isPrefixOf r.1 then ['<', '<'] else ['<']) ++ path),
        acc.2 + 1) := by
  unfold rewriteStep
  rw [h]

theorem fold_rewrite (resolve : List Char → List Char → Option (List Char))
    (hclean : CleanResolve resolve) :
    ∀ (rest done : List MapTok) (n : Nat),
      WfLine done → WfLine rest →
      (∀ r ∈ refsOf done, resolve r.2.1 r.2.2 = none) →
      (refsOf rest).foldl (rewriteStep resolve) (renderLine done ++ renderLine rest, n)
      = (renderLine done ++ renderLine (rewriteToks resolve rest),
          n + cntRes resolve rest) := by
  intro rest
  induction rest with
  | nil =>
    intro done n _ _ _
    simp [refsOf, cntRes, rewriteToks_nil]
  | cons t rest' ih =>
    intro done n hwfd hwfr hdone
    have hwft := hwfr t (List.mem_cons_self _ _)
    have hwfr' : WfLine rest' := fun x hx => hwfr x (List.mem_cons_of_mem _ hx)
    cases t with
    | txt cs =>
      rw [show refsOf (MapTok.txt cs :: rest') = refsOf rest' from rfl,
        rewriteToks_txt,
        show cntRes resolve (MapTok.txt cs :: rest') = cntRes resolve rest' from rfl,
        renderLine_cons, renderLine_cons, ← List.append_assoc, ← List.append_assoc]
      have hthis := ih (done ++ [.txt cs]) n
        (WfLine_append_single done _ hwfd hwft) hwfr'
        (by
          intro r hr
          rw [refsOf_append] at hr
          rcases List.mem_append.mp hr with h | h
          · exact hdone r h
          · exact absurd h (List.not_mem_nil r))
      rw [renderLine_snoc] at hthis
      exact hthis
    | blk dbl cs =>
      rw [show refsOf (MapTok.blk dbl cs :: rest') = refsOf rest' from rfl,
        rewriteToks_blk,
        show cntRes resolve (MapTok.blk dbl cs :: rest') = cntRes resolve rest' from rfl,
        renderLine_cons, renderLine_cons, ← List.append_assoc, ← List.append_assoc]
      have hthis := ih (done ++ [.blk dbl cs]) n
        (WfLine_append_single done _ hwfd hwft) hwfr'
        (by
          intro r hr
          rw [refsOf_append] at hr
          rcases List.mem_append.mp hr with h | h
          · exact hdone r h
          · exact absurd h (List.not_mem_nil r))
      rw [renderLine_snoc] at hthis
      exact hthis
    | ref dbl nm e =>
      obtain ⟨h1, h2, h3⟩ := hwft
      rw [show refsOf (MapTok.ref dbl nm e :: rest')
          = (refFull dbl nm e, nm ++ '.' :: e, e) :: refsOf rest' from rfl,
        List.foldl_cons]
      cases hres : resolve (nm ++ '.' :: e) e with
      | none =>
        rw [rewriteToks_ref_none resolve dbl nm e rest' hres]
        rw [show cntRes resolve (MapTok.ref dbl nm e :: rest')
            = (if (resolve (nm ++ '.' :: e) e).isSome then 1 else 0)
              + cntRes resolve rest' from rfl, hres]
        simp only [Option.isSome_none, Bool.false_eq_true, if_false, Nat.zero_add]
        rw [rewriteStep_none resolve
          (renderLine done ++ renderLine (MapTok.ref dbl nm e :: rest'), n)
          (refFull dbl nm e, nm ++ '.' :: e, e) hres]
        rw [renderLine_cons, renderLine_cons, renderTok_ref,
          ← List.append_assoc, ← List.append_assoc]
        have hthis := ih (done ++ [.ref dbl nm e]) n
          (WfLine_append_single done _ hwfd (by exact ⟨h1, h2, h3⟩)) hwfr'
          (by
            intro r hr
            rw [refsOf_append] at hr
            rcases List.mem_append.mp hr with h | h
            · exact hdone r h
            · rw [show refsOf [MapTok.ref dbl nm e]
                  = [(refFull dbl nm e, nm ++ '.' :: e, e)] from rfl] at h
              rw [List.mem_singleton.mp h]
              exact hres)
        rw [renderLine_snoc, renderTok_ref] at hthis
        exact hthis
      | some p =>
        rw [rewriteToks_ref_some resolve dbl nm e p rest' hres]
        rw [show cntRes resolve (MapTok.ref dbl nm e :: rest')
            = (if (resolve (nm ++ '.' :: e) e).isSome then 1 else 0)
              + cntRes resolve rest' from rfl, hres]
        simp only [Option.isSome_some, if_true]
        have hcl := hclean nm e p h1 h2 h3 hres
        have hwfblk : WfTok (.blk dbl p) :=
          blk_wf_of_clean p hcl.1 hcl.2.1 hcl.2.2.1 dbl
        have hsafe : ∀ S, S ≠ [] → S <:+ renderLine done →
            ¬ (refFull dbl nm e <+: S ++ (refFull dbl nm e ++ renderLine rest')) :=
          fun S hne hs =>
            line_nonocc resolve dbl nm e p h1 h2 h3 hres done hwfd hdone S _ hne hs
        have hfne : refFull dbl nm e ≠ [] := by
          obtain ⟨t, ht⟩ := refFull_head dbl nm e
          rw [ht]
          simp
        rw [rewriteStep_some resolve
          (renderLine done ++ renderLine (MapTok.ref dbl nm e :: rest'), n)
          (refFull dbl nm e, nm ++ '.' :: e, e) p hres]
        dsimp only
        rw [isPrefixOf_dbl_refFull dbl nm e h1 h2]
        rw [renderLine_cons (MapTok.ref dbl nm e) rest', renderTok_ref]
        rw [replaceFirst_at (renderLine done) (refFull dbl nm e)
          (renderLine rest') ((if dbl then ['<', '<'] else ['<']) ++ p) hfne hsafe]
        rw [renderLine_cons (MapTok.blk dbl p),
          show renderTok (MapTok.blk dbl p)
            = (if dbl then ['<', '<'] else ['<']) ++ p from rfl]
        rw [← Nat.add_assoc]
        have hthis := ih (done ++ [.blk dbl p]) (n + 1)
          (WfLine_append_single done _ hwfd hwfblk) hwfr'
          (by
            intro r hr
            rw [refsOf_append] at hr
            rcases List.mem_append.mp hr with h | h
            · exact hdone r h
            · exact absurd h (List.not_mem_nil r))
        rw [renderLine_snoc,
          show renderTok (MapTok.blk dbl p)
            = (if dbl then ['<', '<'] else ['<']) ++ p from rfl] at hthis
        simp only [← List.append_assoc] at hthis ⊢
        exact hthis

end Siglum

namespace Siglum

theorem rewriteFontRefsLine_skip (resolve : List Char → List Char → Option (List Char))
    (l : List Char) (h : lineIsSkippable l = true) :
    rewriteFontRefsLine resolve l = (l, 0) := by
  unfold rewriteFontRefsLine
  rw [h]
  simp

theorem fold_none (resolve : List Char → List Char → Option (List Char)) :
    ∀ (L : List (List Char × List Char × List Char)) (acc : List Char × Nat),
      (∀ r ∈ L, resolve r.2.1 r.2.2 = none) →
      L.foldl (rewriteStep resolve) acc = acc := by
  intro L
  induction L with
  | nil => intro acc _; rfl
  | cons r L' ih =>
    intro acc hall
    rw [List.foldl_cons,
      rewriteStep_none resolve acc r (hall r (List.mem_cons_self _ _))]
    exact ih acc (fun x hx => hall x (List.mem_cons_of_mem _ hx))

theorem rewriteFontRefsLine_stable
    (resolve : List Char → List Char → Option (List Char))
    (ts : List MapTok) (hwf : WfLine ts)
    (hrefs : ∀ r ∈ refsOf ts, resolve r.2.1 r.2.2 = none) :
    rewriteFontRefsLine resolve (renderLine ts) = (renderLine ts, 0) := by
  unfold rewriteFontRefsLine
  cases hskip : lineIsSkippable (renderLine ts) with
  | false =>
    simp only [Bool.false_eq_true, if_false]
    rw [allFontRefs_renderLine ts hwf]
    exact fold_none resolve (refsOf ts) _ hrefs
  | true => simp

theorem rewriteFontRefsLine_renderLine
    (resolve : List Char → List Char → Option (List Char))
    (hclean : CleanResolve resolve)
    (ts : List MapTok) (hwf : WfLine ts)
    (hskip : lineIsSkippable (renderLine ts) = false) :
    rewriteFontRefsLine resolve (renderLine ts) =
      (renderLine (rewriteToks resolve ts), cntRes resolve ts) := by
  unfold rewriteFontRefsLine
  rw [hskip]
  simp only [Bool.false_eq_true, if_false]
  rw [allFontRefs_renderLine ts hwf]
  have h := fold_rewrite resolve hclean ts [] 0
    (fun x hx => absurd hx (List.not_mem_nil x)) hwf
    (fun r hr => absurd hr (List.not_mem_nil r))
  rw [renderLine_nil, List.nil_append, List.nil_append, Nat.zero_add] at h
  exact h

theorem rewriteToks_refs_none (resolve : List Char → List Char → Option (List Char))
    (ts : List MapTok) :
    ∀ r ∈ refsOf (rewriteToks resolve ts), resolve r.2.1 r.2.2 = none := by
  induction ts with
  | nil => intro r hr; exact absurd hr (List.not_mem_nil r)
  | cons t ts' ih =>
    intro r hr
    cases t with
    | txt cs =>
      rw [rewriteToks_txt] at hr
      exact ih r hr
    | blk dbl cs =>
      rw [rewriteToks_blk] at hr
      exact ih r hr
    | ref dbl nm e =>
      cases hres : resolve (nm ++ '.' :: e) e with
      | none =>
        rw [rewriteToks_ref_none resolve dbl nm e ts' hres] at hr
        rcases List.mem_cons.mp hr with h | h
        · rw [h]; exact hres
        · exact ih r h
      | some p =>
        rw [rewriteToks_ref_some resolve dbl nm e p ts' hres] at hr
        exact ih r hr

theorem rewriteToks_wf (resolve : List Char → List Char → Option (List Char))
    (hclean : CleanResolve resolve) (ts : List MapTok) (hwf : WfLine ts) :
    WfLine (rewriteToks resolve ts) := by
  induction ts with
  | nil => intro u hu; exact absurd hu (List.not_mem_nil u)
  | cons t ts' ih =>
    have hwft := hwf t (List.mem_cons_self _ _)
    have hwf' : WfLine ts' := fun x hx => hwf x (List.mem_cons_of_mem _ hx)
    intro u hu
    cases t with
    | txt cs =>
      rw [rewriteToks_txt] at hu
      rcases List.mem_cons.mp hu with h | h
      · rw [h]; exact hwft
      · exact ih hwf' u h
    | blk dbl cs =>
      rw [rewriteToks_blk] at hu
      rcases List.mem_cons.mp hu with h | h
      · rw [h]; exact hwft
      · exact ih hwf' u h
    | ref dbl nm e =>
      obtain ⟨h1, h2, h3⟩ := hwft
      cases hres : resolve (nm ++ '.' :: e) e with
      | none =>
        rw [rewriteToks_ref_none resolve dbl nm e ts' hres] at hu
        rcases List.mem_cons.mp hu with h | h
        · rw [h]; exact ⟨h1, h2, h3⟩
        · exact ih hwf' u h
      | some p =>
        rw [rewriteToks_ref_some resolve dbl nm e p ts' hres] at hu
        rcases List.mem_cons.mp hu with h | h
        · rw [h]
          have hcl := hclean nm e p h1 h2 h3 hres
          exact blk_wf_of_clean p hcl.1 hcl.2.1 hcl.2.2.1 dbl
        · exact ih hwf' u h

theorem mem_renderLine_rewriteToks (resolve : List Char → List Char → Option (List Char))
    (ts : List MapTok) (hwf : WfLine ts) (c : Char)
    (hc : c ∈ renderLine (rewriteToks resolve ts)) :
    c ∈ renderLine ts ∨ c = '<' ∨
      ∃ nm e p, nm ≠ [] ∧ (∀ a ∈ nm, fontRefChar a = true) ∧
        (e = "pfb".data ∨ e = "enc".data) ∧
        resolve (nm ++ '.' :: e) e = some p ∧ c ∈ p := by
  induction ts with
  | nil => exact absurd hc (List.not_mem_nil c)
  | cons t ts' ih =>
    have hwf' : WfLine ts' := fun x hx => hwf x (List.mem_cons_of_mem _ hx)
    have hpass : c ∈ renderLine (rewriteToks resolve ts') →
        c ∈ renderLine (t :: ts') ∨ c = '<' ∨
          ∃ nm e p, nm ≠ [] ∧ (∀ a ∈ nm, fontRefChar a = true) ∧
            (e = "pfb".data ∨ e = "enc".data) ∧
            resolve (nm ++ '.' :: e) e = some p ∧ c ∈ p := by
      intro h
      rcases ih hwf' h with h' | h' | h'
      · left; rw [renderLine_cons]; exact List.mem_append.mpr (Or.inr h')
      · right; left; exact h'
      · right; right; exact h'
    cases t with
    | txt cs =>
      rw [rewriteToks_txt, renderLine_cons] at hc
      rcases List.mem_append.mp hc with h | h
      · left; rw [renderLine_cons]; exact List.mem_append.mpr (Or.inl h)
      · exact hpass h
    | blk dbl cs =>
      rw [rewriteToks_blk, renderLine_cons] at hc
      rcases List.mem_append.mp hc with h | h
      · left; rw [renderLine_cons]; exact List.mem_append.mpr (Or.inl h)
      · exact hpass h
    | ref dbl nm e =>
      cases hres : resolve (nm ++ '.' :: e) e with
      | none =>
        rw [rewriteToks_ref_none resolve dbl nm e ts' hres, renderLine_cons] at hc
        rcases List.mem_append.mp hc with h | h
        · left; rw [renderLine_cons]; exact List.mem_append.mpr (Or.inl h)
        · exact hpass h
      | some p =>
        rw [rewriteToks_ref_some resolve dbl nm e p ts' hres, renderLine_cons] at hc
        rcases List.mem_append.mp hc with h | h
        · rw [show renderTok (MapTok.blk dbl p)
              = (if dbl then ['<', '<'] else ['<']) ++ p from rfl] at h
          rcases List.mem_append.mp h with h2 | h2
          · right; left
            cases dbl <;> simpa using h2
          · obtain ⟨h1, h2', h3⟩ := hwf (MapTok.ref dbl nm e) (List.mem_cons_self _ _)
            right; right; exact ⟨nm, e, p, h1, h2', h3, hres, h2⟩
        · exact hpass h

end Siglum

namespace Siglum

theorem splitOnChar_ne_nil (sep : Char) (cs : List Char) :
    splitOnChar sep cs ≠ [] := by
  induction cs with
  | nil => simp [splitOnChar]
  | cons c t ih =>
    by_cases hc : c = sep
    · simp [splitOnChar, hc]
    · simp only [splitOnChar, if_neg hc]
      cases hsp : splitOnChar sep t with
      | nil => simp
      | cons g gs => simp

theorem sep_not_mem_splitOnChar (sep : Char) (cs : List Char) :
    ∀ l ∈ splitOnChar sep cs, sep ∉ l := by
  induction cs with
  | nil =>
    intro l hl
    simp only [splitOnChar, List.mem_singleton] at hl
    rw [hl]
    simp
  | cons c t ih =>
    intro l hl
    by_cases hc : c = sep
    · simp only [splitOnChar, if_pos hc] at hl
      rcases List.mem_cons.mp hl with h | h
      · rw [h]; simp
      · exact ih l h
    · simp only [splitOnChar, if_neg hc] at hl
      cases hsp : splitOnChar sep t with
      | nil => exact absurd hsp (splitOnChar_ne_nil sep t)
      | cons g gs =>
        rw [hsp] at hl
        rcases List.mem_cons.mp hl with h | h
        · rw [h]
          intro hmem
          rcases List.mem_cons.mp hmem with h2 | h2
          · exact hc h2.symm
          · exact ih g (by rw [hsp]; exact List.mem_cons_self _ _) h2
        · exact ih l (by rw [hsp]; exact List.mem_cons_of_mem _ h)

theorem splitOnChar_cons_sep (sep : Char) (t : List Char) :
    splitOnChar sep (sep :: t) = [] :: splitOnChar sep t := by
  simp [splitOnChar]

theorem splitOnChar_cons_ne (sep c : Char) (t g : List Char)
    (gs : List (List Char)) (hc : c ≠ sep) (hsp : splitOnChar sep t = g :: gs) :
    splitOnChar sep (c :: t) = (c :: g) :: gs := by
  simp only [splitOnChar, if_neg hc, hsp]

theorem joinChar_splitOnChar (sep : Char) (cs : List Char) :
    joinChar sep (splitOnChar sep cs) = cs := by
  induction cs with
  | nil => rfl
  | cons c t ih =>
    by_cases hc : c = sep
    · subst hc
      rw [splitOnChar_cons_sep]
      cases hsp : splitOnChar c t with
      | nil => exact absurd hsp (splitOnChar_ne_nil c t)
      | cons g gs =>
        show [] ++ c :: joinChar c (g :: gs) = c :: t
        rw [← hsp, ih]
        rfl
    · cases hsp : splitOnChar sep t with
      | nil => exact absurd hsp (splitOnChar_ne_nil sep t)
      | cons g gs =>
        rw [splitOnChar_cons_ne sep c t g gs hc hsp]
        cases gs with
        | nil =>
          show c :: g = c :: t
          have hg : g = t := by
            have h2 := ih
            rw [hsp] at h2
            exact h2
          rw [hg]
        | cons g2 gs2 =>
          show (c :: g) ++ sep :: joinChar sep (g2 :: gs2) = c :: t
          have hih : g ++ sep :: joinChar sep (g2 :: gs2) = t := by
            have h2 := ih
            rw [hsp] at h2
            exact h2
          rw [List.cons_append, hih]

theorem splitOnChar_no_sep (sep : Char) (l : List Char) (h : sep ∉ l) :
    splitOnChar sep l = [l] := by
  induction l with
  | nil => rfl
  | cons c t ih =>
    have hc : c ≠ sep := by
      intro he
      exact h (by rw [he]; exact List.mem_cons_self _ _)
    rw [splitOnChar_cons_ne sep c t t [] hc
      (ih (fun hm => h (List.mem_cons_of_mem _ hm)))]

theorem splitOnChar_append_sep (sep : Char) (A B : List Char) :
    splitOnChar sep (A ++ sep :: B) = splitOnChar sep A ++ splitOnChar sep B := by
  induction A with
  | nil => simp [splitOnChar]
  | cons c A' ih =>
    by_cases hc : c = sep
    · subst hc
      rw [List.cons_append, splitOnChar_cons_sep, splitOnChar_cons_sep, ih,
        List.cons_append]
    · cases hsp : splitOnChar sep A' with
      | nil => exact absurd hsp (splitOnChar_ne_nil sep A')
      | cons g gs =>
        have hsp2 : splitOnChar sep (A' ++ sep :: B)
            = g :: (gs ++ splitOnChar sep B) := by
          rw [ih, hsp, List.cons_append]
        rw [List.cons_append,
          splitOnChar_cons_ne sep c (A' ++ sep :: B) g (gs ++ splitOnChar sep B) hc hsp2,
          splitOnChar_cons_ne sep c A' g gs hc hsp, List.cons_append]

theorem splitOnChar_joinChar (sep : Char) :
    ∀ (ls : List (List Char)), ls ≠ [] → (∀ l ∈ ls, sep ∉ l) →
      splitOnChar sep (joinChar sep ls) = ls := by
  intro ls
  induction ls with
  | nil => intro h _; exact absurd rfl h
  | cons l ls' ih =>
    intro _ hall
    cases ls' with
    | nil =>
      show splitOnChar sep l = [l]
      exact splitOnChar_no_sep sep l (hall l (List.mem_cons_self _ _))
    | cons l2 ls2 =>
      rw [show joinChar sep (l :: l2 :: ls2)
          = l ++ sep :: joinChar sep (l2 :: ls2) from rfl]
      rw [splitOnChar_append_sep]
      rw [splitOnChar_no_sep sep l (hall l (List.mem_cons_self _ _))]
      rw [ih (by simp) (fun x hx => hall x (List.mem_cons_of_mem _ hx))]
      rfl

theorem mem_joinChar (sep : Char) (c : Char) :
    ∀ (ls : List (List Char)), c ∈ joinChar sep ls →
      c = sep ∨ ∃ l ∈ ls, c ∈ l := by
  intro ls
  induction ls with
  | nil => intro h; exact absurd h (List.not_mem_nil c)
  | cons l ls' ih =>
    intro h
    cases ls' with
    | nil =>
      right
      exact ⟨l, List.mem_cons_self _ _, h⟩
    | cons l2 ls2 =>
      rw [show joinChar sep (l :: l2 :: ls2)
          = l ++ sep :: joinChar sep (l2 :: ls2) from rfl] at h
      rcases List.mem_append.mp h with h1 | h1
      · right; exact ⟨l, List.mem_cons_self _ _, h1⟩
      · rcases List.mem_cons.mp h1 with h2 | h2
        · left; exact h2
        · rcases ih h2 with h3 | ⟨x, hx1, hx2⟩
          · left; exact h3
          · right; exact ⟨x, List.mem_cons_of_mem _ hx1, hx2⟩

theorem mem_of_mem_splitOnChar (sep : Char) (cs : List Char) :
    ∀ l ∈ splitOnChar sep cs, ∀ c ∈ l, c ∈ cs := by
  induction cs with
  | nil =>
    intro l hl c hc
    simp only [splitOnChar, List.mem_singleton] at hl
    rw [hl] at hc
    exact absurd hc (List.not_mem_nil c)
  | cons a t ih =>
    intro l hl c hc
    by_cases ha : a = sep
    · simp only [splitOnChar, if_pos ha] at hl
      rcases List.mem_cons.mp hl with h | h
      · rw [h] at hc
        exact absurd hc (List.not_mem_nil c)
      · exact List.mem_cons_of_mem _ (ih l h c hc)
    · simp only [splitOnChar, if_neg ha] at hl
      cases hsp : splitOnChar sep t with
      | nil => exact absurd hsp (splitOnChar_ne_nil sep t)
      | cons g gs =>
        rw [hsp] at hl
        rcases List.mem_cons.mp hl with h | h
        · rw [h] at hc
          rcases List.mem_cons.mp hc with h2 | h2
          · rw [h2]; exact List.mem_cons_self _ _
          · exact List.mem_cons_of_mem _
              (ih g (by rw [hsp]; exact List.mem_cons_self _ _) c h2)
        · exact List.mem_cons_of_mem _
            (ih l (by rw [hsp]; exact List.mem_cons_of_mem _ h) c hc)

end Siglum

namespace Siglum

/-- A content line the rewriting passes handle: either skipped as comment /
blank, or the render of a well-formed token line. -/
def LineGood (l : List Char) : Prop :=
  lineIsSkippable l = true ∨ ∃ ts, WfLine ts ∧ l = renderLine ts

/-- A line one pass leaves alone: skipped, or well-formed with every
reference failing to resolve. -/
def LineStable (resolve : List Char → List Char → Option (List Char))
    (l : List Char) : Prop :=
  lineIsSkippable l = true ∨
    ∃ ts, WfLine ts ∧ (∀ r ∈ refsOf ts, resolve r.2.1 r.2.2 = none) ∧
      l = renderLine ts

theorem rewriteFontRefsLine_of_stable
    (resolve : List Char → List Char → Option (List Char)) (l : List Char)
    (h : LineStable resolve l) : rewriteFontRefsLine resolve l = (l, 0) := by
  rcases h with h | ⟨ts, hwf, hrefs, rfl⟩
  · exact rewriteFontRefsLine_skip resolve l h
  · exact rewriteFontRefsLine_stable resolve ts hwf hrefs

theorem rewriteFontRefsLine_out
    (resolve : List Char → List Char → Option (List Char))
    (hclean : CleanResolve resolve) (l : List Char) (hg : LineGood l)
    (hnl : '\n' ∉ l) :
    LineStable resolve (rewriteFontRefsLine resolve l).1 ∧
      LineGood (rewriteFontRefsLine resolve l).1 ∧
      '\n' ∉ (rewriteFontRefsLine resolve l).1 := by
  rcases hg with hsk | ⟨ts, hwf, rfl⟩
  · rw [rewriteFontRefsLine_skip resolve l hsk]
    exact ⟨Or.inl hsk, Or.inl hsk, hnl⟩
  · cases hskip : lineIsSkippable (renderLine ts) with
    | true =>
      rw [rewriteFontRefsLine_skip resolve _ hskip]
      exact ⟨Or.inl hskip, Or.inl hskip, hnl⟩
    | false =>
      rw [rewriteFontRefsLine_renderLine resolve hclean ts hwf hskip]
      refine ⟨Or.inr ⟨rewriteToks resolve ts, rewriteToks_wf resolve hclean ts hwf,
        rewriteToks_refs_none resolve ts, rfl⟩,
        Or.inr ⟨rewriteToks resolve ts, rewriteToks_wf resolve hclean ts hwf, rfl⟩,
        ?_⟩
      intro hmem
      rcases mem_renderLine_rewriteToks resolve ts hwf '\n' hmem with
        h | h | ⟨nm, e, p, h1, h2, h3, hres, hp⟩
      · exact hnl h
      · cases h
      · exact (hclean nm e p h1 h2 h3 hres).2.2.2 hp

theorem rewriteContent_stable
    (resolve : List Char → List Char → Option (List Char)) (content : List Char)
    (h : ∀ l ∈ splitOnChar '\n' content, LineStable resolve l) :
    rewriteContent resolve content = (content, 0) := by
  have h1 : (((splitOnChar '\n' content).map
      (rewriteFontRefsLine resolve)).map Prod.fst) = splitOnChar '\n' content := by
    rw [List.map_map]
    have hcg : ∀ l ∈ splitOnChar '\n' content,
        (Prod.fst ∘ rewriteFontRefsLine resolve) l = id l := by
      intro l hl
      simp [rewriteFontRefsLine_of_stable resolve l (h l hl)]
    rw [List.map_congr_left hcg, List.map_id]
  have h2 : ((((splitOnChar '\n' content).map
      (rewriteFontRefsLine resolve)).map Prod.snd)).sum = 0 := by
    rw [List.map_map]
    apply sum_map_zero
    intro l hl
    simp [rewriteFontRefsLine_of_stable resolve l (h l hl)]
  unfold rewriteContent
  dsimp only
  rw [h1, h2, joinChar_splitOnChar]

theorem rewriteContent_lines
    (resolve : List Char → List Char → Option (List Char))
    (hclean : CleanResolve resolve) (content : List Char)
    (hg : ∀ l ∈ splitOnChar '\n' content, LineGood l) :
    ∀ l' ∈ splitOnChar '\n' ((rewriteContent resolve content).1),
      LineStable resolve l' ∧ LineGood l' := by
  have hout : ∀ l ∈ splitOnChar '\n' content,
      LineStable resolve (rewriteFontRefsLine resolve l).1 ∧
        LineGood (rewriteFontRefsLine resolve l).1 ∧
        '\n' ∉ (rewriteFontRefsLine resolve l).1 :=
    fun l hl => rewriteFontRefsLine_out resolve hclean l (hg l hl)
      (sep_not_mem_splitOnChar '\n' content l hl)
  have hlines : splitOnChar '\n' ((rewriteContent resolve content).1)
      = (splitOnChar '\n' content).map
          (fun l => (rewriteFontRefsLine resolve l).1) := by
    unfold rewriteContent
    dsimp only
    rw [List.map_map]
    rw [show (Prod.fst ∘ rewriteFontRefsLine resolve)
        = fun l => (rewriteFontRefsLine resolve l).1 from rfl]
    apply splitOnChar_joinChar
    · intro hnil
      exact splitOnChar_ne_nil '\n' content (List.map_eq_nil.mp hnil)
    · intro l' hl'
      obtain ⟨l, hl, rfl⟩ := List.mem_map.mp hl'
      exact (hout l hl).2.2
  intro l' hl'
  rw [hlines] at hl'
  obtain ⟨l, hl, rfl⟩ := List.mem_map.mp hl'
  exact ⟨(hout l hl).1, (hout l hl).2.1⟩

end Siglum

namespace Siglum

/-- Characters occurring in the absolute font paths the code constructs. -/
def cleanPathChar (c : Char) : Bool := (c = '/') || fontRefChar c || (c = '.')

theorem mem_upToLastSlash (cs : List Char) (c : Char)
    (h : c ∈ upToLastSlash cs) : c ∈ cs ∨ c = '/' := by
  unfold upToLastSlash at h
  rcases mem_joinChar '/' c _ h with h1 | ⟨l, hl, hc⟩
  · right; exact h1
  · left
    exact mem_of_mem_splitOnChar '/' cs l (List.dropLast_subset _ hl) c hc

theorem mem_packageNameOf (cs : List Char) (c : Char)
    (h : c ∈ packageNameOf cs) : c ∈ cs := by
  unfold packageNameOf at h
  split at h
  · rename_i fname pkg x xs heq
    split at h
    · have hpkg : pkg ∈ (splitOnChar '/' cs).reverse := by
        rw [heq]
        exact List.mem_cons_of_mem _ (List.mem_cons_self _ _)
      rw [List.mem_reverse] at hpkg
      exact mem_of_mem_splitOnChar '/' cs pkg hpkg c h
    · exact absurd h (List.not_mem_nil c)
  · exact absurd h (List.not_mem_nil c)

theorem upToLastSlash_head (cs : List Char) (hh : cs.head? = some '/') :
    upToLastSlash cs = [] ∨ (upToLastSlash cs).head? = some '/' := by
  cases cs with
  | nil => cases hh
  | cons c0 t =>
    injection hh with hc0
    subst hc0
    unfold upToLastSlash
    rw [splitOnChar_cons_sep]
    cases hsp : splitOnChar '/' t with
    | nil => exact absurd hsp (splitOnChar_ne_nil '/' t)
    | cons g gs =>
      cases gs with
      | nil => left; rfl
      | cons g2 gs2 => right; rfl

theorem searchDirs_clean (mapPath : List Char) (ext : List Char)
    (hh : mapPath.head? = some '/')
    (hcl : ∀ c ∈ mapPath, cleanPathChar c = true) :
    ∀ d ∈ searchDirs mapPath ext,
      (∀ c ∈ d, cleanPathChar c = true) ∧ (d = [] ∨ d.head? = some '/') := by
  have hmd1 : ∀ c ∈ upToLastSlash mapPath, cleanPathChar c = true := by
    intro c hc
    rcases mem_upToLastSlash mapPath c hc with h | h
    · exact hcl c h
    · rw [h]; decide
  have hmd2 := upToLastSlash_head mapPath hh
  have hpkg : ∀ c ∈ packageNameOf mapPath, cleanPathChar c = true :=
    fun c hc => hcl c (mem_packageNameOf mapPath c hc)
  intro d hd
  unfold searchDirs at hd
  split at hd
  · simp only [List.mem_cons, List.mem_singleton] at hd
    rcases hd with rfl | rfl | rfl | hF
    · refine ⟨?_, Or.inr rfl⟩
      intro c hc
      rcases List.mem_append.mp hc with h | h
      · exact (by decide :
          ∀ x ∈ "/texlive/texmf-dist/fonts/type1/public/".data,
            cleanPathChar x = true) c h
      · exact hpkg c h
    · exact ⟨by decide, Or.inr rfl⟩
    · exact ⟨hmd1, hmd2⟩
    · exact absurd hF (List.not_mem_nil d)
  · simp only [List.mem_cons, List.mem_singleton] at hd
    rcases hd with rfl | rfl | rfl | rfl | hF
    · refine ⟨?_, Or.inr rfl⟩
      intro c hc
      rcases List.mem_append.mp hc with h | h
      · exact (by decide :
          ∀ x ∈ "/texlive/texmf-dist/fonts/enc/dvips/".data,
            cleanPathChar x = true) c h
      · exact hpkg c h
    · exact ⟨by decide, Or.inr rfl⟩
    · refine ⟨?_, Or.inr rfl⟩
      intro c hc
      rcases List.mem_append.mp hc with h | h
      · exact (by decide :
          ∀ x ∈ "/texlive/texmf-dist/fonts/type1/public/".data,
            cleanPathChar x = true) c h
      · exact hpkg c h
    · exact ⟨hmd1, hmd2⟩
    · exact absurd hF (List.not_mem_nil d)

theorem resolveFontLoc_clean (ffl : List (String × String))
    (hffl : ∀ kv ∈ ffl, kv.2.data ≠ [] ∧ kv.2.data.head? = some '/' ∧
      '<' ∉ kv.2.data ∧ '\n' ∉ kv.2.data) :
    CleanResolve (resolveFontLoc ffl) := by
  intro nm e p _ _ _ hres
  unfold resolveFontLoc at hres
  cases hlk : ffl.lookup (String.mk (nm ++ '.' :: e)) with
  | none => rw [hlk] at hres; cases hres
  | some s =>
    rw [hlk, Option.map_some'] at hres
    injection hres with hp
    have hmem := lookup_mem_map_snd ffl _ s hlk
    obtain ⟨kv, hkv, hkv2⟩ := List.mem_map.mp hmem
    have hs := hffl kv hkv
    rw [hkv2] at hs
    rw [← hp]
    exact hs

theorem resolveSearch_clean (fs : List (String × List Char)) (mapPath : List Char)
    (hh : mapPath.head? = some '/')
    (hcl : ∀ c ∈ mapPath, cleanPathChar c = true) :
    CleanResolve (resolveSearch fs mapPath) := by
  intro nm e p hnm hall hext hres
  unfold resolveSearch at hres
  obtain ⟨d, hd, hsome⟩ := List.exists_of_findSome?_eq_some hres
  dsimp only at hsome
  by_cases hex : (fs.lookup (String.mk (d ++ '/' :: (nm ++ '.' :: e)))).isSome
  · rw [if_pos hex] at hsome
    injection hsome with hp
    obtain ⟨hdc, hdh⟩ := searchDirs_clean mapPath e hh hcl d hd
    have hfn : ∀ c ∈ '/' :: (nm ++ '.' :: e), cleanPathChar c = true := by
      intro c hc
      rcases List.mem_cons.mp hc with h | h
      · rw [h]; decide
      · rcases List.mem_append.mp h with h2 | h2
        · simp [cleanPathChar, hall c h2]
        · rcases List.mem_cons.mp h2 with h3 | h3
          · rw [h3]; decide
          · rcases hext with rfl | rfl
            · exact (by decide : ∀ x ∈ "pfb".data, cleanPathChar x = true) c h3
            · exact (by decide : ∀ x ∈ "enc".data, cleanPathChar x = true) c h3
    have hpc : ∀ c ∈ p, cleanPathChar c = true := by
      intro c hc
      rw [← hp] at hc
      rcases List.mem_append.mp hc with h | h
      · exact hdc c h
      · exact hfn c h
    refine ⟨?_, ?_, ?_, ?_⟩
    · rw [← hp]
      cases d with
      | nil => simp
      | cons d0 dt => simp
    · rw [← hp]
      rcases hdh with rfl | hdh
      · rfl
      · cases d with
        | nil => rfl
        | cons d0 dt =>
          injection hdh with hd0
          subst hd0
          rfl
    · intro hmem
      have := hpc '<' hmem
      exact absurd this (by decide)
    · intro hmem
      have := hpc '\n' hmem
      exact absurd this (by decide)
  · rw [if_neg hex] at hsome
    cases hsome

end Siglum

namespace Siglum

theorem lineIsSkippable_nil : lineIsSkippable [] = true := by decide

theorem lineIsSkippable_percent (r : List Char) :
    lineIsSkippable ('%' :: r) = true := by
  unfold lineIsSkippable jsTrimList
  rw [List.dropWhile_cons]
  rw [show jsWhitespace '%' = false from by decide]
  simp only [Bool.false_eq_true, if_false]
  rw [List.reverse_cons]
  rw [List.dropWhile_append]
  cases hde : (r.reverse.dropWhile jsWhitespace).isEmpty with
  | false =>
    rw [if_neg (by simp)]
    rw [List.reverse_append]
    simp
  | true =>
    rw [if_pos rfl]
    rw [List.dropWhile_cons]
    rw [show jsWhitespace '%' = false from by decide]
    simp

theorem procMap_fold_lines (fs : List (String × List Char)) :
    ∀ (maps : List String) (acc : List Char × Nat),
      (∀ l ∈ splitOnChar '\n' acc.1, LineGood l) →
      (∀ mp ∈ maps, mp.data.head? = some '/' ∧
        ∀ c ∈ mp.data, cleanPathChar c = true) →
      (∀ mp ∈ maps, ∀ cont, fs.lookup mp = some cont →
        ∀ l ∈ splitOnChar '\n' cont, LineGood l) →
      ∀ l ∈ splitOnChar '\n' (maps.foldl (procMapStep fs) acc).1, LineGood l := by
  intro maps
  induction maps with
  | nil => intro acc hacc _ _; exact hacc
  | cons mp maps' ih =>
    intro acc hacc hclean hcont
    rw [List.foldl_cons]
    apply ih
    · cases hlk : fs.lookup mp with
      | none =>
        rw [show procMapStep fs acc mp = acc from by unfold procMapStep; rw [hlk]]
        exact hacc
      | some cont =>
        have hstep1 : (procMapStep fs acc mp).1
            = acc.1 ++ '\n' :: (("% Added from ".data ++ mp.data)
              ++ '\n' :: ((rewriteContent (resolveSearch fs mp.data) cont).1 ++ ['\n'])) := by
          unfold procMapStep
          rw [hlk]
        intro l hl
        rw [hstep1, splitOnChar_append_sep] at hl
        rcases List.mem_append.mp hl with h | h
        · exact hacc l h
        · have hmpc := hclean mp (List.mem_cons_self _ _)
          have hheader : '\n' ∉ ("% Added from ".data ++ mp.data) := by
            intro hm
            rcases List.mem_append.mp hm with h2 | h2
            · exact absurd h2 (by decide)
            · have := hmpc.2 '\n' h2
              exact absurd this (by decide)
          rw [splitOnChar_append_sep, splitOnChar_no_sep '\n' _ hheader] at h
          rcases List.mem_append.mp h with h2 | h2
          · rw [List.mem_singleton.mp h2]
            left
            rw [show "% Added from ".data ++ mp.data
                = '%' :: (" Added from ".data ++ mp.data) from rfl]
            exact lineIsSkippable_percent _
          · rw [splitOnChar_append_sep] at h2
            rcases List.mem_append.mp h2 with h3 | h3
            · exact (rewriteContent_lines (resolveSearch fs mp.data)
                (resolveSearch_clean fs mp.data hmpc.1 hmpc.2) cont
                (hcont mp (List.mem_cons_self _ _) cont hlk) l h3).2
            · have h4 : l = [] := by simpa [splitOnChar] using h3
              rw [h4]
              left
              exact lineIsSkippable_nil
    · exact fun mp' h => hclean mp' (List.mem_cons_of_mem _ h)
    · exact fun mp' h cont hc => hcont mp' (List.mem_cons_of_mem _ h) cont hc

end Siglum

namespace Siglum

theorem processFontMaps_pending (st : FinState) :
    (processFontMaps st).pendingFontMaps = [] := by
  unfold processFontMaps
  by_cases h : st.pendingFontMaps.isEmpty
  · rw [if_pos h]
    exact List.isEmpty_iff.mp h
  · rw [if_neg h]

theorem processFontMaps_ffl (st : FinState) :
    (processFontMaps st).fontFileLocations = st.fontFileLocations := by
  unfold processFontMaps
  by_cases h : st.pendingFontMaps.isEmpty
  · rw [if_pos h]
  · rw [if_neg h]
    dsimp only
    split <;> rfl

theorem processFontMaps_mounted (st : FinState) :
    (processFontMaps st).mountedFiles = st.mountedFiles := by
  unfold processFontMaps
  by_cases h : st.pendingFontMaps.isEmpty
  · rw [if_pos h]
  · rw [if_neg h]
    dsimp only
    split <;> rfl

theorem rewritePdftexMapPaths_ffl (st : FinState) :
    (rewritePdftexMapPaths st).fontFileLocations = st.fontFileLocations := by
  unfold rewritePdftexMapPaths
  by_cases h : st.fontFileLocations.isEmpty
  · rw [if_pos h]
  · rw [if_neg h]
    cases hlk : st.fs.lookup PDFTEX_MAP_PATH with
    | none => rfl
    | some c =>
      dsimp only
      split <;> rfl

theorem rewritePdftexMapPaths_pending (st : FinState) :
    (rewritePdftexMapPaths st).pendingFontMaps = st.pendingFontMaps := by
  unfold rewritePdftexMapPaths
  by_cases h : st.fontFileLocations.isEmpty
  · rw [if_pos h]
  · rw [if_neg h]
    cases hlk : st.fs.lookup PDFTEX_MAP_PATH with
    | none => rfl
    | some c =>
      dsimp only
      split <;> rfl

theorem rewritePdftexMapPaths_mounted (st : FinState) :
    (rewritePdftexMapPaths st).mountedFiles = st.mountedFiles := by
  unfold rewritePdftexMapPaths
  by_cases h : st.fontFileLocations.isEmpty
  · rw [if_pos h]
  · rw [if_neg h]
    cases hlk : st.fs.lookup PDFTEX_MAP_PATH with
    | none => rfl
    | some c =>
      dsimp only
      split <;> rfl

theorem generateLsRState_ffl (st : FinState) :
    (generateLsRState st).fontFileLocations = st.fontFileLocations := rfl

theorem generateLsRState_pending (st : FinState) :
    (generateLsRState st).pendingFontMaps = st.pendingFontMaps := rfl

theorem generateLsRState_mounted (st : FinState) :
    (generateLsRState st).mountedFiles = st.mountedFiles := rfl

theorem processFontMaps_good (st : FinState)
    (hmp : ∀ mp ∈ st.pendingFontMaps, mp.data.head? = some '/' ∧
      ∀ c ∈ mp.data, cleanPathChar c = true)
    (hmapc : ∀ mp ∈ st.pendingFontMaps, ∀ cont, st.fs.lookup mp = some cont →
      ∀ l ∈ splitOnChar '\n' cont, LineGood l)
    (hpdf : ∀ c, st.fs.lookup PDFTEX_MAP_PATH = some c →
      ∀ l ∈ splitOnChar '\n' c, LineGood l) :
    ∀ c, (processFontMaps st).fs.lookup PDFTEX_MAP_PATH = some c →
      ∀ l ∈ splitOnChar '\n' c, LineGood l := by
  have hexist : ∀ l ∈ splitOnChar '\n'
      (match st.fs.lookup PDFTEX_MAP_PATH with | some c0 => c0 | none => []),
      LineGood l := by
    cases hlk : st.fs.lookup PDFTEX_MAP_PATH with
    | none =>
      intro l hl
      have h4 : l = [] := by simpa [splitOnChar] using hl
      rw [h4]
      exact Or.inl lineIsSkippable_nil
    | some c0 => exact hpdf c0 hlk
  have hfold := procMap_fold_lines st.fs st.pendingFontMaps
    ((match st.fs.lookup PDFTEX_MAP_PATH with | some c0 => c0 | none => []), 0)
    hexist hmp hmapc
  intro c hc
  unfold processFontMaps at hc
  by_cases hemp : st.pendingFontMaps.isEmpty
  · rw [if_pos hemp] at hc
    exact hpdf c hc
  · rw [if_neg hemp] at hc
    dsimp only at hc
    by_cases hpos : 0 < (st.pendingFontMaps.foldl (procMapStep st.fs)
        ((match st.fs.lookup PDFTEX_MAP_PATH with | some c0 => c0 | none => []), 0)).2
    · rw [if_pos hpos] at hc
      dsimp only at hc
      rw [lookup_updAssoc_self] at hc
      injection hc with hc1
      rw [← hc1]
      exact hfold
    · rw [if_neg hpos] at hc
      exact hpdf c hc

end Siglum

namespace Siglum

theorem rewriteStep_snd_ge (resolve : List Char → List Char → Option (List Char))
    (acc : List Char × Nat) (r : List Char × List Char × List Char) :
    acc.2 ≤ (rewriteStep resolve acc r).2 := by
  unfold rewriteStep
  cases resolve r.2.1 r.2.2 with
  | none => exact le_refl _
  | some p => exact Nat.le_succ _

theorem foldl_rewriteStep_snd_ge
    (resolve : List Char → List Char → Option (List Char)) :
    ∀ (L : List (List Char × List Char × List Char)) (acc : List Char × Nat),
      acc.2 ≤ (L.foldl (rewriteStep resolve) acc).2 := by
  intro L
  induction L with
  | nil => intro acc; exact le_refl _
  | cons r L' ih =>
    intro acc
    rw [List.foldl_cons]
    exact (rewriteStep_snd_ge resolve acc r).trans (ih _)

theorem foldl_rewriteStep_count_le
    (resolve : List Char → List Char → Option (List Char)) :
    ∀ (L : List (List Char × List Char × List Char)) (acc : List Char × Nat),
      (L.foldl (rewriteStep resolve) acc).2 ≤ acc.2 →
      L.foldl (rewriteStep resolve) acc = acc := by
  intro L
  induction L with
  | nil => intro acc _; rfl
  | cons r L' ih =>
    intro acc hle
    rw [List.foldl_cons] at hle ⊢
    cases hres : resolve r.2.1 r.2.2 with
    | none =>
      rw [rewriteStep_none resolve acc r hres] at hle ⊢
      exact ih acc hle
    | some p =>
      exfalso
      rw [rewriteStep_some resolve acc r p hres] at hle
      have := foldl_rewriteStep_snd_ge resolve L'
        (replaceFirst acc.1 r.1
          ((if ['<', '<'].isPrefixOf r.1 then ['<', '<'] else ['<']) ++ p),
          acc.2 + 1)
      have h2 := this
      omega

theorem rewriteFontRefsLine_count_zero
    (resolve : List Char → List Char → Option (List Char)) (l : List Char)
    (h : (rewriteFontRefsLine resolve l).2 = 0) :
    rewriteFontRefsLine resolve l = (l, 0) := by
  unfold rewriteFontRefsLine at h ⊢
  cases hskip : lineIsSkippable l with
  | true => simp
  | false =>
    rw [hskip] at h
    simp only [Bool.false_eq_true, if_false] at h ⊢
    apply foldl_rewriteStep_count_le
    rw [h]

theorem rewriteContent_count_zero
    (resolve : List Char → List Char → Option (List Char)) (content : List Char)
    (h : (rewriteContent resolve content).2 = 0) :
    rewriteContent resolve content = (content, 0) := by
  have hlz : ∀ l ∈ splitOnChar '\n' content,
      (rewriteFontRefsLine resolve l).2 = 0 := by
    intro l hl
    unfold rewriteContent at h
    dsimp only at h
    by_contra hnz
    have hmem : (rewriteFontRefsLine resolve l).2 ∈
        (((splitOnChar '\n' content).map (rewriteFontRefsLine resolve)).map
          Prod.snd) :=
      List.mem_map.mpr ⟨rewriteFontRefsLine resolve l,
        List.mem_map.mpr ⟨l, hl, rfl⟩, rfl⟩
    have hle := List.single_le_sum (fun x _ => Nat.zero_le x) _ hmem
    omega
  have h1 : (((splitOnChar '\n' content).map
      (rewriteFontRefsLine resolve)).map Prod.fst) = splitOnChar '\n' content := by
    rw [List.map_map]
    have hcg : ∀ l ∈ splitOnChar '\n' content,
        (Prod.fst ∘ rewriteFontRefsLine resolve) l = id l := by
      intro l hl
      simp [rewriteFontRefsLine_count_zero resolve l (hlz l hl)]
    rw [List.map_congr_left hcg, List.map_id]
  unfold rewriteContent at h ⊢
  dsimp only at h ⊢
  rw [h1, h, joinChar_splitOnChar]

theorem updAssoc_updAssoc {σ α : Type} [BEq σ] [LawfulBEq σ]
    (m : List (σ × α)) (k : σ) (v w : α) :
    updAssoc (updAssoc m k v) k w = updAssoc m k w := by
  unfold updAssoc
  congr 1
  rw [List.filter_cons]
  simp only [beq_self_eq_true, Bool.not_true, Bool.false_eq_true, if_false]
  rw [List.filter_filter]
  simp

theorem generateLsRState_idem (s : FinState) :
    generateLsRState (generateLsRState s) = generateLsRState s := by
  unfold generateLsRState
  dsimp only
  rw [updAssoc_updAssoc]

theorem processFontMaps_of_pending_nil (st : FinState)
    (h : st.pendingFontMaps = []) : processFontMaps st = st := by
  unfold processFontMaps
  rw [if_pos (by rw [h]; rfl)]

theorem lineGood_stable_empty (l : List Char) (hg : LineGood l) :
    LineStable (resolveFontLoc []) l := by
  rcases hg with h | ⟨ts, hwf, rfl⟩
  · exact Or.inl h
  · exact Or.inr ⟨ts, hwf, fun r hr => rfl, rfl⟩

end Siglum

namespace Siglum

theorem rewritePdftexMapPaths_out_stable (st1 : FinState)
    (hfflgood : ∀ kv ∈ st1.fontFileLocations, kv.2.data ≠ [] ∧
      kv.2.data.head? = some '/' ∧ '<' ∉ kv.2.data ∧ '\n' ∉ kv.2.data)
    (hgood : ∀ c, st1.fs.lookup PDFTEX_MAP_PATH = some c →
      ∀ l ∈ splitOnChar '\n' c, LineGood l) :
    ∀ c', (rewritePdftexMapPaths st1).fs.lookup PDFTEX_MAP_PATH = some c' →
      ¬ 0 < (rewriteContent (resolveFontLoc st1.fontFileLocations) c').2 := by
  intro c' hc'
  unfold rewritePdftexMapPaths at hc'
  by_cases hemp : st1.fontFileLocations.isEmpty
  · rw [if_pos hemp] at hc'
    have hffl_nil : st1.fontFileLocations = [] := List.isEmpty_iff.mp hemp
    have hstab : ∀ l ∈ splitOnChar '\n' c',
        LineStable (resolveFontLoc st1.fontFileLocations) l := by
      rw [hffl_nil]
      exact fun l hl => lineGood_stable_empty l (hgood c' hc' l hl)
    rw [rewriteContent_stable _ c' hstab]
    simp
  · rw [if_neg hemp] at hc'
    have hclean : CleanResolve (resolveFontLoc st1.fontFileLocations) :=
      resolveFontLoc_clean _ hfflgood
    cases hlk : st1.fs.lookup PDFTEX_MAP_PATH with
    | none =>
      rw [hlk] at hc'
      dsimp only at hc'
      rw [hlk] at hc'
      cases hc'
    | some c0 =>
      rw [hlk] at hc'
      dsimp only at hc'
      by_cases hpos : 0 < (rewriteContent (resolveFontLoc st1.fontFileLocations) c0).2
      · rw [if_pos hpos] at hc'
        dsimp only at hc'
        rw [lookup_updAssoc_self] at hc'
        injection hc' with hcc
        have hstab := rewriteContent_lines (resolveFontLoc st1.fontFileLocations)
          hclean c0 (hgood c0 hlk)
        rw [← hcc]
        rw [rewriteContent_stable _ _ (fun l hl => (hstab l hl).1)]
        simp
      · rw [if_neg hpos] at hc'
        rw [hlk] at hc'
        injection hc' with hcc
        rw [← hcc]
        exact hpos

theorem rewritePdftexMapPaths_fix (T : FinState)
    (hstable : ∀ c', T.fs.lookup PDFTEX_MAP_PATH = some c' →
      ¬ 0 < (rewriteContent (resolveFontLoc T.fontFileLocations) c').2) :
    rewritePdftexMapPaths T = T := by
  unfold rewritePdftexMapPaths
  by_cases hemp : T.fontFileLocations.isEmpty
  · rw [if_pos hemp]
  · rw [if_neg hemp]
    cases hlk : T.fs.lookup PDFTEX_MAP_PATH with
    | none => rfl
    | some c' =>
      dsimp only
      rw [if_neg (hstable c' hlk)]

end Siglum

namespace Siglum

/-- C9: Within one VFS instance, `finalize()` is idempotent: a second call
leaves the state unchanged — `processFontMaps` returns immediately because
the pending-font-map queue was cleared, the `pdftex.map` rewrite performs
zero replacements on the already-rewritten content (every reference that
could resolve was replaced by a shielded `<`+absolute-path form the regex
no longer resolves, and the unresolvable ones still fail), and `generateLsR`
rewrites the identical `ls-R` content derived from the unchanged mounted
set.  Hypotheses: the font-file index maps to non-empty absolute paths free
of `<`, newlines and `$` (so `String.replace` inserts them literally);
queued map paths are absolute and consist of path
characters; and the queued map files and any existing `pdftex.map` consist
of comment/blank lines and lines built from `<`-free text, `<<?name.(pfb|enc)`
references, and `<`-blocks the reference regex cannot match. -/
theorem finalize_idempotent (st : FinState)
    (hffl : ∀ kv ∈ st.fontFileLocations, kv.2.data ≠ [] ∧
      kv.2.data.head? = some '/' ∧ '<' ∉ kv.2.data ∧ '\n' ∉ kv.2.data ∧
      '$' ∉ kv.2.data)
    (hmp : ∀ mp ∈ st.pendingFontMaps, mp.data.head? = some '/' ∧
      ∀ c ∈ mp.data, cleanPathChar c = true)
    (hmapc : ∀ mp ∈ st.pendingFontMaps, ∀ cont, st.fs.lookup mp = some cont →
      ∀ l ∈ splitOnChar '\n' cont, LineGood l)
    (hpdf : ∀ c, st.fs.lookup PDFTEX_MAP_PATH = some c →
      ∀ l ∈ splitOnChar '\n' c, LineGood l) :
    finalize (finalize st) = finalize st := by
  have hne : PDFTEX_MAP_PATH ≠ LS_R_PATH := by decide
  have hA2 : (processFontMaps st).fontFileLocations = st.fontFileLocations :=
    processFontMaps_ffl st
  have hA3 := processFontMaps_good st hmp hmapc hpdf
  have hA4 := rewritePdftexMapPaths_out_stable (processFontMaps st)
    (by
      rw [hA2]
      exact fun kv hkv => ⟨(hffl kv hkv).1, (hffl kv hkv).2.1,
        (hffl kv hkv).2.2.1, (hffl kv hkv).2.2.2.1⟩) hA3
  have hpend : (finalize st).pendingFontMaps = [] := by
    show (generateLsRState (rewritePdftexMapPaths
      (processFontMaps st))).pendingFontMaps = []
    rw [generateLsRState_pending, rewritePdftexMapPaths_pending,
      processFontMaps_pending]
  have hstab : ∀ c', (finalize st).fs.lookup PDFTEX_MAP_PATH = some c' →
      ¬ 0 < (rewriteContent (resolveFontLoc
        (finalize st).fontFileLocations) c').2 := by
    intro c' hc'
    have hlk2 : (rewritePdftexMapPaths
        (processFontMaps st)).fs.lookup PDFTEX_MAP_PATH = some c' := by
      unfold finalize generateLsRState at hc'
      dsimp only at hc'
      rw [lookup_updAssoc_ne _ _ _ _ hne] at hc'
      exact hc'
    have hffl_eq : (finalize st).fontFileLocations
        = (processFontMaps st).fontFileLocations := by
      show (generateLsRState (rewritePdftexMapPaths
        (processFontMaps st))).fontFileLocations = _
      rw [generateLsRState_ffl, rewritePdftexMapPaths_ffl]
    rw [hffl_eq]
    exact hA4 c' hlk2
  show generateLsRState (rewritePdftexMapPaths (processFontMaps (finalize st)))
    = finalize st
  rw [processFontMaps_of_pending_nil (finalize st) hpend,
    rewritePdftexMapPaths_fix (finalize st) hstab]
  exact generateLsRState_idem (rewritePdftexMapPaths (processFontMaps st))

end Siglum

namespace Siglum

theorem finalize_idempotent_witness :
    finalize (finalize
      { fs := [(PDFTEX_MAP_PATH, "cmr10 CMR10 <cmr10.pfb".data)],
        pendingFontMaps := [],
        fontFileLocations :=
          [("cmr10.pfb", "/texlive/texmf-dist/fonts/type1/public/cm/cmr10.pfb")],
        mountedFiles := [["texlive", "texmf-dist", "tex", "a.sty"]] })
    = finalize
      { fs := [(PDFTEX_MAP_PATH, "cmr10 CMR10 <cmr10.pfb".data)],
        pendingFontMaps := [],
        fontFileLocations :=
          [("cmr10.pfb", "/texlive/texmf-dist/fonts/type1/public/cm/cmr10.pfb")],
        mountedFiles := [["texlive", "texmf-dist", "tex", "a.sty"]] } := by
  apply finalize_idempotent
  · intro kv hkv
    rw [List.mem_singleton.mp hkv]
    exact ⟨by decide, by decide, by decide, by decide, by decide⟩
  · intro mp hm
    exact absurd hm (List.not_mem_nil mp)
  · intro mp hm
    exact absurd hm (List.not_mem_nil mp)
  · intro c hc
    have h2 : List.lookup PDFTEX_MAP_PATH
        [(PDFTEX_MAP_PATH, "cmr10 CMR10 <cmr10.pfb".data)]
        = some ("cmr10 CMR10 <cmr10.pfb".data) := by decide
    have hcc : c = "cmr10 CMR10 <cmr10.pfb".data := by
      rw [h2] at hc
      injection hc with h3
      exact h3.symm
    subst hcc
    intro l hl
    have hsplit : splitOnChar '\n' ("cmr10 CMR10 <cmr10.pfb".data)
        = ["cmr10 CMR10 <cmr10.pfb".data] := by decide
    rw [hsplit, List.mem_singleton] at hl
    subst hl
    right
    refine ⟨[.txt "cmr10 CMR10 ".data, .ref false "cmr10".data "pfb".data], ?_, ?_⟩
    · intro t ht
      rcases List.mem_cons.mp ht with h | h
      · rw [h]
        show '<' ∉ "cmr10 CMR10 ".data
        decide
      · rw [List.mem_singleton.mp h]
        exact ⟨by decide, by decide, Or.inl rfl⟩
    · decide

end Siglum
